import Mathlib

/-!
# Class probability (CPON): Beta-segment fitting engine

A shallow embedding of `classprobability.cpp` (namespace `beta` and class `Probaclass`),
followed by theorems about it.

Conventions of the embedding

* `double` values are modelled by exact numbers: rationals for the histogram and the
  cumulative histogram, an arbitrary linearly ordered field `K` for the code that calls
  `exp`, `sqrt` and `boost::math::ibeta`.  Those three library functions are parameters of
  the definitions that use them; the theorems instantiate `exp` and `sqrt` with
  `Real.exp` and `Real.sqrt`.
* Division is the total division of a field (`x / 0 = 0`), where IEEE arithmetic yields
  an infinity or a NaN.  Every theorem below that depends on a quotient says which
  divisor is non-zero, or uses an input where the IEEE value leads to the same result.
* `std::vector` is a `List`; `push_back` appends at the end.
* `int` counters are unbounded integers (signed overflow is undefined in C++); the
  `unsigned int` product and sum in `kstest` wrap modulo `2 ^ 32`.  Container sizes are
  taken to fit in an `unsigned int`.
* `std::map<double, betaparam_t>` is a list of key-value pairs in increasing key order;
  `insert` keeps the order and leaves an existing key untouched.
* The rescaling step of `map_beta` converts a `double` to `int`; there `K` also carries a
  floor function.  The members `imin` and `imax` of `m_pattern` are natural numbers.
* Where the rounding of `double` arithmetic changes what a function returns, the function
  has a second definition with the suffix `_double`, in which the result of every
  arithmetic operation is rounded to 53 significant bits (`round_double`: to nearest, ties
  to even; the exponent range is not modelled).  This is done for `beta::histogram`, whose
  cursor accumulates `area += step`, and for `beta::moment_match`.
-/

namespace classprobability

namespace beta

/-! ## `beta::histogram` -/

/-- The loop state of `beta::histogram`: the bins closed so far (`hist`), the running count
of the open bin (`hvar`) and the upper edge of the open bin (`area`). -/
structure HistState where
  hist : List Int
  hvar : Int
  area : ℚ
deriving DecidableEq

/-- The inner loop `while (x > area) { hist.push_back(hvar); hvar = 0; area += step; }`.
The loop needs `0 < step` to end; `step = 1 / bins` is positive for every `bins ≥ 1`.
For `bins = 0` the C++ step is `+inf` and the body never runs, as here. -/
def histogram_advance (step x : ℚ) (s : HistState) : HistState :=
  if s.area < x ∧ 0 < step then
    histogram_advance step x ⟨s.hist ++ [s.hvar], 0, s.area + step⟩
  else s
termination_by Nat.ceil ((x - s.area) / step)
decreasing_by
  rename_i h
  obtain ⟨hx, hs⟩ := h
  have h1 : (x - (s.area + step)) / step = (x - s.area) / step - 1 := by
    field_simp
    ring
  show Nat.ceil ((x - (s.area + step)) / step) < Nat.ceil ((x - s.area) / step)
  rw [h1, Nat.lt_ceil]
  have hpos : 0 < (x - s.area) / step := div_pos (sub_pos.mpr hx) hs
  rcases le_or_lt ((x - s.area) / step - 1) 0 with hle | hgt
  · rw [Nat.ceil_eq_zero.mpr hle]
    simpa using hpos
  · have := Nat.ceil_lt_add_one hgt.le
    linarith

/-- One pass of the outer `for` loop over `data`: advance the cursor past the closed bins,
then `hvar++`. -/
def histogram_step (step : ℚ) (s : HistState) (x : ℚ) : HistState :=
  let s' := histogram_advance step x s
  ⟨s'.hist, s'.hvar + 1, s'.area⟩

/-- The statement `hist.back()++` (no effect on an empty vector in this model). -/
def incr_back : List Int → List Int
  | [] => []
  | [c] => [c + 1]
  | c :: cs => c :: incr_back cs

/-- The padding loop `while (hist.size() < bins) { hist.push_back(hvar); hvar = 0; }`,
run for its `bins - hist.size()` iterations. -/
def histogram_pad : Nat → List Int → Int → List Int
  | 0, hist, _ => hist
  | n + 1, hist, hvar => histogram_pad n (hist ++ [hvar]) 0

/-- The function `beta::histogram(data, bins)`. -/
def histogram (data : List ℚ) (bins : Nat) : List Int :=
  let step : ℚ := 1 / (bins : ℚ)
  let s := data.foldl (histogram_step step) ⟨[], 0, step⟩
  if s.hist.length = bins then incr_back s.hist
  else histogram_pad (bins - s.hist.length) s.hist s.hvar


/-! ## `beta::cumulahisto` -/

/-- The accumulation loop of `beta::cumulahisto`:
`cum += hist_ui[i]; hist.push_back((double)cum / (double)size);` over the remaining counts. -/
def cumulahisto_loop (size : Int) : Int → List Int → List ℚ
  | _, [] => []
  | cum, c :: cs => ((cum + c : Int) : ℚ) / (size : ℚ) :: cumulahisto_loop size (cum + c) cs

/-- The function `beta::cumulahisto(hist_ui, bins)`.  The counts are first sorted ascending
(`std::sort`, in place: the caller's vector is left sorted as well), `size` is their sum
(`std::accumulate`), and the parameter `bins` is not used. -/
def cumulahisto (hist_ui : List Int) (_bins : Nat) : List ℚ :=
  let sorted := hist_ui.insertionSort (· ≤ ·)
  let size := sorted.foldl (· + ·) 0
  cumulahisto_loop size 0 sorted

/-! ## Records of `classprobability.h` -/

/-- Modelled from the spec: `beta::betaparam_t` is declared in `classprobability.h`, which is
not among the sources; a pair `(alpha, beta)` as the spec describes BetaParam and as the
code uses its members. -/
structure betaparam_t (K : Type) where
  alpha : K
  beta : K

/-- Modelled from the spec: `beta::ksresult_t` is declared in `classprobability.h`; the
(statistic, p-value) pair of the spec, members `d` and `pval`, initialised in that order. -/
structure ksresult_t (K : Type) where
  d : K
  pval : K

/-- Modelled from the spec: `beta::kstest_t` is declared in `classprobability.h`; the KS test
state of the spec, members in the order of the initialiser
`{ecdf, ecdf_size, en_sqrt, 0, 1}` of `search_betamap`, the omitted `result` being
zero-initialised. -/
structure kstest_t (K : Type) where
  ecdf : List K
  size : Nat
  en_sqrt : K
  front : Nat
  rear : Nat
  result : ksresult_t K

/-- Modelled from the spec: `pattern_t` is declared in `classprobability.h`; the per-class
state bundle of the spec with the rescale state, members as `Probaclass::map_beta` uses
them. -/
structure pattern_t (K : Type) where
  data : List K
  ecdf : List K
  mean : K
  var : K
  imin : Nat
  imax : Nat
  iratio : K

/-- The container `std::map<double, betaparam_t>`: the entries in increasing key order. -/
abbrev betamap_t (K : Type) := List (K × betaparam_t K)

section Engine

variable {K : Type} [LinearOrderedField K]

/-! ## `beta::moment_match` -/

/-- The function `beta::moment_match(mean, var)` with `upper = 1`, `lower = 0`. -/
def moment_match (mean var : K) : betaparam_t K :=
  let ml := mean - 0
  let um := 1 - mean
  let alpha := |mean * (((ml * um) / var) - 1)|
  ⟨alpha, alpha * (um / ml)⟩

/-! ## `beta::qks` -/

/-- The `for (j = 1; j <= 100; j++)` loop of `beta::qks`.  The first argument counts the
iterations still allowed, `j` is the loop counter; when the allowance is used up the
function returns the fallback `1.`. -/
def qks_loop (exp : K → K) (a2 : K) : Nat → Nat → K → K → K → K
  | 0, _, _, _, _ => 1
  | n + 1, j, fac, sum, termbf =>
    let term := fac * exp (a2 * (j : K) * (j : K))
    let sum1 := sum + term
    if |term| ≤ 0.001 * termbf ∨ |term| ≤ 1.0e-8 * sum1 then sum1
    else qks_loop exp a2 n (j + 1) (-fac) sum1 |term|

/-- The function `beta::qks(alam)`: `a2 = -2 alam²`, `fac = 2`, `sum = 0`, `termbf = 0` and at
most `100` terms. -/
def qks (exp : K → K) (alam : K) : K :=
  qks_loop exp (-2 * alam * alam) 100 1 2 0 0

/-! ## `beta::kstest` -/

/-- The loop of `beta::kstest` over the common indices:
`if ((dt = fabs(v1 - v2)) > d) d = dt;`. -/
def kstest_loop : List K → List K → K → K
  | v1 :: r1, v2 :: r2, d => kstest_loop r1 r2 (if |v1 - v2| > d then |v1 - v2| else d)
  | _, _, d => d

/-- The function `beta::kstest(sample1, sample2)`.  The `unsigned int` product `n1 * n2` and sum
`n1 + n2` wrap modulo `2 ^ 32`; `en` is computed before the size check, as in the source; the
`throw` is the `error` result. -/
def kstest (exp sqrt : K → K) (sample1 sample2 : List K) : Except String (ksresult_t K) :=
  let n1 := sample1.length
  let n2 := sample2.length
  let en := sqrt ((((n1 * n2) % 2 ^ 32 : Nat) : K) / (((n1 + n2) % 2 ^ 32 : Nat) : K))
  if n1 ≠ n2 then Except.error "size of each sample must be same."
  else
    let d := kstest_loop sample1 sample2 0
    Except.ok ⟨d, qks exp ((en + 0.23 / en) * d)⟩

/-! ## `beta::partial_kstest` -/

/-- The loop `for (j = kst.front; j < kst.rear; j++)` of `beta::partial_kstest`; the first
argument is the number of indices left, `rear - j`.  An index outside `ecdf` (undefined in
C++) reads `0`; `search_betamap` keeps `rear ≤ ecdf.size()`. -/
def partial_kstest_loop (ibeta : K → K → K → K) (ecdf : List K) (size : Nat)
    (bp : betaparam_t K) : Nat → Nat → K → K
  | 0, _, d => d
  | n + 1, j, d =>
    let fn := ecdf.getD j 0
    let rv := ((j + 1 : Nat) : K) / (size : K)
    let ff := ibeta bp.alpha bp.beta rv
    let dt := |fn - ff|
    partial_kstest_loop ibeta ecdf size bp n (j + 1) (if dt > d then dt else d)

/-- The function `beta::partial_kstest(kst, bp)`: it overwrites `kst.result`. -/
def partial_kstest (ibeta : K → K → K → K) (exp : K → K) (kst : kstest_t K)
    (bp : betaparam_t K) : kstest_t K :=
  let d := partial_kstest_loop ibeta kst.ecdf kst.size bp (kst.rear - kst.front) kst.front 0
  { kst with result := ⟨d, qks exp ((kst.en_sqrt + 0.23 / kst.en_sqrt) * d)⟩ }

/-! ## `beta::search_beta` -/

/-- The variables of `beta::search_beta` that live across its loops. -/
structure search_t (K : Type) where
  kst : kstest_t K
  bp : betaparam_t K
  asign : K
  bsign : K
  pd : K

/-- The first inner loop of `search_beta` (over `alpha`), at most `n` more passes with the
current `astep`. -/
def search_beta_alpha (ibeta : K → K → K → K) (exp : K → K) :
    Nat → search_t K → K → search_t K
  | 0, s, _ => s
  | n + 1, s, astep =>
    if s.kst.result.pval < 0.05 then
      if s.bp.alpha + s.asign * astep < 0 then s
      else
        let bp : betaparam_t K := ⟨s.bp.alpha + s.asign * astep, s.bp.beta⟩
        let kst := partial_kstest ibeta exp s.kst bp
        if kst.result.d > s.pd then
          search_beta_alpha ibeta exp n ⟨kst, bp, s.asign * -1, s.bsign, s.pd⟩ (astep * 0.1)
        else
          search_beta_alpha ibeta exp n ⟨kst, bp, s.asign, s.bsign, kst.result.d⟩ astep
    else s

/-- The second inner loop of `search_beta` (over `beta`), at most `n` more passes with the
current `bstep`. -/
def search_beta_beta (ibeta : K → K → K → K) (exp : K → K) :
    Nat → search_t K → K → search_t K
  | 0, s, _ => s
  | n + 1, s, bstep =>
    if s.kst.result.pval < 0.05 then
      if s.bp.beta + s.bsign * bstep < 0 then s
      else
        let bp : betaparam_t K := ⟨s.bp.alpha, s.bp.beta + s.bsign * bstep⟩
        let kst := partial_kstest ibeta exp s.kst bp
        if kst.result.d > s.pd then
          search_beta_beta ibeta exp n ⟨kst, bp, s.asign, s.bsign * -1, s.pd⟩ (bstep * 0.1)
        else
          search_beta_beta ibeta exp n ⟨kst, bp, s.asign, s.bsign, kst.result.d⟩ bstep
    else s

/-- The outer loop of `search_beta`, at most `n` more passes. -/
def search_beta_outer (ibeta : K → K → K → K) (exp : K → K) : Nat → search_t K → search_t K
  | 0, s => s
  | n + 1, s =>
    if s.kst.result.pval < 0.05 then
      let astep := s.bp.alpha / 2
      let bstep := s.bp.beta / 2
      let s1 := search_beta_alpha ibeta exp 100 s astep
      let s2 := search_beta_beta ibeta exp 100 s1 bstep
      search_beta_outer ibeta exp n ⟨s2.kst, s2.bp, s2.asign * -1, s2.bsign * -1, s2.pd⟩
    else s

/-- The function `beta::search_beta(kst, bp)`: both arguments are updated in place, so the new
values are returned. -/
def search_beta (ibeta : K → K → K → K) (exp : K → K) (kst : kstest_t K)
    (bp : betaparam_t K) : kstest_t K × betaparam_t K :=
  let s := search_beta_outer ibeta exp 100 ⟨kst, bp, 1, 1, kst.result.d⟩
  (s.kst, s.bp)

/-! ## The segment map -/

/-- The call `betamap.insert(std::pair(k, v))` of `std::map`: the entry goes to its place in
key order, and nothing changes when the key is already present. -/
def map_insert (k : K) (v : betaparam_t K) : betamap_t K → betamap_t K
  | [] => [(k, v)]
  | (k1, v1) :: rest =>
    if k < k1 then (k, v) :: (k1, v1) :: rest
    else if k1 < k then (k1, v1) :: map_insert k v rest
    else (k1, v1) :: rest

/-- The function `Probaclass::cls_prob_signed(betamap, rv)`: the iterator moves on while
`rv > iter->first`.  At `end()` the source dereferences the iterator before it tests it,
which is undefined: the result is `none` there. -/
def cls_prob_signed (ibeta : K → K → K → K) : betamap_t K → K → Option K
  | [], _ => none
  | (k, bp) :: rest, rv =>
    if rv > k then cls_prob_signed ibeta rest rv
    else some (ibeta bp.alpha bp.beta rv)

/-! ## `beta::search_betamap` -/

/-- The loop `for (unsigned int i = 1; i <= ecdf_size; kst.rear = ++i)` of
`search_betamap`.  A cut decrements `i` before the loop increments it again, so the loop
need not end: the first argument bounds the number of passes and `none` means the bound was
reached.  `presbp` is assigned from `prevbp` before every use and `prevkst` is never read, so
neither is part of the state.  The result is the map and the final `prevbp`. -/
def search_betamap_loop (ibeta : K → K → K → K) (exp : K → K) (ecdf_size : Nat) :
    Nat → Nat → kstest_t K → betaparam_t K → betamap_t K →
      Option (betamap_t K × betaparam_t K)
  | 0, _, _, _, _ => none
  | fuel + 1, i, kst, prevbp, betamap =>
    if i ≤ ecdf_size then
      let kst1 := partial_kstest ibeta exp kst prevbp
      if kst1.result.pval < 0.05 then
        let r := search_beta ibeta exp kst1 prevbp
        let kst2 := r.1
        let presbp := r.2
        if kst2.result.pval < 0.05 then
          let i1 := i - 1
          let betamap1 := map_insert ((i1 : K) / 100) prevbp betamap
          let kst3 : kstest_t K := { kst2 with front := i1 }
          search_betamap_loop ibeta exp ecdf_size fuel (i1 + 1)
            { kst3 with rear := i1 + 1 } presbp betamap1
        else
          search_betamap_loop ibeta exp ecdf_size fuel (i + 1)
            { kst2 with rear := i + 1 } presbp betamap
      else
        search_betamap_loop ibeta exp ecdf_size fuel (i + 1)
          { kst1 with rear := i + 1 } prevbp betamap
    else some (betamap, prevbp)

/-- The function `beta::search_betamap(betamap, ecdf, ptn)` with at most `fuel` passes of its
loop: the returned `ksr` and the updated map, or `none` when the loop has not ended within
`fuel` passes. -/
def search_betamap (ibeta : K → K → K → K) (exp sqrt : K → K) (fuel : Nat)
    (betamap : betamap_t K) (ecdf : List K) (ptn : pattern_t K) :
    Option (ksresult_t K × betamap_t K) :=
  let ecdf_size := ecdf.length
  let en_sqrt := sqrt (ecdf_size : K)
  let kst : kstest_t K := ⟨ecdf, ecdf_size, en_sqrt, 0, 1, ⟨0, 0⟩⟩
  let ksr : ksresult_t K := ⟨0, 1⟩
  let prevbp := moment_match ptn.mean ptn.var
  match search_betamap_loop ibeta exp ecdf_size fuel 1 kst prevbp betamap with
  | none => none
  | some (betamap1, prevbp1) => some (ksr, map_insert 1 prevbp1 betamap1)

/-- The loop of `Probaclass::map_beta` that fills `m_betasketch.beta`:
`rv = i / bins` and `beta.push_back(cls_prob_signed(m_betamap, rv))`; the first argument is
the number of values still to come, `i` the loop counter. -/
def betasketch_beta_loop (ibeta : K → K → K → K) (betamap : betamap_t K) (bins : Nat) :
    Nat → Nat → Option (List K)
  | 0, _ => some []
  | n + 1, i =>
    match cls_prob_signed ibeta betamap ((i : K) / (bins : K)) with
    | none => none
    | some p => (betasketch_beta_loop ibeta betamap bins n (i + 1)).map (fun ps => p :: ps)

/-- The values `m_betasketch.beta` that `Probaclass::map_beta` computes from the segment map
for `i = 1 .. bins` (starting from an empty `beta` vector). -/
def betasketch_beta (ibeta : K → K → K → K) (betamap : betamap_t K) (bins : Nat) :
    Option (List K) :=
  betasketch_beta_loop ibeta betamap bins bins 1

end Engine

/-! ## The rescaling step of `Probaclass::map_beta` -/

section Rescale

variable {K : Type} [LinearOrderedField K] [FloorRing K]

/-- The function `Probaclass::scale(rv)`, reading `imin`, `imax` and `iratio` of
`m_pattern`. -/
def scale (ptn : pattern_t K) (rv : K) : K :=
  if rv < (ptn.imin : K) then 0
  else if rv > (ptn.imax : K) then 99
  else (rv - (ptn.imin : K) + 1) * ptn.iratio

/-- The conversion `(int) srv`: truncation towards zero. -/
def to_int (x : K) : Int :=
  if 0 ≤ x then Int.floor x else Int.ceil x

/-- The first loop of the rescaling step: `for (i = 0; i < size; i++) if (ecdf[i] > 0.)
{ imin = i; break; }`; the first argument is the number of indices left, and `none` means
that no index was found (`m_pattern.imin` keeps its value). -/
def find_imin (ecdf : List K) : Nat → Nat → Option Nat
  | 0, _ => none
  | n + 1, i => if ecdf.getD i 0 > 0 then some i else find_imin ecdf n (i + 1)

/-- The second loop: `for (int i = size - 1; i >= 0; i--) if (ecdf[i] < 1.) { imax = i;
break; }`; the argument is `i + 1`. -/
def find_imax (ecdf : List K) : Nat → Option Nat
  | 0 => none
  | i + 1 => if ecdf.getD i 0 < 1 then some i else find_imax ecdf i

/-- The inner loop `for (int j = size - 1; j >= k; j--) scaledecdf[j] = v;`, the first
argument being `j + 1`.  For a negative `k` the source would go on to index `-1`; the model
stops after index `0`. -/
def map_beta_fill (v : K) (k : Int) : Nat → List K → List K
  | 0, scaled => scaled
  | j + 1, scaled =>
    if k ≤ (j : Int) then map_beta_fill v k j (scaled.set j v) else scaled

/-- The loop `for (unsigned int i = imin; i <= imax; i++)` of the rescaling step:
`srv = scale((double)i); k = (int) srv;` and the inner fill with `m_pattern.ecdf[i]`.  The
first argument is the number of indices left, `imax + 1 - i`. -/
def map_beta_scale_loop (ptn : pattern_t K) (size : Nat) : Nat → Nat → List K → List K
  | 0, _, scaled => scaled
  | n + 1, i, scaled =>
    let srv := scale ptn (i : K)
    let k := to_int srv
    map_beta_scale_loop ptn size n (i + 1) (map_beta_fill (ptn.ecdf.getD i 0) k size scaled)

/-- The loop `for (unsigned int i = imax; i < size; i++) scaledecdf[i] = 1.;`, the first
argument being the number of indices left. -/
def map_beta_saturate : Nat → Nat → List K → List K
  | 0, _, scaled => scaled
  | n + 1, i, scaled => map_beta_saturate n (i + 1) (scaled.set i 1)

/-- The loop `for (unsigned int i = 0; i < size; i++) m_pattern.ecdf[i] = scaledecdf[i];`,
the first argument being the number of indices left. -/
def map_beta_copy (scaled : List K) : Nat → Nat → List K → List K
  | 0, _, ecdf => ecdf
  | n + 1, i, ecdf => map_beta_copy scaled n (i + 1) (ecdf.set i (scaled.getD i 0))

/-- Lines 301-312 of `Probaclass::map_beta`: the search for `imin` and `imax` (a bound that
is not found keeps its old value) and `iratio = 99. / (imax - imin + 2)`, the difference
taken in the integers. -/
def map_beta_find (ptn : pattern_t K) : pattern_t K :=
  let size := ptn.ecdf.length
  let imin : Nat := match find_imin ptn.ecdf size 0 with
    | some i => i
    | none => ptn.imin
  let imax : Nat := match find_imax ptn.ecdf size with
    | some i => i
    | none => ptn.imax
  let iratio : K := 99 / (((imax : Int) - (imin : Int) + 2 : Int) : K)
  { ptn with imin := imin, imax := imax, iratio := iratio }

/-- Lines 314-326 of `Probaclass::map_beta`: the vector `scaledecdf`, filled from zeros by the
rescaling loop and saturated from `imax` on. -/
def map_beta_scaled (ptn1 : pattern_t K) : List K :=
  let size := ptn1.ecdf.length
  let scaled0 := List.replicate size (0 : K)
  let scaled1 := map_beta_scale_loop ptn1 size (ptn1.imax + 1 - ptn1.imin) ptn1.imin scaled0
  map_beta_saturate (size - ptn1.imax) ptn1.imax scaled1

/-- Lines 301-328 of `Probaclass::map_beta`: the rescaling step, ending with the copy of
`scaledecdf` back into `m_pattern.ecdf`. -/
def map_beta_rescale (ptn : pattern_t K) : pattern_t K :=
  let ptn1 := map_beta_find ptn
  { ptn1 with ecdf := map_beta_copy (map_beta_scaled ptn1) ptn1.ecdf.length 0 ptn1.ecdf }

/-- The index `i` is the last one in `[lo, hi)` whose scaled position `(int) scale(i)` is at
most `p`: the last pass of the rescaling loop that writes position `p`. -/
def LastCover (ptn : pattern_t K) (p lo hi i : Nat) : Prop :=
  lo ≤ i ∧ i < hi ∧ to_int (scale ptn (i : K)) ≤ (p : Int) ∧
    ∀ i1, i < i1 → i1 < hi → ¬ to_int (scale ptn (i1 : K)) ≤ (p : Int)

/-- No index in `[lo, hi)` has a scaled position at most `p`. -/
def NoCover (ptn : pattern_t K) (p lo hi : Nat) : Prop :=
  ∀ i, lo ≤ i → i < hi → ¬ to_int (scale ptn (i : K)) ≤ (p : Int)

end Rescale

/-! ## The statistics step of `Probaclass::map_beta` -/

/-- Lines 330-335 of `Probaclass::map_beta`: the loop `m_pattern.mean += m_pattern.ecdf[i++]`
starts from the value `m_pattern.mean` already holds, the sum is divided by the size, then
`m_pattern.var` is set to `0`, accumulates `pow(ecdf[i] - mean, 2.)` and is divided by
`size - 1.`. -/
def map_beta_stats {K : Type} [LinearOrderedField K] (ptn : pattern_t K) : pattern_t K :=
  let mean0 := ptn.ecdf.foldl (fun m x => m + x) ptn.mean
  let mean := mean0 / (ptn.ecdf.length : K)
  let var0 := ptn.ecdf.foldl (fun v x => v + (x - mean) ^ 2) 0
  let var := var0 / ((ptn.ecdf.length : K) - 1)
  { ptn with mean := mean, var := var }

/-! ## Auxiliary definitions used by the proofs -/

/-- The invariant of the outer loop of `histogram` for data bounded by `1`: the cursor edge
is `(closed bins + 1) / bins`, fewer than `bins` bins are closed, and the closed bins plus
the open count add up to the `n` values read so far. -/
def HistInv (bins : Nat) (n : Int) (s : HistState) : Prop :=
  s.area = ((s.hist.length : ℚ) + 1) / (bins : ℚ) ∧ s.hist.length < bins ∧
    s.hist.sum + s.hvar = n

/-- The loop of `qks` with the `j`-th exponential written as the power `u ^ (j * j)` of
`u = exp a2`; `qks_loop_eq_pow` shows that it is `qks_loop` for the real exponential. -/
def qks_pow_loop {K : Type} [LinearOrderedField K] (u : K) : Nat → Nat → K → K → K → K
  | 0, _, _, _, _ => 1
  | n + 1, j, fac, sum, termbf =>
    let term := fac * u ^ (j * j)
    let sum1 := sum + term
    if |term| ≤ 0.001 * termbf ∨ |term| ≤ 1.0e-8 * sum1 then sum1
    else qks_pow_loop u n (j + 1) (-fac) sum1 |term|

/-- A Beta-CDF evaluation used in the examples: `I_x(a, b) = x`, the CDF of Beta(1, 1),
whatever the parameters.  It agrees with the regularized incomplete Beta function at `x = 1`
(where that function is `1` for all positive `a`, `b`), the only point at which the one-bin
examples evaluate it; the four-bin example uses it as an evaluation outcome that the search
cannot influence. -/
def ibeta_uniform {K : Type} (_a _b x : K) : K := x

/-- The keys of a segment map are strictly increasing: the order invariant of `std::map`. -/
def KeysIncreasing {K : Type} [LinearOrderedField K] (m : betamap_t K) : Prop :=
  m.Pairwise (fun a b => a.1 < b.1)

/-! ## Counting the cuts of `beta::search_betamap` -/

/-- The number of passes of the loop of `search_betamap` that end in a cut (the branch that
inserts a key and sets `kst.front`), counted along the same run as `search_betamap_loop`;
`none` when the loop has not ended within the allowed passes.  The segment map does not
influence the control flow and is left out. -/
def search_betamap_cuts {K : Type} [LinearOrderedField K] (ibeta : K → K → K → K)
    (exp : K → K) (ecdf_size : Nat) : Nat → Nat → kstest_t K → betaparam_t K → Option Nat
  | 0, _, _, _ => none
  | fuel + 1, i, kst, prevbp =>
    if i ≤ ecdf_size then
      let kst1 := partial_kstest ibeta exp kst prevbp
      if kst1.result.pval < 0.05 then
        let r := search_beta ibeta exp kst1 prevbp
        let kst2 := r.1
        let presbp := r.2
        if kst2.result.pval < 0.05 then
          let i1 := i - 1
          let kst3 : kstest_t K := { kst2 with front := i1 }
          (search_betamap_cuts ibeta exp ecdf_size fuel (i1 + 1)
            { kst3 with rear := i1 + 1 } presbp).map (fun c => c + 1)
        else
          search_betamap_cuts ibeta exp ecdf_size fuel (i + 1) { kst2 with rear := i + 1 } presbp
      else
        search_betamap_cuts ibeta exp ecdf_size fuel (i + 1) { kst1 with rear := i + 1 } prevbp
    else some 0

/-- The number of cuts of a run of `search_betamap`, from the initial state that function
sets up. -/
def search_betamap_cut_count {K : Type} [LinearOrderedField K] (ibeta : K → K → K → K)
    (exp sqrt : K → K) (fuel : Nat) (ecdf : List K) (ptn : pattern_t K) : Option Nat :=
  search_betamap_cuts ibeta exp ecdf.length fuel 1
    ⟨ecdf, ecdf.length, sqrt (ecdf.length : K), 0, 1, ⟨0, 0⟩⟩ (moment_match ptn.mean ptn.var)

/-- The invariant of the outer loop of `histogram` behind the right-closed binning, for the
values `pre` read so far: the cursor edge is `(closed bins + 1) / bins`, fewer than `bins`
bins are closed, the first `i + 1` closed bins count the values up to the right edge
`(i + 1) / bins`, all values read are counted, and none exceeds the cursor edge. -/
def HistEdgeInv (bins : Nat) (pre : List ℚ) (s : HistState) : Prop :=
  s.area = ((s.hist.length : ℚ) + 1) / (bins : ℚ) ∧ s.hist.length < bins ∧
    (∀ i, i < s.hist.length →
      (s.hist.take (i + 1)).sum =
        ((pre.countP (fun x => decide (x ≤ ((i : ℚ) + 1) / (bins : ℚ))) : Nat) : Int)) ∧
    s.hist.sum + s.hvar = (pre.length : Int) ∧ (∀ x ∈ pre, x ≤ s.area)

/-- The ECDF of the rescaling examples: `(i + 1) / 16` for `i = 0 .. 15`. -/
def ecdf16 : List ℚ :=
  [1/16, 2/16, 3/16, 4/16, 5/16, 6/16, 7/16, 8/16, 9/16, 10/16, 11/16, 12/16, 13/16, 14/16,
    15/16, 1]

/-! ## `beta::histogram` with the rounding of `double` arithmetic -/

/-- The integer nearest to a rational, a tie going to the even neighbour. -/
def round_even (y : ℚ) : Int :=
  let f := Int.floor y
  if y - f < 1 / 2 then f
  else if 1 / 2 < y - f then f + 1
  else if f % 2 = 0 then f
  else f + 1

/-- The `double` nearest to a rational: IEEE 754 binary64 rounding (53 significant bits,
round to nearest, ties to even).  The exponent range is not modelled: no overflow and no
subnormal numbers, which the runs evaluated below do not meet. -/
def round_double (x : ℚ) : ℚ :=
  if x = 0 then 0
  else
    let e : Int := Int.log 2 |x| - 52
    (round_even (x / 2 ^ e) : ℚ) * 2 ^ e

/-- The inner loop `while (x > area) { hist.push_back(hvar); hvar = 0; area += step; }` with
the sum `area + step` rounded to a `double`.  A rounded sum can leave `area` unchanged, so
the iterations are counted: `none` when `fuel` tests of the loop condition do not end it. -/
def histogram_advance_double (step x : ℚ) : Nat → HistState → Option HistState
  | 0, _ => none
  | fuel + 1, s =>
    if s.area < x then
      histogram_advance_double step x fuel ⟨s.hist ++ [s.hvar], 0, round_double (s.area + step)⟩
    else some s

/-- The outer `for` loop over `data` with the rounded cursor: advance, then `hvar++`. -/
def histogram_loop_double (step : ℚ) (fuel : Nat) : List ℚ → HistState → Option HistState
  | [], s => some s
  | x :: xs, s =>
    match histogram_advance_double step x fuel s with
    | none => none
    | some s1 => histogram_loop_double step fuel xs ⟨s1.hist, s1.hvar + 1, s1.area⟩

/-- The function `beta::histogram(data, bins)` on `double`s: `step = 1 / (double)bins` and
every `area += step` are rounded, the values of `data` are the given numbers (taken to be
`double`s), comparisons are exact.  `fuel` bounds the inner loop for each value. -/
def histogram_double (fuel : Nat) (data : List ℚ) (bins : Nat) : Option (List Int) :=
  let step : ℚ := round_double (1 / (bins : ℚ))
  match histogram_loop_double step fuel data ⟨[], 0, step⟩ with
  | none => none
  | some s =>
    some (if s.hist.length = bins then incr_back s.hist
      else histogram_pad (bins - s.hist.length) s.hist s.hvar)

/-! ## `beta::moment_match` with the rounding of `double` arithmetic -/

/-- The quotient `(ml * um) / var` as `beta::moment_match` computes it on `double`s: the two
differences, the product and the quotient are each rounded. -/
def moment_match_quotient_double (mean var : ℚ) : ℚ :=
  let ml := round_double (mean - 0)
  let um := round_double (1 - mean)
  round_double (round_double (ml * um) / var)

/-- The function `beta::moment_match(mean, var)` on `double`s: the result of every arithmetic
operation is rounded (`fabs` is exact). -/
def moment_match_double (mean var : ℚ) : betaparam_t ℚ :=
  let ml := round_double (mean - 0)
  let um := round_double (1 - mean)
  let alpha :=
    |round_double (mean * round_double (round_double (round_double (ml * um) / var) - 1))|
  ⟨alpha, round_double (alpha * round_double (um / ml))⟩

/-! # Theorems -/

/-! ## Theorems about `beta::histogram` -/

theorem histogram_advance_inv (bins : Nat) (hb : 0 < bins) (x : ℚ) (hx : x ≤ 1) (n : Int) :
    ∀ (k : Nat) (s : HistState), bins - s.hist.length ≤ k → HistInv bins n s →
      HistInv bins n (histogram_advance (1 / (bins : ℚ)) x s) := by
  have hbq : (0 : ℚ) < (bins : ℚ) := by exact_mod_cast hb
  intro k
  induction k with
  | zero =>
    intro s hk hinv
    have := hinv.2.1
    omega
  | succ k ih =>
    intro s hk hinv
    obtain ⟨harea, hlen, hsum⟩ := hinv
    rw [histogram_advance]
    split
    · rename_i hcond
      have hlt : s.area < 1 := lt_of_lt_of_le hcond.1 hx
      have hlen2 : s.hist.length + 1 < bins := by
        rw [harea, div_lt_one hbq] at hlt
        exact_mod_cast hlt
      apply ih
      · simp only [List.length_append, List.length_singleton]
        omega
      · refine ⟨?_, ?_, ?_⟩
        · simp only [List.length_append, List.length_singleton, harea]
          push_cast
          field_simp
        · simpa using hlen2
        · simpa using hsum
    · exact ⟨harea, hlen, hsum⟩

theorem histogram_step_inv (bins : Nat) (hb : 0 < bins) (x : ℚ) (hx : x ≤ 1) (n : Int)
    (s : HistState) (hinv : HistInv bins n s) :
    HistInv bins (n + 1) (histogram_step (1 / (bins : ℚ)) s x) := by
  obtain ⟨h1, h2, h3⟩ := histogram_advance_inv bins hb x hx n _ s le_rfl hinv
  refine ⟨h1, h2, ?_⟩
  show (histogram_advance (1 / (bins : ℚ)) x s).hist.sum +
    ((histogram_advance (1 / (bins : ℚ)) x s).hvar + 1) = n + 1
  omega

theorem histogram_foldl_inv (bins : Nat) (hb : 0 < bins) :
    ∀ (data : List ℚ), (∀ x ∈ data, x ≤ 1) → ∀ (n : Int) (s : HistState), HistInv bins n s →
      HistInv bins (n + data.length) (data.foldl (histogram_step (1 / (bins : ℚ))) s) := by
  intro data
  induction data with
  | nil =>
    intro _ n s hinv
    simpa using hinv
  | cons x xs ih =>
    intro hx n s hinv
    have h1 := histogram_step_inv bins hb x (hx x (List.mem_cons_self _ _)) n s hinv
    have h2 := ih (fun y hy => hx y (List.mem_cons_of_mem _ hy)) (n + 1) _ h1
    simp only [List.foldl_cons, List.length_cons]
    have e : n + ((xs.length + 1 : Nat) : Int) = n + 1 + (xs.length : Int) := by
      push_cast
      ring
    rw [e]
    exact h2

theorem histogram_pad_length : ∀ (n : Nat) (hist : List Int) (hvar : Int),
    (histogram_pad n hist hvar).length = hist.length + n := by
  intro n
  induction n with
  | zero => intro hist hvar; rfl
  | succ n ih =>
    intro hist hvar
    simp only [histogram_pad, ih, List.length_append, List.length_singleton]
    omega

theorem histogram_pad_sum_zero : ∀ (n : Nat) (hist : List Int),
    (histogram_pad n hist 0).sum = hist.sum := by
  intro n
  induction n with
  | zero => intro hist; rfl
  | succ n ih =>
    intro hist
    simp [histogram_pad, ih]

theorem histogram_pad_sum (n : Nat) (hist : List Int) (hvar : Int) :
    (histogram_pad (n + 1) hist hvar).sum = hist.sum + hvar := by
  simp [histogram_pad, histogram_pad_sum_zero]

/-- In exact arithmetic (no sortedness needed): when every value is at most `1` and
`bins ≥ 1`, `histogram data bins` has `bins` entries that add up to the number of values. -/
theorem histogram_length_sum (data : List ℚ) (bins : Nat) (hb : 1 ≤ bins)
    (hx : ∀ x ∈ data, x ≤ 1) :
    (histogram data bins).length = bins ∧ (histogram data bins).sum = (data.length : Int) := by
  have hbq : (bins : ℚ) ≠ 0 := by
    have : (0 : ℚ) < (bins : ℚ) := by exact_mod_cast hb
    exact ne_of_gt this
  have h0 : HistInv bins 0 ⟨[], 0, 1 / (bins : ℚ)⟩ := by
    refine ⟨?_, ?_, ?_⟩
    · simp
    · simpa using hb
    · simp
  obtain ⟨_, hlen, hsum⟩ := histogram_foldl_inv bins hb data hx 0 _ h0
  unfold histogram
  simp only
  rw [if_neg (Nat.ne_of_lt hlen)]
  obtain ⟨m, hm⟩ : ∃ m, bins - (data.foldl (histogram_step (1 / (bins : ℚ)))
      ⟨[], 0, 1 / (bins : ℚ)⟩).hist.length = m + 1 := ⟨_, (Nat.succ_pred_eq_of_pos
        (Nat.sub_pos_of_lt hlen)).symm⟩
  rw [hm, histogram_pad_length, histogram_pad_sum]
  constructor
  · omega
  · simpa using hsum

/-! ## Theorems about `beta::cumulahisto` -/

theorem cumulahisto_loop_length (size : Int) : ∀ (cs : List Int) (cum : Int),
    (cumulahisto_loop size cum cs).length = cs.length := by
  intro cs
  induction cs with
  | nil => intro _; rfl
  | cons c cs ih => intro cum; simp [cumulahisto_loop, ih]

/-- Every entry produced by the loop is at least `cum / size` when the remaining counts and
`size` are non-negative. -/
theorem cumulahisto_loop_lower (size : Int) (hs : 0 ≤ size) : ∀ (cs : List Int) (cum : Int),
    (∀ c ∈ cs, 0 ≤ c) → ∀ y ∈ cumulahisto_loop size cum cs, (cum : ℚ) / (size : ℚ) ≤ y := by
  have hsq : (0 : ℚ) ≤ (size : ℚ) := by exact_mod_cast hs
  intro cs
  induction cs with
  | nil => intro _ _ y hy; simp [cumulahisto_loop] at hy
  | cons c cs ih =>
    intro cum hc y hy
    have hc0 : (0 : ℚ) ≤ (c : ℚ) := by exact_mod_cast hc c (List.mem_cons_self _ _)
    have hstep : (cum : ℚ) / (size : ℚ) ≤ ((cum + c : Int) : ℚ) / (size : ℚ) := by
      apply div_le_div_of_nonneg_right _ hsq
      push_cast
      linarith
    simp only [cumulahisto_loop, List.mem_cons] at hy
    rcases hy with h | h
    · rw [h]; exact hstep
    · exact le_trans hstep (ih (cum + c) (fun d hd => hc d (List.mem_cons_of_mem _ hd)) y h)

theorem cumulahisto_loop_sorted (size : Int) (hs : 0 ≤ size) : ∀ (cs : List Int) (cum : Int),
    (∀ c ∈ cs, 0 ≤ c) → List.Sorted (· ≤ ·) (cumulahisto_loop size cum cs) := by
  intro cs
  induction cs with
  | nil => intro _ _; simp [cumulahisto_loop]
  | cons c cs ih =>
    intro cum hc
    have hc' : ∀ d ∈ cs, 0 ≤ d := fun d hd => hc d (List.mem_cons_of_mem _ hd)
    simp only [cumulahisto_loop, List.sorted_cons]
    exact ⟨cumulahisto_loop_lower size hs cs (cum + c) hc', ih (cum + c) hc'⟩

theorem cumulahisto_loop_getLast (size : Int) : ∀ (cs : List Int) (cum : Int), cs ≠ [] →
    (cumulahisto_loop size cum cs).getLast? = some (((cum + cs.sum : Int) : ℚ) / (size : ℚ)) := by
  intro cs
  induction cs with
  | nil => intro _ h; exact absurd rfl h
  | cons c cs ih =>
    intro cum _
    cases cs with
    | nil => simp [cumulahisto_loop]
    | cons d ds =>
      have := ih (cum + c) (List.cons_ne_nil _ _)
      simp only [cumulahisto_loop] at this ⊢
      rw [List.getLast?_cons_cons, this]
      simp [add_assoc]

theorem cumulahisto_eq (hist_ui : List Int) (bins : Nat) :
    cumulahisto hist_ui bins =
      cumulahisto_loop hist_ui.sum 0 (hist_ui.insertionSort (· ≤ ·)) := by
  have hperm := List.perm_insertionSort (· ≤ ·) hist_ui
  unfold cumulahisto
  simp only
  rw [← List.sum_eq_foldl, hperm.sum_eq]

/-- A lemma for C2: with non-negative counts the output is monotone, and with a non-empty
input its last entry is `total / total`. -/
theorem cumulahisto_sorted_last (hist_ui : List Int) (bins : Nat) (hne : hist_ui ≠ [])
    (hnonneg : ∀ c ∈ hist_ui, 0 ≤ c) :
    List.Sorted (· ≤ ·) (cumulahisto hist_ui bins) ∧
      (cumulahisto hist_ui bins).getLast? = some ((hist_ui.sum : ℚ) / (hist_ui.sum : ℚ)) := by
  have hperm := List.perm_insertionSort (· ≤ ·) hist_ui
  have hnonneg' : ∀ c ∈ hist_ui.insertionSort (· ≤ ·), 0 ≤ c :=
    fun c hc => hnonneg c (hperm.mem_iff.mp hc)
  have hne' : hist_ui.insertionSort (· ≤ ·) ≠ [] := by
    intro h
    rw [h] at hperm
    exact hne (List.perm_nil.mp hperm.symm)
  have hsum : 0 ≤ hist_ui.sum := List.sum_nonneg hnonneg
  rw [cumulahisto_eq]
  refine ⟨cumulahisto_loop_sorted _ hsum _ 0 hnonneg', ?_⟩
  rw [cumulahisto_loop_getLast _ _ 0 hne', hperm.sum_eq]
  simp

/-- C2 (as stated, refuted): the non-empty histogram `[0]` of non-negative counts has total
`0`; the single output entry is the quotient `0 / 0`, which is not `1` (it is `0` here and a
NaN in IEEE arithmetic). -/
theorem cumulahisto_c2_counterexample :
    ([0] : List Int) ≠ [] ∧ (∀ c ∈ ([0] : List Int), 0 ≤ c) ∧
      ¬ (List.Sorted (· ≤ ·) (cumulahisto [0] 1) ∧ (cumulahisto [0] 1).getLast? = some 1) := by
  refine ⟨by simp, by simp, ?_⟩
  simp [cumulahisto, cumulahisto_loop]

/-- C2 (amended): for every non-empty sequence of non-negative bin counts whose total is
positive, the output of `cumulahisto` is monotone non-decreasing and its final entry is `1`. -/
theorem cumulahisto_c2 (hist_ui : List Int) (bins : Nat) (hne : hist_ui ≠ [])
    (hnonneg : ∀ c ∈ hist_ui, 0 ≤ c) (hpos : 0 < hist_ui.sum) :
    List.Sorted (· ≤ ·) (cumulahisto hist_ui bins) ∧
      (cumulahisto hist_ui bins).getLast? = some 1 := by
  obtain ⟨h1, h2⟩ := cumulahisto_sorted_last hist_ui bins hne hnonneg
  refine ⟨h1, ?_⟩
  have hq : (hist_ui.sum : ℚ) ≠ 0 := by
    have : (0 : ℚ) < (hist_ui.sum : ℚ) := by exact_mod_cast hpos
    exact ne_of_gt this
  rw [h2, div_self hq]

/-- Witness for C2 (amended): the histogram `[2, 0, 1]`. -/
theorem cumulahisto_c2_witness :
    ([2, 0, 1] : List Int) ≠ [] ∧ 0 < ([2, 0, 1] : List Int).sum ∧
      List.Sorted (· ≤ ·) (cumulahisto [2, 0, 1] 3) ∧
      (cumulahisto [2, 0, 1] 3).getLast? = some 1 :=
  ⟨by simp, by decide, cumulahisto_c2 [2, 0, 1] 3 (by simp) (by decide) (by decide)⟩

/-- C3 (code evaluated at the failing input): on the histogram `[2, 1]` the output is
`[1/3, 1]`, the running sums of the sorted counts `[1, 2]`; accumulation in bin order would
give `2/3` at index `0`. -/
theorem cumulahisto_c3_sorted_counts :
    cumulahisto [2, 1] 2 = [1 / 3, 1] ∧
      (cumulahisto [2, 1] 2).get? 0 ≠ some ((2 : ℚ) / ((2 + 1 : Int) : ℚ)) := by
  have h : cumulahisto [2, 1] 2 = [1 / 3, 1] := by
    simp [cumulahisto, cumulahisto_loop, List.insertionSort, List.orderedInsert]
  rw [h]
  refine ⟨rfl, ?_⟩
  norm_num

/-! ## Theorems about `beta::qks` -/

section QksZero

variable {K : Type} [LinearOrderedField K]

/-- At `a2 = 0` with `exp 0 = 1` the terms are `2, -2, 2, ...` and the sums `2, 0, 2, ...`:
neither exit test ever holds, whatever the number of terms. -/
theorem qks_loop_zero (exp : K → K) (h0 : exp 0 = 1) : ∀ (n j : Nat),
    (∀ tb : K, (tb = 0 ∨ tb = 2) → qks_loop exp 0 n j 2 0 tb = 1) ∧
      qks_loop exp 0 n j (-2) 2 2 = 1 := by
  intro n
  induction n with
  | zero => intro j; exact ⟨fun _ _ => rfl, rfl⟩
  | succ n ih =>
    intro j
    obtain ⟨ihA, ihB⟩ := ih (j + 1)
    constructor
    · intro tb htb
      simp only [qks_loop, zero_mul, h0, mul_one, zero_add]
      have hc : ¬ (|(2 : K)| ≤ 0.001 * tb ∨ |(2 : K)| ≤ 1.0e-8 * 2) := by
        rcases htb with h | h <;> rw [h] <;> norm_num
      rw [if_neg hc]
      have e : |(2 : K)| = 2 := abs_of_pos (by norm_num)
      rw [e]
      exact ihB
    · simp only [qks_loop, zero_mul, h0, mul_one]
      have e0 : (2 : K) + -2 = 0 := by norm_num
      have hc : ¬ (|(-2 : K)| ≤ 0.001 * 2 ∨ |(-2 : K)| ≤ 1.0e-8 * (2 + -2)) := by
        norm_num
      rw [if_neg hc, e0]
      have e : |(-2 : K)| = 2 := by rw [abs_neg]; exact abs_of_pos (by norm_num)
      rw [e, neg_neg]
      exact ihA 2 (Or.inr rfl)

theorem qks_zero_of_exp_zero (exp : K → K) (h0 : exp 0 = 1) : qks exp 0 = 1 := by
  unfold qks
  have e : (-2 : K) * 0 * 0 = 0 := by ring
  rw [e]
  exact (qks_loop_zero exp h0 100 1).1 0 (Or.inl rfl)

end QksZero

/-- C6: `qks(0)` is exactly `1`: with the real exponential all `100` terms are `±2`, no exit
test holds, and the fallback `1.` is returned. -/
theorem qks_c6 :
    qks Real.exp 0 = 1 ∧ ∀ n : Nat, qks_loop Real.exp (-2 * 0 * 0) n 1 2 0 0 = 1 := by
  refine ⟨qks_zero_of_exp_zero Real.exp Real.exp_zero, fun n => ?_⟩
  have e : (-2 : ℝ) * 0 * 0 = 0 := by ring
  rw [e]
  exact (qks_loop_zero Real.exp Real.exp_zero n 1).1 0 (Or.inl rfl)

/-! ## Theorems about `beta::kstest` -/

section Kstest

variable {K : Type} [LinearOrderedField K]

theorem kstest_loop_self : ∀ (s : List K), kstest_loop s s 0 = 0 := by
  intro s
  induction s with
  | nil => rfl
  | cons v r ih =>
    simp only [kstest_loop, sub_self, abs_zero, gt_iff_lt, lt_self_iff_false, if_false]
    exact ih

theorem kstest_self_of_exp_zero (exp sqrt : K → K) (h0 : exp 0 = 1) (s : List K) :
    kstest exp sqrt s s = Except.ok ⟨0, 1⟩ := by
  unfold kstest
  simp only [ne_eq, not_true_eq_false, if_false, kstest_loop_self, mul_zero,
    qks_zero_of_exp_zero exp h0]

theorem kstest_error_iff (exp sqrt : K → K) (sample1 sample2 : List K) :
    (∃ msg, kstest exp sqrt sample1 sample2 = Except.error msg) ↔
      sample1.length ≠ sample2.length := by
  unfold kstest
  by_cases h : sample1.length = sample2.length
  · simp [h]
  · simp [h]

theorem kstest_ok_iff (exp sqrt : K → K) (sample1 sample2 : List K) :
    (∃ r, kstest exp sqrt sample1 sample2 = Except.ok r) ↔
      sample1.length = sample2.length := by
  unfold kstest
  by_cases h : sample1.length = sample2.length
  · simp [h]
  · simp [h]

end Kstest

/-- C4: for every sequence `s` of reals, `kstest(s, s)` returns the statistic `d = 0` and the
p-value `1` (with the real exponential and square root).  The argument of `qks` is a
multiple of `d = 0`; for the empty sequence, where IEEE arithmetic makes it a NaN, every
comparison in `qks` fails and the same fallback `1.` is returned. -/
theorem kstest_c4 (s : List ℝ) :
    kstest Real.exp Real.sqrt s s = Except.ok ⟨0, 1⟩ :=
  kstest_self_of_exp_zero Real.exp Real.sqrt Real.exp_zero s

/-- C5: whatever `exp` and `sqrt` compute, `kstest` throws exactly when the two sequences
differ in length, and it returns a `(d, pval)` result exactly when they have the same
length. -/
theorem kstest_c5 (K : Type) [LinearOrderedField K] (exp sqrt : K → K)
    (sample1 sample2 : List K) :
    ((∃ msg, kstest exp sqrt sample1 sample2 = Except.error msg) ↔
        sample1.length ≠ sample2.length) ∧
      ((∃ r, kstest exp sqrt sample1 sample2 = Except.ok r) ↔
        sample1.length = sample2.length) :=
  ⟨kstest_error_iff exp sqrt sample1 sample2, kstest_ok_iff exp sqrt sample1 sample2⟩

/-! ## The early exits of `beta::qks` over the reals -/

theorem qks_loop_eq_pow (a2 : ℝ) : ∀ (n j : Nat) (fac sum termbf : ℝ),
    qks_loop Real.exp a2 n j fac sum termbf =
      qks_pow_loop (Real.exp a2) n j fac sum termbf := by
  intro n
  induction n with
  | zero => intro j fac sum termbf; rfl
  | succ n ih =>
    intro j fac sum termbf
    have e : Real.exp (a2 * (j : ℝ) * (j : ℝ)) = Real.exp a2 ^ (j * j) := by
      rw [← Real.exp_nat_mul]
      congr 1
      push_cast
      ring
    simp only [qks_loop, qks_pow_loop, e, ih]

theorem qks_eq_pow (alam : ℝ) :
    qks Real.exp alam = qks_pow_loop (Real.exp (-2 * alam * alam)) 100 1 2 0 0 :=
  qks_loop_eq_pow _ 100 1 2 0 0

section QksExits

variable {K : Type} [LinearOrderedField K]

theorem abs_two_mul_pow (u : K) (hu : 0 < u) (k : Nat) : |2 * u ^ k| = 2 * u ^ k :=
  abs_of_pos (by positivity)

theorem abs_neg_two_mul_pow (u : K) (hu : 0 < u) (k : Nat) : |-2 * u ^ k| = 2 * u ^ k := by
  rw [neg_mul, abs_neg]
  exact abs_of_pos (by positivity)

/-- First term: never an exit, since `termbf = 0` and the sum is the term itself. -/
theorem qks_pow_step1 (u : K) (n : Nat) (hu : 0 < u) :
    qks_pow_loop u (n + 1) 1 2 0 0 = qks_pow_loop u n 2 (-2) (2 * u) (2 * u) := by
  rw [qks_pow_loop]
  have e : (2 : K) * u ^ (1 * 1) = 2 * u := by ring
  simp only [e, zero_add, abs_of_pos (by positivity : (0 : K) < 2 * u)]
  split_ifs with hC
  · exfalso
    rcases hC with h | h
    · norm_num at h; linarith
    · norm_num at h; linarith
  · rfl

/-- Second term, exit: the first test is `u ^ 3 ≤ 0.001`. -/
theorem qks_pow_step2_exit (u : K) (n : Nat) (hu : 0 < u) (h3 : u ^ 3 ≤ 1 / 1000) :
    qks_pow_loop u (n + 1) 2 (-2) (2 * u) (2 * u) = 2 * u - 2 * u ^ 4 := by
  rw [qks_pow_loop]
  have e : (-2 : K) * u ^ (2 * 2) = -2 * u ^ 4 := by norm_num
  simp only [e, abs_neg_two_mul_pow u hu]
  have hc : 2 * u ^ 4 ≤ 0.001 * (2 * u) := by
    have : u ^ 4 = u ^ 3 * u := by ring
    rw [this]
    norm_num
    nlinarith
  rw [if_pos (Or.inl hc)]
  ring

/-- Second term, no exit when `u ^ 3 > 0.001`. -/
theorem qks_pow_step2_next (u : K) (n : Nat) (hu : 0 < u) (h3 : 1 / 1000 < u ^ 3) :
    qks_pow_loop u (n + 1) 2 (-2) (2 * u) (2 * u) =
      qks_pow_loop u n 3 2 (2 * u - 2 * u ^ 4) (2 * u ^ 4) := by
  rw [qks_pow_loop]
  have e : (-2 : K) * u ^ (2 * 2) = -2 * u ^ 4 := by norm_num
  simp only [e, abs_neg_two_mul_pow u hu]
  have h4 : u ^ 4 = u ^ 3 * u := by ring
  have hpos4 : 0 < u ^ 4 := by positivity
  split_ifs with hC
  · exfalso
    rcases hC with h | h
    · rw [h4] at h
      norm_num at h
      nlinarith
    · rw [h4] at h hpos4
      norm_num at h
      nlinarith
  · have e1 : (2 : K) * u + -2 * u ^ 4 = 2 * u - 2 * u ^ 4 := by ring
    rw [e1, neg_neg]

/-- Third term, exit: the first test is `u ^ 5 ≤ 0.001`. -/
theorem qks_pow_step3_exit (u : K) (n : Nat) (hu : 0 < u) (h5 : u ^ 5 ≤ 1 / 1000) :
    qks_pow_loop u (n + 1) 3 2 (2 * u - 2 * u ^ 4) (2 * u ^ 4) =
      2 * u - 2 * u ^ 4 + 2 * u ^ 9 := by
  rw [qks_pow_loop]
  have e : (2 : K) * u ^ (3 * 3) = 2 * u ^ 9 := by norm_num
  simp only [e, abs_two_mul_pow u hu]
  have hc : 2 * u ^ 9 ≤ 0.001 * (2 * u ^ 4) := by
    have : u ^ 9 = u ^ 5 * u ^ 4 := by ring
    have hpos4 : 0 < u ^ 4 := by positivity
    rw [this]
    norm_num
    nlinarith
  rw [if_pos (Or.inl hc)]

/-- Third term, no exit when `u ^ 5 > 0.001` (and `u < 1`). -/
theorem qks_pow_step3_next (u : K) (n : Nat) (hu : 0 < u) (hu1 : u < 1)
    (h5 : 1 / 1000 < u ^ 5) :
    qks_pow_loop u (n + 1) 3 2 (2 * u - 2 * u ^ 4) (2 * u ^ 4) =
      qks_pow_loop u n 4 (-2) (2 * u - 2 * u ^ 4 + 2 * u ^ 9) (2 * u ^ 9) := by
  rw [qks_pow_loop]
  have e : (2 : K) * u ^ (3 * 3) = 2 * u ^ 9 := by norm_num
  simp only [e, abs_two_mul_pow u hu]
  have h9 : u ^ 9 = u ^ 5 * u ^ 4 := by ring
  have hpos4 : 0 < u ^ 4 := by positivity
  have hpos9 : 0 < u ^ 9 := by positivity
  have hu8 : 1 / 1000000 < u ^ 8 := by
    have h10 : (1 / 1000) * (1 / 1000) < u ^ 5 * u ^ 5 :=
      mul_lt_mul'' h5 h5 (by norm_num) (by norm_num)
    have hu2 : u ^ 2 < 1 := by nlinarith
    have hpos8 : 0 < u ^ 8 := by positivity
    have : u ^ 5 * u ^ 5 = u ^ 8 * u ^ 2 := by ring
    rw [this] at h10
    nlinarith
  split_ifs with hC
  · exfalso
    rcases hC with h | h
    · rw [h9] at h
      norm_num at h
      nlinarith
    · have h91 : u ^ 9 = u ^ 8 * u := by ring
      rw [h91] at h
      norm_num at h
      nlinarith
  · rfl

/-- Fourth term, exit: the first test is `u ^ 7 ≤ 0.001`. -/
theorem qks_pow_step4_exit (u : K) (n : Nat) (hu : 0 < u) (h7 : u ^ 7 ≤ 1 / 1000) :
    qks_pow_loop u (n + 1) 4 (-2) (2 * u - 2 * u ^ 4 + 2 * u ^ 9) (2 * u ^ 9) =
      2 * u - 2 * u ^ 4 + 2 * u ^ 9 - 2 * u ^ 16 := by
  rw [qks_pow_loop]
  have e : (-2 : K) * u ^ (4 * 4) = -2 * u ^ 16 := by norm_num
  simp only [e, abs_neg_two_mul_pow u hu]
  have hc : 2 * u ^ 16 ≤ 0.001 * (2 * u ^ 9) := by
    have : u ^ 16 = u ^ 7 * u ^ 9 := by ring
    have hpos9 : 0 < u ^ 9 := by positivity
    rw [this]
    norm_num
    nlinarith
  rw [if_pos (Or.inl hc)]
  ring

end QksExits

theorem qks_real_exit2 (alam : ℝ) (h3 : Real.exp (-2 * alam * alam) ^ 3 ≤ 1 / 1000) :
    qks Real.exp alam =
      2 * Real.exp (-2 * alam * alam) - 2 * Real.exp (-2 * alam * alam) ^ 4 := by
  have hu := Real.exp_pos (-2 * alam * alam)
  rw [qks_eq_pow, qks_pow_step1 _ 99 hu, qks_pow_step2_exit _ 98 hu h3]

theorem qks_real_exit3 (alam : ℝ) (h3 : 1 / 1000 < Real.exp (-2 * alam * alam) ^ 3)
    (h5 : Real.exp (-2 * alam * alam) ^ 5 ≤ 1 / 1000) :
    qks Real.exp alam =
      2 * Real.exp (-2 * alam * alam) - 2 * Real.exp (-2 * alam * alam) ^ 4 +
        2 * Real.exp (-2 * alam * alam) ^ 9 := by
  have hu := Real.exp_pos (-2 * alam * alam)
  rw [qks_eq_pow, qks_pow_step1 _ 99 hu, qks_pow_step2_next _ 98 hu h3,
    qks_pow_step3_exit _ 97 hu h5]

theorem qks_real_exit4 (alam : ℝ) (hu1 : Real.exp (-2 * alam * alam) < 1)
    (h5 : 1 / 1000 < Real.exp (-2 * alam * alam) ^ 5)
    (h7 : Real.exp (-2 * alam * alam) ^ 7 ≤ 1 / 1000) :
    qks Real.exp alam =
      2 * Real.exp (-2 * alam * alam) - 2 * Real.exp (-2 * alam * alam) ^ 4 +
        2 * Real.exp (-2 * alam * alam) ^ 9 - 2 * Real.exp (-2 * alam * alam) ^ 16 := by
  have hu := Real.exp_pos (-2 * alam * alam)
  have h3 : 1 / 1000 < Real.exp (-2 * alam * alam) ^ 3 := by
    have h53 : Real.exp (-2 * alam * alam) ^ 5 ≤ Real.exp (-2 * alam * alam) ^ 3 :=
      pow_le_pow_of_le_one hu.le hu1.le (by norm_num)
    linarith
  rw [qks_eq_pow, qks_pow_step1 _ 99 hu, qks_pow_step2_next _ 98 hu h3,
    qks_pow_step3_next _ 97 hu hu1 h5, qks_pow_step4_exit _ 96 hu h7]

/-- The map `t ↦ t - t ^ 4` is monotone on `(0, 1/2]`. -/
theorem sub_pow_four_mono (w u : ℝ) (hw : 0 < w) (hwu : w ≤ u) (hu : u ≤ 1 / 2) :
    w - w ^ 4 ≤ u - u ^ 4 := by
  have hu0 : 0 < u := lt_of_lt_of_le hw hwu
  have hw2 : w ≤ 1 / 2 := le_trans hwu hu
  have a1 : u ^ 3 ≤ 1 / 8 := by
    have := pow_le_pow_left₀ hu0.le hu 3
    norm_num at this
    exact this
  have a2 : w ^ 3 ≤ 1 / 8 := by
    have := pow_le_pow_left₀ hw.le hw2 3
    norm_num at this
    exact this
  have a3 : u ^ 2 * w ≤ 1 / 8 := by
    have h2 : u ^ 2 ≤ 1 / 4 := by
      have := pow_le_pow_left₀ hu0.le hu 2
      norm_num at this
      exact this
    have := mul_le_mul h2 hw2 hw.le (by norm_num : (0 : ℝ) ≤ 1 / 4)
    linarith
  have a4 : u * w ^ 2 ≤ 1 / 8 := by
    have h2 : w ^ 2 ≤ 1 / 4 := by
      have := pow_le_pow_left₀ hw.le hw2 2
      norm_num at this
      exact this
    have := mul_le_mul hu h2 (by positivity) (by norm_num : (0 : ℝ) ≤ 1 / 2)
    linarith
  have key : u - u ^ 4 - (w - w ^ 4) =
      (u - w) * (1 - (u ^ 3 + u ^ 2 * w + u * w ^ 2 + w ^ 3)) := by ring
  have hprod : 0 ≤ (u - w) * (1 - (u ^ 3 + u ^ 2 * w + u * w ^ 2 + w ^ 3)) :=
    mul_nonneg (by linarith) (by linarith)
  linarith

/-- The value of `qks` once `u = exp(-2 alam²)` satisfies `u ^ 5 ≤ 0.001`: the sum of the
first two or three terms. -/
theorem qks_real_tail (alam : ℝ) (h5 : Real.exp (-2 * alam * alam) ^ 5 ≤ 1 / 1000) :
    qks Real.exp alam =
      if Real.exp (-2 * alam * alam) ^ 3 ≤ 1 / 1000 then
        2 * Real.exp (-2 * alam * alam) - 2 * Real.exp (-2 * alam * alam) ^ 4
      else
        2 * Real.exp (-2 * alam * alam) - 2 * Real.exp (-2 * alam * alam) ^ 4 +
          2 * Real.exp (-2 * alam * alam) ^ 9 := by
  split_ifs with h3
  · exact qks_real_exit2 alam h3
  · exact qks_real_exit3 alam (not_le.mp h3) h5

theorem qks_tail_mono (w u : ℝ) (hw : 0 < w) (hwu : w ≤ u) (h5 : u ^ 5 ≤ 1 / 1000) :
    (if w ^ 3 ≤ 1 / 1000 then 2 * w - 2 * w ^ 4 else 2 * w - 2 * w ^ 4 + 2 * w ^ 9) ≤
      (if u ^ 3 ≤ 1 / 1000 then 2 * u - 2 * u ^ 4 else 2 * u - 2 * u ^ 4 + 2 * u ^ 9) := by
  have hu0 : 0 < u := lt_of_lt_of_le hw hwu
  have hu : u ≤ 1 / 2 := by
    by_contra hcon
    push_neg at hcon
    have := pow_lt_pow_left₀ hcon (by norm_num) (by norm_num : (5 : ℕ) ≠ 0)
    norm_num at this
    linarith
  have hg := sub_pow_four_mono w u hw hwu hu
  have h9 : w ^ 9 ≤ u ^ 9 := pow_le_pow_left₀ hw.le hwu 9
  have h3 : w ^ 3 ≤ u ^ 3 := pow_le_pow_left₀ hw.le hwu 3
  have hw9 : 0 < w ^ 9 := by positivity
  have hu9 : 0 < u ^ 9 := by positivity
  split_ifs with h1 h2 h2
  · linarith
  · linarith
  · exact absurd (le_trans h3 h2) h1
  · linarith

theorem exp_pow_five_le (a : ℝ) (ha : Real.sqrt (Real.log 1000 / 10) ≤ a) :
    Real.exp (-2 * a * a) ^ 5 ≤ 1 / 1000 := by
  have h2 := (Real.sqrt_le_left ((Real.sqrt_nonneg _).trans ha)).mp ha
  rw [← Real.exp_nat_mul]
  have e : ((5 : ℕ) : ℝ) * (-2 * a * a) = -(10 * a ^ 2) := by
    push_cast
    ring
  rw [e]
  have h3 : -(10 * a ^ 2) ≤ -Real.log 1000 := by linarith
  calc Real.exp (-(10 * a ^ 2)) ≤ Real.exp (-Real.log 1000) := Real.exp_le_exp.mpr h3
    _ = 1 / 1000 := by
      rw [Real.exp_neg, Real.exp_log (by norm_num : (0 : ℝ) < 1000)]
      norm_num

/-- C7 (amended): on `[sqrt(ln 1000 / 10), ∞)`, where the loop leaves at its second or third
term, `qks` is monotonically decreasing: `qks(b) ≤ qks(a)` for `sqrt(ln 1000 / 10) ≤ a < b`. -/
theorem qks_c7 (a b : ℝ) (ha : Real.sqrt (Real.log 1000 / 10) ≤ a) (hab : a < b) :
    qks Real.exp b ≤ qks Real.exp a := by
  have ha0 : 0 ≤ a := (Real.sqrt_nonneg _).trans ha
  have h5a := exp_pow_five_le a ha
  have h5b := exp_pow_five_le b (ha.trans hab.le)
  have hle : Real.exp (-2 * b * b) ≤ Real.exp (-2 * a * a) := by
    apply Real.exp_le_exp.mpr
    nlinarith
  rw [qks_real_tail a h5a, qks_real_tail b h5b]
  exact qks_tail_mono _ _ (Real.exp_pos _) hle h5a

theorem exp_ten_ge : (1000 : ℝ) ≤ Real.exp 10 := by
  have h2 : (2 : ℝ) ≤ Real.exp 1 := by
    have := Real.add_one_le_exp (1 : ℝ)
    linarith
  have e : Real.exp 10 = Real.exp 1 ^ 10 := by
    rw [← Real.exp_nat_mul]
    norm_num
  rw [e]
  calc (1000 : ℝ) ≤ 2 ^ 10 := by norm_num
    _ ≤ Real.exp 1 ^ 10 := pow_le_pow_left₀ (by norm_num) h2 10

theorem sqrt_log_thousand_le_one : Real.sqrt (Real.log 1000 / 10) ≤ 1 := by
  have : Real.log 1000 ≤ 10 :=
    (Real.log_le_iff_le_exp (by norm_num : (0 : ℝ) < 1000)).mpr exp_ten_ge
  exact Real.sqrt_le_one.mpr (by linarith)

/-- Witness for C7 (amended): `a = 1`, `b = 2`. -/
theorem qks_c7_witness :
    Real.sqrt (Real.log 1000 / 10) ≤ 1 ∧ (1 : ℝ) < 2 ∧ qks Real.exp 2 ≤ qks Real.exp 1 :=
  ⟨sqrt_log_thousand_le_one, by norm_num,
    qks_c7 1 2 sqrt_log_thousand_le_one (by norm_num)⟩

/-- For `Y > 1` and `alam = sqrt(ln Y / 10)`, `u = exp(-2 alam²)` satisfies `u ^ 5 = 1 / Y`. -/
theorem exp_pow_five_eq (Y : ℝ) (hY : 1 < Y) :
    Real.exp (-2 * Real.sqrt (Real.log Y / 10) * Real.sqrt (Real.log Y / 10)) ^ 5 = 1 / Y := by
  have hlog : 0 ≤ Real.log Y / 10 := div_nonneg (Real.log_nonneg hY.le) (by norm_num)
  have e : -2 * Real.sqrt (Real.log Y / 10) * Real.sqrt (Real.log Y / 10) =
      -2 * (Real.sqrt (Real.log Y / 10) * Real.sqrt (Real.log Y / 10)) := by ring
  rw [e, Real.mul_self_sqrt hlog, ← Real.exp_nat_mul]
  have e2 : ((5 : ℕ) : ℝ) * (-2 * (Real.log Y / 10)) = -Real.log Y := by
    push_cast
    ring
  rw [e2, Real.exp_neg, Real.exp_log (by linarith)]
  simp

/-- The polynomial gap behind the C7 counterexample: with `u ^ 5 = 0.001` and
`v ^ 5 = 0.001 (1 + 10⁻⁹)` the four-term sum at `v` is below the three-term sum at `u`. -/
theorem qks_gap (u v : ℝ) (hu : 0 < u) (hv : 0 < v) (hu5 : u ^ 5 = 1 / 1000)
    (hv5 : v ^ 5 = (10 ^ 9 + 1) / 10 ^ 12) :
    2 * v - 2 * v ^ 4 + 2 * v ^ 9 - 2 * v ^ 16 < 2 * u - 2 * u ^ 4 + 2 * u ^ 9 := by
  have hu4 : 1 / 4 ≤ u := by
    by_contra hcon
    push_neg at hcon
    have := pow_lt_pow_left₀ hcon hu.le (by norm_num : (5 : ℕ) ≠ 0)
    rw [hu5] at this
    norm_num at this
  have huv : u < v := by
    by_contra hcon
    push_neg at hcon
    have := pow_le_pow_left₀ hv.le hcon 5
    rw [hu5, hv5] at this
    norm_num at this
  have hv26 : v ≤ 13 / 50 := by
    by_contra hcon
    push_neg at hcon
    have := pow_lt_pow_left₀ hcon (by norm_num) (by norm_num : (5 : ℕ) ≠ 0)
    rw [hv5] at this
    norm_num at this
  have hd : 0 < v - u := sub_pos.mpr huv
  have hu4p : (1 / 4 : ℝ) ^ 4 ≤ u ^ 4 := pow_le_pow_left₀ (by norm_num) hu4 4
  have hv8 : v ^ 8 ≤ (13 / 50 : ℝ) ^ 8 := pow_le_pow_left₀ hv.le hv26 8
  have hv16 : (1 / 4 : ℝ) ^ 16 ≤ v ^ 16 :=
    pow_le_pow_left₀ (by norm_num) (hu4.trans huv.le) 16
  have hv4 : u ^ 4 ≤ v ^ 4 := pow_le_pow_left₀ hu.le huv.le 4
  have k5 : v ^ 5 - u ^ 5 - 5 * u ^ 4 * (v - u) =
      (v - u) ^ 2 * (v ^ 3 + 2 * v ^ 2 * u + 3 * v * u ^ 2 + 4 * u ^ 3) := by ring
  have k5' : 0 ≤ (v - u) ^ 2 * (v ^ 3 + 2 * v ^ 2 * u + 3 * v * u ^ 2 + 4 * u ^ 3) := by
    positivity
  have k9 : u ^ 9 - v ^ 9 - 9 * v ^ 8 * (u - v) =
      (u - v) ^ 2 * (u ^ 7 + 2 * u ^ 6 * v + 3 * u ^ 5 * v ^ 2 + 4 * u ^ 4 * v ^ 3 +
        5 * u ^ 3 * v ^ 4 + 6 * u ^ 2 * v ^ 5 + 7 * u * v ^ 6 + 8 * v ^ 7) := by ring
  have k9' : 0 ≤ (u - v) ^ 2 * (u ^ 7 + 2 * u ^ 6 * v + 3 * u ^ 5 * v ^ 2 + 4 * u ^ 4 * v ^ 3 +
        5 * u ^ 3 * v ^ 4 + 6 * u ^ 2 * v ^ 5 + 7 * u * v ^ 6 + 8 * v ^ 7) := by
    positivity
  have b1 : (1 / 4 : ℝ) ^ 4 * (v - u) ≤ u ^ 4 * (v - u) :=
    mul_le_mul_of_nonneg_right hu4p hd.le
  have b2 : v ^ 8 * (v - u) ≤ (13 / 50 : ℝ) ^ 8 * (v - u) :=
    mul_le_mul_of_nonneg_right hv8 hd.le
  have hdbound : v - u ≤ 256 / (5 * 10 ^ 12) := by
    rw [hu5, hv5] at k5
    norm_num at b1 k5 ⊢
    linarith
  norm_num at b2 hv16
  linarith

/-- C7 (as stated, refuted): `a = sqrt(ln(10¹² / (10⁹ + 1)) / 10)` lies just below
`b = sqrt(ln 1000 / 10)`.  At `b` the first exit test holds with equality at the third term
and `qks(b)` is the three-term sum; at `a` it fails there and `qks(a)` is the four-term sum,
which is smaller: `0 < a < b` and `qks(a) < qks(b)`. -/
theorem qks_c7_counterexample :
    0 < Real.sqrt (Real.log (10 ^ 12 / (10 ^ 9 + 1)) / 10) ∧
      Real.sqrt (Real.log (10 ^ 12 / (10 ^ 9 + 1)) / 10) < Real.sqrt (Real.log 1000 / 10) ∧
      qks Real.exp (Real.sqrt (Real.log (10 ^ 12 / (10 ^ 9 + 1)) / 10)) <
        qks Real.exp (Real.sqrt (Real.log 1000 / 10)) := by
  have hY : (1 : ℝ) < 10 ^ 12 / (10 ^ 9 + 1) := by norm_num
  have hYlt : (10 ^ 12 / (10 ^ 9 + 1) : ℝ) < 1000 := by norm_num
  have hlogpos : 0 < Real.log (10 ^ 12 / (10 ^ 9 + 1)) := Real.log_pos hY
  have hloglt : Real.log (10 ^ 12 / (10 ^ 9 + 1)) < Real.log 1000 :=
    Real.log_lt_log (by norm_num) hYlt
  have hv5 := exp_pow_five_eq (10 ^ 12 / (10 ^ 9 + 1)) hY
  have hu5 := exp_pow_five_eq 1000 (by norm_num)
  have hv5' : Real.exp (-2 * Real.sqrt (Real.log (10 ^ 12 / (10 ^ 9 + 1)) / 10) *
      Real.sqrt (Real.log (10 ^ 12 / (10 ^ 9 + 1)) / 10)) ^ 5 = (10 ^ 9 + 1) / 10 ^ 12 := by
    rw [hv5]
    norm_num
  refine ⟨Real.sqrt_pos.mpr (by linarith), ?_, ?_⟩
  · exact Real.sqrt_lt_sqrt (by linarith) (by linarith)
  · set u := Real.exp (-2 * Real.sqrt (Real.log 1000 / 10) * Real.sqrt (Real.log 1000 / 10))
      with hu
    set v := Real.exp (-2 * Real.sqrt (Real.log (10 ^ 12 / (10 ^ 9 + 1)) / 10) *
      Real.sqrt (Real.log (10 ^ 12 / (10 ^ 9 + 1)) / 10)) with hv
    have hu0 : 0 < u := Real.exp_pos _
    have hv0 : 0 < v := Real.exp_pos _
    have hu1 : u < 1 := by
      by_contra hcon
      push_neg at hcon
      have : 1 ≤ u ^ 5 := one_le_pow₀ hcon
      rw [hu5] at this
      norm_num at this
    have hv1 : v < 1 := by
      by_contra hcon
      push_neg at hcon
      have : 1 ≤ v ^ 5 := one_le_pow₀ hcon
      rw [hv5'] at this
      norm_num at this
    have hu3 : 1 / 1000 < u ^ 3 := by
      have h53 : u ^ 5 < u ^ 3 := pow_lt_pow_right_of_lt_one₀ hu0 hu1 (by norm_num)
      rw [hu5] at h53
      exact h53
    have hv7 : v ^ 7 ≤ 1 / 1000 := by
      have hv2 : v ^ 2 ≤ 1 / 2 := by
        by_contra hcon
        push_neg at hcon
        have h4 : (1 / 2 : ℝ) ^ 2 < (v ^ 2) ^ 2 :=
          pow_lt_pow_left₀ hcon (by norm_num) (by norm_num)
        have h5 : v ^ 5 = (v ^ 2) ^ 2 * v := by ring
        have hvhalf : 1 / 2 < v := by nlinarith
        rw [hv5'] at h5
        nlinarith
      have e : v ^ 7 = v ^ 5 * v ^ 2 := by ring
      rw [e, hv5']
      nlinarith
    rw [qks_real_exit3 _ hu3 (le_of_eq hu5),
      qks_real_exit4 _ hv1 (by rw [hv5']; norm_num) hv7]
    exact qks_gap u v hu0 hv0 hu5 hv5'

/-! ## Theorems about the segment map -/

section SegmentMap

variable {K : Type} [LinearOrderedField K]

theorem map_insert_mem (k : K) (v : betaparam_t K) : ∀ (m : betamap_t K) (e : K × betaparam_t K),
    e ∈ map_insert k v m → e = (k, v) ∨ e ∈ m := by
  intro m
  induction m with
  | nil =>
    intro e he
    simp only [map_insert, List.mem_singleton] at he
    exact Or.inl he
  | cons hd rest ih =>
    intro e he
    obtain ⟨k1, v1⟩ := hd
    simp only [map_insert] at he
    split_ifs at he with h1 h2
    · rcases List.mem_cons.mp he with h | h
      · exact Or.inl h
      · exact Or.inr h
    · rcases List.mem_cons.mp he with h | h
      · exact Or.inr (h ▸ List.mem_cons_self _ _)
      · rcases ih e h with h' | h'
        · exact Or.inl h'
        · exact Or.inr (List.mem_cons_of_mem _ h')
    · exact Or.inr he

theorem map_insert_increasing (k : K) (v : betaparam_t K) : ∀ (m : betamap_t K),
    KeysIncreasing m → KeysIncreasing (map_insert k v m) := by
  intro m
  induction m with
  | nil =>
    intro _
    simp [map_insert, KeysIncreasing]
  | cons hd rest ih =>
    intro hm
    obtain ⟨k1, v1⟩ := hd
    unfold KeysIncreasing at hm ⊢
    rw [List.pairwise_cons] at hm
    simp only [map_insert]
    split_ifs with h1 h2
    · rw [List.pairwise_cons]
      refine ⟨?_, List.pairwise_cons.mpr hm⟩
      intro e he
      rcases List.mem_cons.mp he with h | h
      · rw [h]; exact h1
      · exact lt_trans h1 (hm.1 e h)
    · rw [List.pairwise_cons]
      refine ⟨?_, ih hm.2⟩
      intro e he
      rcases map_insert_mem k v rest e he with h | h
      · rw [h]; exact h2
      · exact hm.1 e h
    · exact List.pairwise_cons.mpr hm

theorem map_insert_above (k : K) (v : betaparam_t K) : ∀ (m : betamap_t K),
    (∀ e ∈ m, e.1 < k) → map_insert k v m = m ++ [(k, v)] := by
  intro m
  induction m with
  | nil => intro _; rfl
  | cons hd rest ih =>
    intro hm
    obtain ⟨k1, v1⟩ := hd
    have hk1 : k1 < k := hm (k1, v1) (List.mem_cons_self _ _)
    simp only [map_insert, if_neg (not_lt.mpr hk1.le), if_pos hk1, List.cons_append]
    rw [ih (fun e he => hm e (List.mem_cons_of_mem _ he))]

/-- In a map with increasing keys an entry is determined by its key. -/
theorem keys_increasing_unique : ∀ (m : betamap_t K), KeysIncreasing m →
    ∀ e1 ∈ m, ∀ e2 ∈ m, e1.1 = e2.1 → e1 = e2 := by
  intro m
  induction m with
  | nil => intro _ e1 h1; simp at h1
  | cons hd rest ih =>
    intro hm e1 h1 e2 h2 hk
    unfold KeysIncreasing at hm
    rw [List.pairwise_cons] at hm
    rcases List.mem_cons.mp h1 with a | a <;> rcases List.mem_cons.mp h2 with b | b
    · rw [a, b]
    · have := hm.1 e2 b
      rw [← a, hk] at this
      exact absurd this (lt_irrefl _)
    · have := hm.1 e1 a
      rw [← b, hk] at this
      exact absurd this (lt_irrefl _)
    · exact ih hm.2 e1 a e2 b hk

/-- The scan of `cls_prob_signed` on a map that holds a key `≥ rv`. -/
theorem cls_prob_signed_least (ibeta : K → K → K → K) (rv : K) : ∀ (m : betamap_t K),
    KeysIncreasing m → (∃ e ∈ m, rv ≤ e.1) →
      ∃ e ∈ m, rv ≤ e.1 ∧ (∀ e1 ∈ m, rv ≤ e1.1 → e.1 ≤ e1.1) ∧
        cls_prob_signed ibeta m rv = some (ibeta e.2.alpha e.2.beta rv) := by
  intro m
  induction m with
  | nil =>
    intro _ h
    obtain ⟨e, he, _⟩ := h
    simp at he
  | cons hd rest ih =>
    intro hm hkey
    obtain ⟨k1, v1⟩ := hd
    unfold KeysIncreasing at hm
    rw [List.pairwise_cons] at hm
    by_cases h : rv > k1
    · have hkey' : ∃ e ∈ rest, rv ≤ e.1 := by
        obtain ⟨e, he, hle⟩ := hkey
        rcases List.mem_cons.mp he with a | a
        · rw [a] at hle
          exact absurd hle (not_le.mpr h)
        · exact ⟨e, a, hle⟩
      obtain ⟨e, he, hle, hmin, hval⟩ := ih hm.2 hkey'
      refine ⟨e, List.mem_cons_of_mem _ he, hle, ?_, ?_⟩
      · intro e1 he1 hle1
        rcases List.mem_cons.mp he1 with a | a
        · rw [a] at hle1
          exact absurd hle1 (not_le.mpr h)
        · exact hmin e1 a hle1
      · simp only [cls_prob_signed, if_pos h]
        exact hval
    · refine ⟨(k1, v1), List.mem_cons_self _ _, not_lt.mp h, ?_, ?_⟩
      · intro e1 he1 _
        rcases List.mem_cons.mp he1 with a | a
        · rw [a]
        · exact (hm.1 e1 a).le
      · simp only [cls_prob_signed, if_neg h]

end SegmentMap

/-- C9: for every segment map (keys strictly increasing) and every `rv` for which the map
holds a key `≥ rv`, `cls_prob_signed` stops inside the map at the entry with the least key
`≥ rv`, which is the entry with key `rv` if there is one, and returns the Beta-CDF
evaluation at `rv` with the parameters of that entry. -/
theorem cls_prob_signed_c9 (K : Type) [LinearOrderedField K] (ibeta : K → K → K → K)
    (betamap : betamap_t K) (rv : K) (hsorted : KeysIncreasing betamap)
    (hkey : ∃ e ∈ betamap, rv ≤ e.1) :
    ∃ e ∈ betamap, rv ≤ e.1 ∧ (∀ e1 ∈ betamap, rv ≤ e1.1 → e.1 ≤ e1.1) ∧
      (∀ e1 ∈ betamap, e1.1 = rv → e1 = e) ∧
      cls_prob_signed ibeta betamap rv = some (ibeta e.2.alpha e.2.beta rv) := by
  obtain ⟨e, he, hle, hmin, hval⟩ := cls_prob_signed_least ibeta rv betamap hsorted hkey
  refine ⟨e, he, hle, hmin, ?_, hval⟩
  intro e1 he1 hk
  have h1 : e.1 ≤ e1.1 := hmin e1 he1 (le_of_eq hk.symm)
  have h2 : e1.1 ≤ e.1 := hk ▸ hle
  exact keys_increasing_unique betamap hsorted e1 he1 e he (le_antisymm h2 h1)

/-- Witness for C9: a two-segment map over the rationals queried at its first key. -/
theorem cls_prob_signed_c9_witness :
    ∃ e ∈ ([(1 / 2, ⟨1, 1⟩), (1, ⟨2, 2⟩)] : betamap_t ℚ), (1 / 2 : ℚ) ≤ e.1 ∧
      (∀ e1 ∈ ([(1 / 2, ⟨1, 1⟩), (1, ⟨2, 2⟩)] : betamap_t ℚ), (1 / 2 : ℚ) ≤ e1.1 → e.1 ≤ e1.1) ∧
      (∀ e1 ∈ ([(1 / 2, ⟨1, 1⟩), (1, ⟨2, 2⟩)] : betamap_t ℚ), e1.1 = 1 / 2 → e1 = e) ∧
      cls_prob_signed ibeta_uniform ([(1 / 2, ⟨1, 1⟩), (1, ⟨2, 2⟩)] : betamap_t ℚ) (1 / 2) =
        some (ibeta_uniform e.2.alpha e.2.beta (1 / 2)) :=
  cls_prob_signed_c9 ℚ ibeta_uniform [(1 / 2, ⟨1, 1⟩), (1, ⟨2, 2⟩)] (1 / 2)
    (by simp [KeysIncreasing]; norm_num)
    ⟨(1 / 2, ⟨1, 1⟩), by simp, le_refl _⟩

/-! ## Theorems about `beta::search_betamap` -/

section Segmenter

variable {K : Type} [LinearOrderedField K]

/-- While the loop of `search_betamap` runs on an ECDF of at most `100` entries, the map stays
in key order and every key stays below `1`: a cut inserts `(i - 1) / 100` with `i ≤ 100`. -/
theorem search_betamap_loop_inv (ibeta : K → K → K → K) (exp : K → K) (ecdf_size : Nat)
    (hN : ecdf_size ≤ 100) : ∀ (fuel i : Nat) (kst : kstest_t K) (prevbp : betaparam_t K)
      (betamap : betamap_t K) (r : betamap_t K × betaparam_t K),
      KeysIncreasing betamap → (∀ e ∈ betamap, e.1 < 1) →
      search_betamap_loop ibeta exp ecdf_size fuel i kst prevbp betamap = some r →
      KeysIncreasing r.1 ∧ ∀ e ∈ r.1, e.1 < 1 := by
  intro fuel
  induction fuel with
  | zero =>
    intro i kst prevbp betamap r _ _ h
    simp [search_betamap_loop] at h
  | succ fuel ih =>
    intro i kst prevbp betamap r hinc hlt h
    simp only [search_betamap_loop] at h
    split_ifs at h with hi hp1 hp2
    · refine ih _ _ _ _ r (map_insert_increasing _ _ _ hinc) ?_ h
      intro e he
      rcases map_insert_mem _ _ _ e he with a | a
      · rw [a]
        show ((i - 1 : Nat) : K) / 100 < 1
        rw [div_lt_one (by norm_num)]
        have : i - 1 < 100 := by omega
        exact_mod_cast this
      · exact hlt e a
    · exact ih _ _ _ _ r hinc hlt h
    · exact ih _ _ _ _ r hinc hlt h
    · simp only [Option.some.injEq] at h
      rw [← h]
      exact ⟨hinc, hlt⟩

/-- The value returned by `search_betamap` is the constant `{0., 1.}` the local `ksr` is
initialised with. -/
theorem search_betamap_ksr (ibeta : K → K → K → K) (exp sqrt : K → K) (fuel : Nat)
    (betamap : betamap_t K) (ecdf : List K) (ptn : pattern_t K) (ksr : ksresult_t K)
    (m : betamap_t K)
    (hret : search_betamap ibeta exp sqrt fuel betamap ecdf ptn = some (ksr, m)) :
    ksr = ⟨0, 1⟩ := by
  unfold search_betamap at hret
  simp only at hret
  split at hret
  · simp at hret
  · simp only [Option.some.injEq, Prod.mk.injEq] at hret
    exact hret.1.symm

theorem search_betamap_map (ibeta : K → K → K → K) (exp sqrt : K → K) (fuel : Nat)
    (ecdf : List K) (ptn : pattern_t K) (ksr : ksresult_t K) (m : betamap_t K)
    (hN : ecdf.length ≤ 100)
    (hret : search_betamap ibeta exp sqrt fuel [] ecdf ptn = some (ksr, m)) :
    ∃ (m1 : betamap_t K) (bp : betaparam_t K), m = m1 ++ [(1, bp)] ∧ KeysIncreasing m1 ∧
      ∀ e ∈ m1, e.1 < 1 := by
  unfold search_betamap at hret
  simp only at hret
  split at hret
  · simp at hret
  · rename_i m1 bp hloop
    simp only [Option.some.injEq, Prod.mk.injEq] at hret
    obtain ⟨hinc, hlt⟩ := search_betamap_loop_inv ibeta exp ecdf.length hN _ _ _ _ _ (m1, bp)
      (by simp [KeysIncreasing]) (by simp) hloop
    refine ⟨m1, bp, ?_, hinc, hlt⟩
    rw [← hret.2, map_insert_above 1 bp m1 hlt]

end Segmenter

/-- C8: for an ECDF of at most `100` entries and any seed, when `search_betamap` is run on
an empty segment map and returns, the map is non-empty, its keys are strictly increasing,
none exceeds `1`, and the last (largest) key is exactly `1`. -/
theorem search_betamap_c8 (K : Type) [LinearOrderedField K] (ibeta : K → K → K → K)
    (exp sqrt : K → K) (fuel : Nat) (ecdf : List K) (ptn : pattern_t K)
    (ksr : ksresult_t K) (m : betamap_t K) (hN : ecdf.length ≤ 100)
    (hret : search_betamap ibeta exp sqrt fuel [] ecdf ptn = some (ksr, m)) :
    m ≠ [] ∧ KeysIncreasing m ∧ (∀ e ∈ m, e.1 ≤ 1) ∧ m.getLast?.map Prod.fst = some 1 := by
  obtain ⟨m1, bp, hm, hinc, hlt⟩ :=
    search_betamap_map ibeta exp sqrt fuel ecdf ptn ksr m hN hret
  subst hm
  refine ⟨by simp, ?_, ?_, by simp⟩
  · unfold KeysIncreasing at hinc ⊢
    rw [List.pairwise_append]
    refine ⟨hinc, by simp, ?_⟩
    intro a ha b hb
    rw [List.mem_singleton] at hb
    rw [hb]
    exact hlt a ha
  · intro e he
    rcases List.mem_append.mp he with a | a
    · exact (hlt e a).le
    · rw [List.mem_singleton] at a
      rw [a]

/-! ## A run of `search_betamap` on a one-bin ECDF

The ECDF is `[1/10]`, the seed moments are `mean = 1/2`, `var = 1/20`, so that
`moment_match` gives `(2, 2)`; the only Beta-CDF evaluation is at `rv = 1/1 = 1`. -/

theorem exp_seven_ge : (1000 : ℝ) ≤ Real.exp 7 := by
  have h : (2.7 : ℝ) ≤ Real.exp 1 := by
    have := Real.exp_one_gt_d9
    norm_num at this ⊢
    linarith
  have e : Real.exp 7 = Real.exp 1 ^ 7 := by
    rw [← Real.exp_nat_mul]
    norm_num
  rw [e]
  calc (1000 : ℝ) ≤ 2.7 ^ 7 := by norm_num
    _ ≤ Real.exp 1 ^ 7 := pow_le_pow_left₀ (by norm_num) h 7

theorem exp_three_le : Real.exp 3 ≤ 21 := by
  have h : Real.exp 1 ≤ 2.72 := by
    have := Real.exp_one_lt_d9
    norm_num at this ⊢
    linarith
  have e : Real.exp 3 = Real.exp 1 ^ 3 := by
    rw [← Real.exp_nat_mul]
    norm_num
  rw [e]
  calc Real.exp 1 ^ 3 ≤ 2.72 ^ 3 := pow_le_pow_left₀ (Real.exp_pos 1).le h 3
    _ ≤ 21 := by norm_num

/-- The p-value of the example: `qks(1.23 * 0.9)` leaves at its second term and is at least
`0.05`. -/
theorem qks_example_ge : ¬ (qks Real.exp (1107 / 1000) < 0.05) := by
  have hu0 : 0 < Real.exp (-2 * (1107 / 1000) * (1107 / 1000)) := Real.exp_pos _
  have h3 : Real.exp (-2 * (1107 / 1000) * (1107 / 1000)) ^ 3 ≤ 1 / 1000 := by
    rw [← Real.exp_nat_mul]
    have h7 : ((3 : ℕ) : ℝ) * (-2 * (1107 / 1000) * (1107 / 1000)) ≤ -7 := by norm_num
    calc Real.exp (((3 : ℕ) : ℝ) * (-2 * (1107 / 1000) * (1107 / 1000)))
        ≤ Real.exp (-7) := Real.exp_le_exp.mpr h7
      _ = (Real.exp 7)⁻¹ := Real.exp_neg 7
      _ ≤ 1 / 1000 := by
        rw [one_div]
        exact inv_anti₀ (by norm_num) exp_seven_ge
  have hlow : 1 / 21 ≤ Real.exp (-2 * (1107 / 1000) * (1107 / 1000)) := by
    have h3' : (-3 : ℝ) ≤ -2 * (1107 / 1000) * (1107 / 1000) := by norm_num
    calc (1 / 21 : ℝ) ≤ (Real.exp 3)⁻¹ := by
          rw [one_div]
          exact inv_anti₀ (Real.exp_pos 3) exp_three_le
      _ = Real.exp (-3) := (Real.exp_neg 3).symm
      _ ≤ _ := Real.exp_le_exp.mpr h3'
  rw [qks_real_exit2 _ h3]
  have h4 : Real.exp (-2 * (1107 / 1000) * (1107 / 1000)) ^ 4 =
      Real.exp (-2 * (1107 / 1000) * (1107 / 1000)) ^ 3 *
        Real.exp (-2 * (1107 / 1000) * (1107 / 1000)) := by ring
  rw [h4]
  norm_num
  nlinarith

theorem moment_match_example : moment_match (1 / 2 : ℝ) (1 / 20) = ⟨2, 2⟩ := by
  unfold moment_match
  norm_num

theorem partial_kstest_example :
    partial_kstest ibeta_uniform Real.exp
        (⟨[1 / 10], 1, 1, 0, 1, ⟨0, 0⟩⟩ : kstest_t ℝ) ⟨2, 2⟩ =
      ⟨[1 / 10], 1, 1, 0, 1, ⟨9 / 10, qks Real.exp (1107 / 1000)⟩⟩ := by
  unfold partial_kstest
  simp only [partial_kstest_loop, ibeta_uniform]
  norm_num
  rw [abs_of_pos (by norm_num : (0 : ℝ) < 9 / 10)]
  norm_num

theorem search_betamap_example :
    search_betamap ibeta_uniform Real.exp Real.sqrt 2 [] [1 / 10]
        (⟨[], [1 / 10], 1 / 2, 1 / 20, 0, 0, 0⟩ : pattern_t ℝ) =
      some (⟨0, 1⟩, [(1, ⟨2, 2⟩)]) := by
  unfold search_betamap
  simp only [List.length_singleton, Nat.cast_one, Real.sqrt_one, moment_match_example]
  simp only [search_betamap_loop, le_refl, if_true, partial_kstest_example,
    if_neg qks_example_ge]
  norm_num [map_insert]

theorem betasketch_beta_example :
    betasketch_beta ibeta_uniform ([(1, ⟨2, 2⟩)] : betamap_t ℝ) 1 = some [1] := by
  simp [betasketch_beta, betasketch_beta_loop, cls_prob_signed, ibeta_uniform]

theorem kstest_example :
    kstest Real.exp Real.sqrt [1 / 10] [1] =
      Except.ok ⟨9 / 10,
        qks Real.exp ((Real.sqrt (1 / 2) + 0.23 / Real.sqrt (1 / 2)) * (9 / 10))⟩ := by
  unfold kstest
  simp only [kstest_loop]
  norm_num
  rw [abs_of_pos (by norm_num : (0 : ℝ) < 9 / 10)]

/-- Witness for C8: the run on the one-bin ECDF `[1/10]` returns, with the map `{1 ↦ (2, 2)}`. -/
theorem search_betamap_c8_witness :
    search_betamap ibeta_uniform Real.exp Real.sqrt 2 [] [1 / 10]
        (⟨[], [1 / 10], 1 / 2, 1 / 20, 0, 0, 0⟩ : pattern_t ℝ) =
      some (⟨0, 1⟩, [(1, ⟨2, 2⟩)]) ∧
    ([(1, ⟨2, 2⟩)] : betamap_t ℝ) ≠ [] ∧ KeysIncreasing ([(1, ⟨2, 2⟩)] : betamap_t ℝ) ∧
      (∀ e ∈ ([(1, ⟨2, 2⟩)] : betamap_t ℝ), e.1 ≤ 1) ∧
      ([(1, ⟨2, 2⟩)] : betamap_t ℝ).getLast?.map Prod.fst = some 1 :=
  ⟨search_betamap_example,
    search_betamap_c8 ℝ ibeta_uniform Real.exp Real.sqrt 2 [1 / 10]
      ⟨[], [1 / 10], 1 / 2, 1 / 20, 0, 0, 0⟩ ⟨0, 1⟩ [(1, ⟨2, 2⟩)] (by simp)
      search_betamap_example⟩

/-- C10 (as stated, refuted): on the ECDF `[1/10]` with seed moments `(1/2, 1/20)`,
`search_betamap` returns `(0, 1)` and the map `{1 ↦ (2, 2)}`; the Beta values implied by
that map are `[1]`, and the full test `kstest([1/10], [1])` has the statistic `9/10`, so it is
not the returned pair. -/
theorem search_betamap_c10_counterexample :
    search_betamap ibeta_uniform Real.exp Real.sqrt 2 [] [1 / 10]
        (⟨[], [1 / 10], 1 / 2, 1 / 20, 0, 0, 0⟩ : pattern_t ℝ) =
      some (⟨0, 1⟩, [(1, ⟨2, 2⟩)]) ∧
    betasketch_beta ibeta_uniform ([(1, ⟨2, 2⟩)] : betamap_t ℝ) 1 = some [1] ∧
    kstest Real.exp Real.sqrt [1 / 10] [1] =
      Except.ok ⟨9 / 10,
        qks Real.exp ((Real.sqrt (1 / 2) + 0.23 / Real.sqrt (1 / 2)) * (9 / 10))⟩ ∧
    kstest Real.exp Real.sqrt [1 / 10] [1] ≠ Except.ok ⟨0, 1⟩ := by
  refine ⟨search_betamap_example, betasketch_beta_example, kstest_example, ?_⟩
  rw [kstest_example]
  intro h
  simp only [Except.ok.injEq, ksresult_t.mk.injEq] at h
  norm_num at h

/-- C10 (amended): whenever `search_betamap` returns, the pair it returns is the constant
`(0, 1)`, whatever the ECDF, the seed and the map; it is not computed from a KS test. -/
theorem search_betamap_c10 (K : Type) [LinearOrderedField K] (ibeta : K → K → K → K)
    (exp sqrt : K → K) (fuel : Nat) (betamap : betamap_t K) (ecdf : List K)
    (ptn : pattern_t K) (r : ksresult_t K × betamap_t K)
    (hret : search_betamap ibeta exp sqrt fuel betamap ecdf ptn = some r) :
    r.1 = ⟨0, 1⟩ :=
  search_betamap_ksr ibeta exp sqrt fuel betamap ecdf ptn r.1 r.2 hret

/-- Witness for C10 (amended): the run on the one-bin ECDF `[1/10]`. -/
theorem search_betamap_c10_witness :
    search_betamap ibeta_uniform Real.exp Real.sqrt 2 [] [1 / 10]
        (⟨[], [1 / 10], 1 / 2, 1 / 20, 0, 0, 0⟩ : pattern_t ℝ) =
      some (⟨0, 1⟩, [(1, ⟨2, 2⟩)]) ∧
    ((⟨0, 1⟩, [(1, ⟨2, 2⟩)]) : ksresult_t ℝ × betamap_t ℝ).1 = ⟨0, 1⟩ :=
  ⟨search_betamap_example,
    search_betamap_c10 ℝ ibeta_uniform Real.exp Real.sqrt 2 [] [1 / 10]
      ⟨[], [1 / 10], 1 / 2, 1 / 20, 0, 0, 0⟩ (⟨0, 1⟩, [(1, ⟨2, 2⟩)]) search_betamap_example⟩

/-! ## Theorems about `beta::moment_match` -/

section MomentMatch

variable {K : Type} [LinearOrderedField K]

/-- The value of `moment_match` when `var < mean (1 - mean)`: with
`t = mean (1 - mean) / var - 1 > 0` the parameters are `(mean t, (1 - mean) t)`. -/
theorem moment_match_eq (mean var : K) (h0 : 0 < mean) (_h1 : mean < 1) (hv0 : 0 < var)
    (hv : var < mean * (1 - mean)) :
    moment_match mean var =
      ⟨mean * (mean * (1 - mean) / var - 1), (1 - mean) * (mean * (1 - mean) / var - 1)⟩ := by
  have ht : 0 < mean * (1 - mean) / var - 1 := by
    rw [sub_pos, one_lt_div hv0]
    exact hv
  unfold moment_match
  simp only [sub_zero]
  rw [abs_of_pos (mul_pos h0 ht)]
  congr 1
  field_simp
  ring

theorem moment_match_pos (mean var : K) (h0 : 0 < mean) (h1 : mean < 1) (hv0 : 0 < var)
    (hne : var ≠ mean * (1 - mean)) :
    0 < (moment_match mean var).alpha ∧ 0 < (moment_match mean var).beta := by
  have ht : mean * (1 - mean) / var - 1 ≠ 0 := by
    intro h
    have h2 : mean * (1 - mean) / var = 1 := by linarith
    rw [div_eq_one_iff_eq (ne_of_gt hv0)] at h2
    exact hne h2.symm
  have ha : 0 < |mean * (((mean - 0) * (1 - mean)) / var - 1)| := by
    rw [sub_zero]
    exact abs_pos.mpr (mul_ne_zero (ne_of_gt h0) ht)
  refine ⟨ha, ?_⟩
  show 0 < |mean * (((mean - 0) * (1 - mean)) / var - 1)| * ((1 - mean) / (mean - 0))
  rw [sub_zero] at ha ⊢
  exact mul_pos ha (div_pos (by linarith) h0)

end MomentMatch

/-- C14: for `0 < mean < 1` and `0 < var < mean (1 - mean)` the pair returned by
`moment_match` has the Beta mean `alpha / (alpha + beta) = mean` and the Beta variance
`alpha beta / ((alpha + beta)² (alpha + beta + 1)) = var` (exact arithmetic, any ordered
field). -/
theorem moment_match_c14 (K : Type) [LinearOrderedField K] (mean var : K) (h0 : 0 < mean)
    (h1 : mean < 1) (hv0 : 0 < var) (hv : var < mean * (1 - mean)) :
    (moment_match mean var).alpha / ((moment_match mean var).alpha +
        (moment_match mean var).beta) = mean ∧
      (moment_match mean var).alpha * (moment_match mean var).beta /
        (((moment_match mean var).alpha + (moment_match mean var).beta) ^ 2 *
          ((moment_match mean var).alpha + (moment_match mean var).beta + 1)) = var := by
  have ht : 0 < mean * (1 - mean) / var - 1 := by
    rw [sub_pos, one_lt_div hv0]
    exact hv
  have hm : 0 < mean * (1 - mean) := lt_trans hv0 hv
  rw [moment_match_eq mean var h0 h1 hv0 hv]
  simp only
  have h3 : mean * (1 - mean) / var - 1 + 1 = mean * (1 - mean) / var := by ring
  generalize mean * (1 - mean) / var - 1 = t at ht h3
  have hsum : mean * t + (1 - mean) * t = t := by ring
  have ht' : t ≠ 0 := ne_of_gt ht
  rw [hsum]
  constructor
  · rw [mul_div_assoc, div_self ht', mul_one]
  · rw [h3]
    have hv' : var ≠ 0 := ne_of_gt hv0
    have hm' : mean * (1 - mean) ≠ 0 := ne_of_gt hm
    have h1m : 1 - mean ≠ 0 := by
      intro h
      rw [h, mul_zero] at hm'
      exact hm' rfl
    have h0' : mean ≠ 0 := ne_of_gt h0
    field_simp
    ring

/-- Witness for C14: `mean = 1/2`, `var = 1/20` over the rationals (the pair is `(2, 2)`). -/
theorem moment_match_c14_witness :
    (0 : ℚ) < 1 / 2 ∧ (1 / 2 : ℚ) < 1 ∧ (0 : ℚ) < 1 / 20 ∧ (1 / 20 : ℚ) < 1 / 2 * (1 - 1 / 2) ∧
      (moment_match (1 / 2 : ℚ) (1 / 20)).alpha / ((moment_match (1 / 2 : ℚ) (1 / 20)).alpha +
        (moment_match (1 / 2 : ℚ) (1 / 20)).beta) = 1 / 2 ∧
      (moment_match (1 / 2 : ℚ) (1 / 20)).alpha * (moment_match (1 / 2 : ℚ) (1 / 20)).beta /
        (((moment_match (1 / 2 : ℚ) (1 / 20)).alpha +
            (moment_match (1 / 2 : ℚ) (1 / 20)).beta) ^ 2 *
          ((moment_match (1 / 2 : ℚ) (1 / 20)).alpha +
            (moment_match (1 / 2 : ℚ) (1 / 20)).beta + 1)) = 1 / 20 :=
  ⟨by norm_num, by norm_num, by norm_num, by norm_num,
    moment_match_c14 ℚ (1 / 2) (1 / 20) (by norm_num) (by norm_num) (by norm_num)
      (by norm_num)⟩

/-! ## Theorems about the statistics step of `map_beta` -/

section Stats

variable {K : Type} [LinearOrderedField K]

theorem foldl_add_eq_sum (l : List K) (m : K) : l.foldl (fun m x => m + x) m = m + l.sum := by
  induction l generalizing m with
  | nil => simp
  | cons x xs ih => simp [ih, add_assoc]

/-- What the statistics step computes: the prior `mean` is part of the numerator of the new
`mean`; `var` is the sum of the squared deviations from that new `mean` over `N - 1`. -/
theorem map_beta_stats_mean (ptn : pattern_t K) :
    (map_beta_stats ptn).mean = (ptn.mean + ptn.ecdf.sum) / (ptn.ecdf.length : K) := by
  simp [map_beta_stats, foldl_add_eq_sum]

/-- With a prior `mean` of `0` the new `mean` is the arithmetic mean of the ECDF. -/
theorem map_beta_stats_mean_of_zero (ptn : pattern_t K) (h : ptn.mean = 0) :
    (map_beta_stats ptn).mean = ptn.ecdf.sum / (ptn.ecdf.length : K) := by
  rw [map_beta_stats_mean, h, zero_add]

end Stats

/-- C18 (code evaluated at the failing input): with the prior value `mean = 1` and the
rescaled ECDF `[1/2, 1]` the statistics step leaves `mean = (1 + 1/2 + 1) / 2 = 5/4`, while
the arithmetic mean of the ECDF is `3/4`; `var` is then taken around `5/4`. -/
theorem map_beta_stats_c18_prior_mean :
    (map_beta_stats (⟨[], [1 / 2, 1], 1, 0, 0, 0, 0⟩ : pattern_t ℚ)).mean = 5 / 4 ∧
      ([1 / 2, 1] : List ℚ).sum / (([1 / 2, 1] : List ℚ).length : ℚ) = 3 / 4 ∧
      (map_beta_stats (⟨[], [1 / 2, 1], 1, 0, 0, 0, 0⟩ : pattern_t ℚ)).var = 5 / 8 := by
  refine ⟨?_, ?_, ?_⟩
  · simp [map_beta_stats]
    norm_num
  · norm_num
  · simp [map_beta_stats]
    norm_num

/-! ## Theorems about `beta::search_beta` -/

section SearchBeta

variable {K : Type} [LinearOrderedField K]

/-- The result of `partial_kstest` does not depend on the `result` its argument carries. -/
theorem partial_kstest_idem (ibeta : K → K → K → K) (exp : K → K) (kst : kstest_t K)
    (bp1 bp2 : betaparam_t K) :
    partial_kstest ibeta exp (partial_kstest ibeta exp kst bp1) bp2 =
      partial_kstest ibeta exp kst bp2 := rfl

theorem search_beta_alpha_nonneg (ibeta : K → K → K → K) (exp : K → K) :
    ∀ (n : Nat) (s : search_t K) (astep : K), 0 ≤ s.bp.alpha → 0 ≤ s.bp.beta →
      0 ≤ (search_beta_alpha ibeta exp n s astep).bp.alpha ∧
        0 ≤ (search_beta_alpha ibeta exp n s astep).bp.beta := by
  intro n
  induction n with
  | zero => intro s astep ha hb; exact ⟨ha, hb⟩
  | succ n ih =>
    intro s astep ha hb
    simp only [search_beta_alpha]
    split_ifs with h1 h2 h3
    · exact ⟨ha, hb⟩
    · exact ih _ _ (not_lt.mp h2) hb
    · exact ih _ _ (not_lt.mp h2) hb
    · exact ⟨ha, hb⟩

theorem search_beta_beta_nonneg (ibeta : K → K → K → K) (exp : K → K) :
    ∀ (n : Nat) (s : search_t K) (bstep : K), 0 ≤ s.bp.alpha → 0 ≤ s.bp.beta →
      0 ≤ (search_beta_beta ibeta exp n s bstep).bp.alpha ∧
        0 ≤ (search_beta_beta ibeta exp n s bstep).bp.beta := by
  intro n
  induction n with
  | zero => intro s bstep ha hb; exact ⟨ha, hb⟩
  | succ n ih =>
    intro s bstep ha hb
    simp only [search_beta_beta]
    split_ifs with h1 h2 h3
    · exact ⟨ha, hb⟩
    · exact ih _ _ ha (not_lt.mp h2)
    · exact ih _ _ ha (not_lt.mp h2)
    · exact ⟨ha, hb⟩

theorem search_beta_outer_nonneg (ibeta : K → K → K → K) (exp : K → K) :
    ∀ (n : Nat) (s : search_t K), 0 ≤ s.bp.alpha → 0 ≤ s.bp.beta →
      0 ≤ (search_beta_outer ibeta exp n s).bp.alpha ∧
        0 ≤ (search_beta_outer ibeta exp n s).bp.beta := by
  intro n
  induction n with
  | zero => intro s ha hb; exact ⟨ha, hb⟩
  | succ n ih =>
    intro s ha hb
    simp only [search_beta_outer]
    split_ifs with h1
    · obtain ⟨a1, b1⟩ := search_beta_alpha_nonneg ibeta exp 100 s (s.bp.alpha / 2) ha hb
      obtain ⟨a2, b2⟩ := search_beta_beta_nonneg ibeta exp 100 _ (s.bp.beta / 2) a1 b1
      exact ih _ a2 b2
    · exact ⟨ha, hb⟩

/-- Every state of the first inner loop carries the partial-KS result of its own
parameters, computed on the window of `kst0`. -/
theorem search_beta_alpha_kst (ibeta : K → K → K → K) (exp : K → K) (kst0 : kstest_t K) :
    ∀ (n : Nat) (s : search_t K) (astep : K), s.kst = partial_kstest ibeta exp kst0 s.bp →
      (search_beta_alpha ibeta exp n s astep).kst =
        partial_kstest ibeta exp kst0 (search_beta_alpha ibeta exp n s astep).bp := by
  intro n
  induction n with
  | zero => intro s astep h; exact h
  | succ n ih =>
    intro s astep h
    simp only [search_beta_alpha]
    split_ifs with h1 h2 h3
    · exact h
    · apply ih
      show partial_kstest ibeta exp s.kst _ = _
      rw [h, partial_kstest_idem]
    · apply ih
      show partial_kstest ibeta exp s.kst _ = _
      rw [h, partial_kstest_idem]
    · exact h

theorem search_beta_beta_kst (ibeta : K → K → K → K) (exp : K → K) (kst0 : kstest_t K) :
    ∀ (n : Nat) (s : search_t K) (bstep : K), s.kst = partial_kstest ibeta exp kst0 s.bp →
      (search_beta_beta ibeta exp n s bstep).kst =
        partial_kstest ibeta exp kst0 (search_beta_beta ibeta exp n s bstep).bp := by
  intro n
  induction n with
  | zero => intro s bstep h; exact h
  | succ n ih =>
    intro s bstep h
    simp only [search_beta_beta]
    split_ifs with h1 h2 h3
    · exact h
    · apply ih
      show partial_kstest ibeta exp s.kst _ = _
      rw [h, partial_kstest_idem]
    · apply ih
      show partial_kstest ibeta exp s.kst _ = _
      rw [h, partial_kstest_idem]
    · exact h

theorem search_beta_outer_kst (ibeta : K → K → K → K) (exp : K → K) (kst0 : kstest_t K) :
    ∀ (n : Nat) (s : search_t K), s.kst = partial_kstest ibeta exp kst0 s.bp →
      (search_beta_outer ibeta exp n s).kst =
        partial_kstest ibeta exp kst0 (search_beta_outer ibeta exp n s).bp := by
  intro n
  induction n with
  | zero => intro s h; exact h
  | succ n ih =>
    intro s h
    simp only [search_beta_outer]
    split_ifs with h1
    · apply ih
      exact search_beta_beta_kst ibeta exp kst0 100 _ _
        (search_beta_alpha_kst ibeta exp kst0 100 s _ h)
    · exact h

/-- On return from `search_beta` the state `kst` is the partial-KS state of the returned
parameters, provided it was that of the incoming parameters on entry. -/
theorem search_beta_kst (ibeta : K → K → K → K) (exp : K → K) (kst : kstest_t K)
    (bp : betaparam_t K) (hentry : kst = partial_kstest ibeta exp kst bp) :
    (search_beta ibeta exp kst bp).1 =
      partial_kstest ibeta exp kst (search_beta ibeta exp kst bp).2 :=
  search_beta_outer_kst ibeta exp kst 100 ⟨kst, bp, 1, 1, kst.result.d⟩ hentry

/-- With an entry p-value of at least `0.05` no loop of `search_beta` is entered. -/
theorem search_beta_of_not_lt (ibeta : K → K → K → K) (exp : K → K) (kst : kstest_t K)
    (bp : betaparam_t K) (h : ¬ (kst.result.pval < 0.05)) :
    search_beta ibeta exp kst bp = (kst, bp) := by
  simp [search_beta, search_beta_outer, h]

end SearchBeta

/-- C19: starting from parameters with `alpha ≥ 0` and `beta ≥ 0`, whatever the KS state and
the Beta-CDF evaluation compute, both parameters are non-negative after any number `j` of
updates of either inner loop in any outer pass `i + 1` of `search_beta` (the state after
`i` outer passes being `search_beta_outer i`), and in the parameters it returns. -/
theorem search_beta_c19 (K : Type) [LinearOrderedField K] (ibeta : K → K → K → K)
    (exp : K → K) (kst : kstest_t K) (bp : betaparam_t K) (ha : 0 ≤ bp.alpha)
    (hb : 0 ≤ bp.beta) :
    (∀ (i j : Nat) (astep bstep : K),
      (0 ≤ (search_beta_alpha ibeta exp j
          (search_beta_outer ibeta exp i ⟨kst, bp, 1, 1, kst.result.d⟩) astep).bp.alpha ∧
        0 ≤ (search_beta_alpha ibeta exp j
          (search_beta_outer ibeta exp i ⟨kst, bp, 1, 1, kst.result.d⟩) astep).bp.beta) ∧
      (0 ≤ (search_beta_beta ibeta exp j (search_beta_alpha ibeta exp 100
          (search_beta_outer ibeta exp i ⟨kst, bp, 1, 1, kst.result.d⟩) astep) bstep).bp.alpha ∧
        0 ≤ (search_beta_beta ibeta exp j (search_beta_alpha ibeta exp 100
          (search_beta_outer ibeta exp i ⟨kst, bp, 1, 1, kst.result.d⟩) astep) bstep).bp.beta)) ∧
      0 ≤ (search_beta ibeta exp kst bp).2.alpha ∧ 0 ≤ (search_beta ibeta exp kst bp).2.beta := by
  refine ⟨fun i j astep bstep => ?_, search_beta_outer_nonneg ibeta exp 100 _ ha hb⟩
  obtain ⟨a0, b0⟩ := search_beta_outer_nonneg ibeta exp i ⟨kst, bp, 1, 1, kst.result.d⟩ ha hb
  refine ⟨search_beta_alpha_nonneg ibeta exp j _ astep a0 b0, ?_⟩
  obtain ⟨a1, b1⟩ := search_beta_alpha_nonneg ibeta exp 100 _ astep a0 b0
  exact search_beta_beta_nonneg ibeta exp j _ bstep a1 b1

/-- C20: if on entry `kst.result` is the partial-KS result of the incoming parameters on the
window of `kst`, then on return `kst` is the partial-KS state of the returned parameters:
its `result` is their partial-KS result on the same window and `ecdf`, `size`, `en_sqrt`,
`front`, `rear` are unchanged; and with an entry p-value of at least `0.05` neither `kst`
nor the parameters change. -/
theorem search_beta_c20 (K : Type) [LinearOrderedField K] (ibeta : K → K → K → K)
    (exp : K → K) (kst : kstest_t K) (bp : betaparam_t K)
    (hentry : kst.result = (partial_kstest ibeta exp kst bp).result) :
    (search_beta ibeta exp kst bp).1.result =
        (partial_kstest ibeta exp kst (search_beta ibeta exp kst bp).2).result ∧
      (search_beta ibeta exp kst bp).1.ecdf = kst.ecdf ∧
      (search_beta ibeta exp kst bp).1.size = kst.size ∧
      (search_beta ibeta exp kst bp).1.en_sqrt = kst.en_sqrt ∧
      (search_beta ibeta exp kst bp).1.front = kst.front ∧
      (search_beta ibeta exp kst bp).1.rear = kst.rear ∧
      (¬ (kst.result.pval < 0.05) → search_beta ibeta exp kst bp = (kst, bp)) := by
  have h0 : kst = partial_kstest ibeta exp kst bp := by
    cases kst
    simp only [partial_kstest] at hentry ⊢
    rw [hentry]
  have h := search_beta_kst ibeta exp kst bp h0
  refine ⟨?_, ?_, ?_, ?_, ?_, ?_, search_beta_of_not_lt ibeta exp kst bp⟩ <;> rw [h] <;> rfl

/-- Witness for C20: the state left by the partial test of `(2, 2)` on the one-bin ECDF
`[1/10]`. -/
theorem search_beta_c20_witness :
    (⟨[1 / 10], 1, 1, 0, 1, ⟨9 / 10, qks Real.exp (1107 / 1000)⟩⟩ : kstest_t ℝ).result =
        (partial_kstest ibeta_uniform Real.exp
          (⟨[1 / 10], 1, 1, 0, 1, ⟨9 / 10, qks Real.exp (1107 / 1000)⟩⟩ : kstest_t ℝ)
          ⟨2, 2⟩).result ∧
      (search_beta ibeta_uniform Real.exp
          (⟨[1 / 10], 1, 1, 0, 1, ⟨9 / 10, qks Real.exp (1107 / 1000)⟩⟩ : kstest_t ℝ)
          ⟨2, 2⟩).1.result =
        (partial_kstest ibeta_uniform Real.exp
          (⟨[1 / 10], 1, 1, 0, 1, ⟨9 / 10, qks Real.exp (1107 / 1000)⟩⟩ : kstest_t ℝ)
          (search_beta ibeta_uniform Real.exp
            (⟨[1 / 10], 1, 1, 0, 1, ⟨9 / 10, qks Real.exp (1107 / 1000)⟩⟩ : kstest_t ℝ)
            ⟨2, 2⟩).2).result :=
  have h : (⟨[1 / 10], 1, 1, 0, 1, ⟨9 / 10, qks Real.exp (1107 / 1000)⟩⟩ : kstest_t ℝ).result =
      (partial_kstest ibeta_uniform Real.exp
        (⟨[1 / 10], 1, 1, 0, 1, ⟨9 / 10, qks Real.exp (1107 / 1000)⟩⟩ : kstest_t ℝ)
        ⟨2, 2⟩).result := by
    show _ = (partial_kstest ibeta_uniform Real.exp
      (⟨[1 / 10], 1, 1, 0, 1, ⟨0, 0⟩⟩ : kstest_t ℝ) ⟨2, 2⟩).result
    rw [partial_kstest_example]
  ⟨h, (search_beta_c20 ℝ ibeta_uniform Real.exp
    ⟨[1 / 10], 1, 1, 0, 1, ⟨9 / 10, qks Real.exp (1107 / 1000)⟩⟩ ⟨2, 2⟩ h).1⟩

/-- Witness for C19: the search started from `(2, 2)` on the one-bin ECDF `[1/10]`. -/
theorem search_beta_c19_witness :
    (0 : ℝ) ≤ (⟨2, 2⟩ : betaparam_t ℝ).alpha ∧ (0 : ℝ) ≤ (⟨2, 2⟩ : betaparam_t ℝ).beta ∧
      0 ≤ (search_beta ibeta_uniform Real.exp
        (⟨[1 / 10], 1, 1, 0, 1, ⟨9 / 10, 0⟩⟩ : kstest_t ℝ) ⟨2, 2⟩).2.alpha ∧
      0 ≤ (search_beta ibeta_uniform Real.exp
        (⟨[1 / 10], 1, 1, 0, 1, ⟨9 / 10, 0⟩⟩ : kstest_t ℝ) ⟨2, 2⟩).2.beta :=
  ⟨by norm_num, by norm_num,
    (search_beta_c19 ℝ ibeta_uniform Real.exp ⟨[1 / 10], 1, 1, 0, 1, ⟨9 / 10, 0⟩⟩ ⟨2, 2⟩
      (by norm_num) (by norm_num)).2⟩

/-! ## The number of passes of `beta::search_betamap` -/

section Passes

variable {K : Type} [LinearOrderedField K]

/-- A run with `c` cuts from loop counter `i` ends exactly when more than
`(ecdf_size + 1 - i) + c` passes are allowed: a pass without a cut advances `i`, a pass with a
cut leaves it unchanged. -/
theorem search_betamap_loop_passes (ibeta : K → K → K → K) (exp : K → K) (ecdf_size : Nat) :
    ∀ (fuel i : Nat) (kst : kstest_t K) (prevbp : betaparam_t K) (c : Nat),
      1 ≤ i → i ≤ ecdf_size + 1 →
      search_betamap_cuts ibeta exp ecdf_size fuel i kst prevbp = some c →
      ∀ (f : Nat) (betamap : betamap_t K),
        (search_betamap_loop ibeta exp ecdf_size f i kst prevbp betamap).isSome = true ↔
          (ecdf_size + 1 - i) + c + 1 ≤ f := by
  intro fuel
  induction fuel with
  | zero =>
    intro i kst prevbp c _ _ h
    simp [search_betamap_cuts] at h
  | succ fuel ih =>
    intro i kst prevbp c hi1 hi2 h f betamap
    simp only [search_betamap_cuts] at h
    cases f with
    | zero =>
      simp only [search_betamap_loop, Option.isSome_none]
      constructor
      · intro hf; exact absurd hf (by simp)
      · intro hf; omega
    | succ f =>
      simp only [search_betamap_loop]
      split_ifs at h ⊢ with hi hp1 hp2
      · rw [Option.map_eq_some'] at h
        obtain ⟨c1, hc1, hcc⟩ := h
        have hi' : i - 1 + 1 = i := by omega
        rw [ih (i - 1 + 1) _ _ c1 (by omega) (by omega) hc1 f _]
        omega
      · rw [ih (i + 1) _ _ c (by omega) (by omega) h f _]
        omega
      · rw [ih (i + 1) _ _ c (by omega) (by omega) h f _]
        omega
      · simp only [Option.some.injEq] at h
        simp only [Option.isSome_some, true_iff]
        omega

theorem search_betamap_isSome (ibeta : K → K → K → K) (exp sqrt : K → K) (f : Nat)
    (betamap : betamap_t K) (ecdf : List K) (ptn : pattern_t K) :
    (search_betamap ibeta exp sqrt f betamap ecdf ptn).isSome =
      (search_betamap_loop ibeta exp ecdf.length f 1
        ⟨ecdf, ecdf.length, sqrt (ecdf.length : K), 0, 1, ⟨0, 0⟩⟩
        (moment_match ptn.mean ptn.var) betamap).isSome := by
  unfold search_betamap
  simp only
  split <;> rename_i h <;> rw [h] <;> rfl

theorem search_betamap_passes (ibeta : K → K → K → K) (exp sqrt : K → K) (fuel : Nat)
    (ecdf : List K) (ptn : pattern_t K) (c : Nat)
    (hc : search_betamap_cut_count ibeta exp sqrt fuel ecdf ptn = some c) (f : Nat)
    (betamap : betamap_t K) :
    (search_betamap ibeta exp sqrt f betamap ecdf ptn).isSome = true ↔
      ecdf.length + c + 1 ≤ f := by
  rw [search_betamap_isSome]
  have h := search_betamap_loop_passes ibeta exp ecdf.length fuel 1 _ _ c le_rfl (by omega) hc
    f betamap
  rw [h]
  omega

/-- With `ibeta_uniform` the partial test does not depend on the parameters. -/
theorem partial_kstest_loop_uniform (ecdf : List K) (size : Nat) (bp1 bp2 : betaparam_t K) :
    ∀ (n j : Nat) (d : K), partial_kstest_loop ibeta_uniform ecdf size bp1 n j d =
      partial_kstest_loop ibeta_uniform ecdf size bp2 n j d := by
  intro n
  induction n with
  | zero => intro j d; rfl
  | succ n ih =>
    intro j d
    simp only [partial_kstest_loop, ibeta_uniform]
    exact ih _ _

theorem partial_kstest_uniform (exp : K → K) (kst : kstest_t K) (bp1 bp2 : betaparam_t K) :
    partial_kstest ibeta_uniform exp kst bp1 = partial_kstest ibeta_uniform exp kst bp2 := by
  unfold partial_kstest
  rw [partial_kstest_loop_uniform kst.ecdf kst.size bp1 bp2]

/-- With `ibeta_uniform` the search returns the state it was given, when that is the state
of a partial test. -/
theorem search_beta_uniform (exp : K → K) (kst : kstest_t K) (bp0 bp : betaparam_t K) :
    (search_beta ibeta_uniform exp (partial_kstest ibeta_uniform exp kst bp0) bp).1 =
      partial_kstest ibeta_uniform exp kst bp0 := by
  have hentry : partial_kstest ibeta_uniform exp kst bp0 =
      partial_kstest ibeta_uniform exp (partial_kstest ibeta_uniform exp kst bp0) bp := by
    rw [partial_kstest_idem]
    exact partial_kstest_uniform exp kst bp0 bp
  rw [search_beta_kst ibeta_uniform exp _ bp hentry, partial_kstest_idem]
  exact partial_kstest_uniform exp kst _ bp0

end Passes

theorem search_betamap_cut_count_example :
    search_betamap_cut_count ibeta_uniform Real.exp Real.sqrt 2 [1 / 10]
      (⟨[], [1 / 10], 1 / 2, 1 / 20, 0, 0, 0⟩ : pattern_t ℝ) = some 0 := by
  unfold search_betamap_cut_count
  simp only [List.length_singleton, Nat.cast_one, Real.sqrt_one, moment_match_example]
  simp only [search_betamap_cuts, le_refl, if_true, partial_kstest_example,
    if_neg qks_example_ge]
  norm_num

/-! ## A run of the loop of `search_betamap` that does not end

The ECDF is `[1, 1, 1, 1]` and the Beta-CDF evaluation is `ibeta_uniform`, which agrees with
the regularized incomplete Beta function only for the parameters `(1, 1)` and at `x = 1`; the
run shows what the loop does when no search can repair a window.  On the window
`[0, 1)` the statistic is `|1 - 1/4| = 3/4` for every parameter pair, the p-value is
`qks(2.115 * 0.75) < 0.05`, the search cannot change it, and every pass ends in a cut that
leaves `i = 1`. -/

theorem exp_five_ge : (100 : ℝ) ≤ Real.exp 5 := by
  have h : (2.7 : ℝ) ≤ Real.exp 1 := by
    have := Real.exp_one_gt_d9
    norm_num at this ⊢
    linarith
  have e : Real.exp 5 = Real.exp 1 ^ 5 := by
    rw [← Real.exp_nat_mul]
    norm_num
  rw [e]
  calc (100 : ℝ) ≤ 2.7 ^ 5 := by norm_num
    _ ≤ Real.exp 1 ^ 5 := pow_le_pow_left₀ (by norm_num) h 5

theorem qks_stuck_lt : qks Real.exp (1269 / 800) < 0.05 := by
  have hu0 : 0 < Real.exp (-2 * (1269 / 800) * (1269 / 800)) := Real.exp_pos _
  have h5 : Real.exp (-2 * (1269 / 800) * (1269 / 800)) ≤ 1 / 100 := by
    have h5' : -2 * (1269 / 800 : ℝ) * (1269 / 800) ≤ -5 := by norm_num
    calc Real.exp (-2 * (1269 / 800) * (1269 / 800)) ≤ Real.exp (-5) := Real.exp_le_exp.mpr h5'
      _ = (Real.exp 5)⁻¹ := Real.exp_neg 5
      _ ≤ 1 / 100 := by
        rw [one_div]
        exact inv_anti₀ (by norm_num) exp_five_ge
  have h3 : Real.exp (-2 * (1269 / 800) * (1269 / 800)) ^ 3 ≤ 1 / 1000 := by
    have := pow_le_pow_left₀ hu0.le h5 3
    norm_num at this ⊢
    linarith
  rw [qks_real_exit2 _ h3]
  have h4 : 0 < Real.exp (-2 * (1269 / 800) * (1269 / 800)) ^ 4 := by positivity
  norm_num
  linarith

theorem sqrt_four : Real.sqrt 4 = 2 := by
  rw [show (4 : ℝ) = 2 ^ 2 by norm_num]
  exact Real.sqrt_sq (by norm_num)

theorem partial_kstest_stuck (res : ksresult_t ℝ) (bp : betaparam_t ℝ) :
    partial_kstest ibeta_uniform Real.exp
        (⟨[1, 1, 1, 1], 4, 2, 0, 1, res⟩ : kstest_t ℝ) bp =
      ⟨[1, 1, 1, 1], 4, 2, 0, 1, ⟨3 / 4, qks Real.exp (1269 / 800)⟩⟩ := by
  unfold partial_kstest
  simp only [partial_kstest_loop, ibeta_uniform]
  norm_num
  rw [abs_of_pos (by norm_num : (0 : ℝ) < 3 / 4)]
  norm_num

/-- On the stuck window every pass of the loop ends in a cut with the same state: the loop
does not end, whatever the number of passes allowed. -/
theorem search_betamap_loop_stuck : ∀ (fuel : Nat) (res : ksresult_t ℝ)
    (prevbp : betaparam_t ℝ) (betamap : betamap_t ℝ),
    search_betamap_loop ibeta_uniform Real.exp 4 fuel 1
      (⟨[1, 1, 1, 1], 4, 2, 0, 1, res⟩ : kstest_t ℝ) prevbp betamap = none := by
  intro fuel
  induction fuel with
  | zero => intro res prevbp betamap; rfl
  | succ fuel ih =>
    intro res prevbp betamap
    have hk := partial_kstest_stuck res prevbp
    have hs := search_beta_uniform Real.exp
      (⟨[1, 1, 1, 1], 4, 2, 0, 1, res⟩ : kstest_t ℝ) prevbp prevbp
    rw [hk] at hs
    simp only [search_betamap_loop, hk, hs, qks_stuck_lt, if_true]
    norm_num
    exact ih _ _ _

/-! ## A second fit into the map of a first fit -/

theorem moment_match_example2 : moment_match (1 / 2 : ℝ) (1 / 12) = ⟨1, 1⟩ := by
  unfold moment_match
  norm_num

theorem search_betamap_loop_refit :
    search_betamap_loop ibeta_uniform Real.exp 1 2 1
        (⟨[1 / 10], 1, 1, 0, 1, ⟨0, 0⟩⟩ : kstest_t ℝ) ⟨1, 1⟩ [(1, ⟨2, 2⟩)] =
      some ([(1, ⟨2, 2⟩)], ⟨1, 1⟩) := by
  have hk : partial_kstest ibeta_uniform Real.exp
      (⟨[1 / 10], 1, 1, 0, 1, ⟨0, 0⟩⟩ : kstest_t ℝ) ⟨1, 1⟩ =
      ⟨[1 / 10], 1, 1, 0, 1, ⟨9 / 10, qks Real.exp (1107 / 1000)⟩⟩ := by
    rw [partial_kstest_uniform Real.exp _ ⟨1, 1⟩ ⟨2, 2⟩, partial_kstest_example]
  simp only [search_betamap_loop, le_refl, if_true, hk, if_neg qks_example_ge]
  norm_num

/-- C11 (code evaluated at the failing input): a first fit of the ECDF `[1/10]` with seed
moments `(1/2, 1/20)` leaves the map `{1 ↦ (2, 2)}`; a second fit into that map with seed
moments `(1/2, 1/12)` ends its loop with `prevbp = (1, 1)`, and the map it leaves still binds
the key `1` to `(2, 2)`. -/
theorem search_betamap_c11_stale_sentinel :
    search_betamap ibeta_uniform Real.exp Real.sqrt 2 [] [1 / 10]
        (⟨[], [1 / 10], 1 / 2, 1 / 20, 0, 0, 0⟩ : pattern_t ℝ) =
      some (⟨0, 1⟩, [(1, ⟨2, 2⟩)]) ∧
    search_betamap_loop ibeta_uniform Real.exp 1 2 1
        (⟨[1 / 10], 1, 1, 0, 1, ⟨0, 0⟩⟩ : kstest_t ℝ) (moment_match (1 / 2) (1 / 12))
        [(1, ⟨2, 2⟩)] =
      some ([(1, ⟨2, 2⟩)], ⟨1, 1⟩) ∧
    search_betamap ibeta_uniform Real.exp Real.sqrt 2 [(1, ⟨2, 2⟩)] [1 / 10]
        (⟨[], [1 / 10], 1 / 2, 1 / 12, 0, 0, 0⟩ : pattern_t ℝ) =
      some (⟨0, 1⟩, [(1, ⟨2, 2⟩)]) := by
  refine ⟨search_betamap_example, ?_, ?_⟩
  · rw [moment_match_example2]
    exact search_betamap_loop_refit
  · unfold search_betamap
    simp only [List.length_singleton, Nat.cast_one, Real.sqrt_one, moment_match_example2,
      search_betamap_loop_refit]
    norm_num [map_insert]

/-! ## Right-closed binning of `beta::histogram` -/

theorem countP_le_eq_length (l : List ℚ) (e : ℚ) (h : ∀ x ∈ l, x ≤ e) :
    l.countP (fun x => decide (x ≤ e)) = l.length := by
  rw [List.countP_eq_length]
  intro x hx
  exact decide_eq_true (h x hx)

theorem histogram_advance_edge (bins : Nat) (hb : 0 < bins) (x : ℚ) (hx : x ≤ 1)
    (pre : List ℚ) :
    ∀ (k : Nat) (s : HistState), bins - s.hist.length ≤ k → HistEdgeInv bins pre s →
      (∀ i, i < s.hist.length → ((i : ℚ) + 1) / (bins : ℚ) < x) →
      HistEdgeInv bins pre (histogram_advance (1 / (bins : ℚ)) x s) ∧
        (∀ i, i < (histogram_advance (1 / (bins : ℚ)) x s).hist.length →
          ((i : ℚ) + 1) / (bins : ℚ) < x) ∧
        x ≤ (histogram_advance (1 / (bins : ℚ)) x s).area := by
  have hbq : (0 : ℚ) < (bins : ℚ) := by exact_mod_cast hb
  have hstep : (0 : ℚ) < 1 / (bins : ℚ) := by positivity
  intro k
  induction k with
  | zero =>
    intro s hk hinv _
    have := hinv.2.1
    omega
  | succ k ih =>
    intro s hk hinv hclosed
    obtain ⟨harea, hlen, hpre, hsum, hle⟩ := hinv
    rw [histogram_advance]
    split
    · rename_i hcond
      have hlt : s.area < 1 := lt_of_lt_of_le hcond.1 hx
      have hlen2 : s.hist.length + 1 < bins := by
        rw [harea, div_lt_one hbq] at hlt
        exact_mod_cast hlt
      apply ih
      · simp only [List.length_append, List.length_singleton]
        omega
      · refine ⟨?_, ?_, ?_, ?_, ?_⟩
        · simp only [List.length_append, List.length_singleton, harea]
          push_cast
          field_simp
        · simpa using hlen2
        · intro i hi
          simp only [List.length_append, List.length_singleton] at hi
          rcases Nat.lt_succ_iff_lt_or_eq.mp hi with h | h
          · rw [List.take_append_of_le_length (by omega)]
            exact hpre i h
          · have e1 : List.take (i + 1) (s.hist ++ [s.hvar]) = s.hist ++ [s.hvar] := by
              apply List.take_of_length_le
              simp only [List.length_append, List.length_singleton]
              omega
            rw [e1, List.sum_append, List.sum_singleton, hsum, h, ← harea,
              countP_le_eq_length pre s.area hle]
        · simpa using hsum
        · intro z hz
          show z ≤ s.area + 1 / (bins : ℚ)
          have := hle z hz
          linarith
      · intro i hi
        simp only [List.length_append, List.length_singleton] at hi
        rcases Nat.lt_succ_iff_lt_or_eq.mp hi with h | h
        · exact hclosed i h
        · rw [h, ← harea]
          exact hcond.1
    · rename_i hcond
      refine ⟨⟨harea, hlen, hpre, hsum, hle⟩, hclosed, ?_⟩
      by_contra hcon
      exact hcond ⟨not_le.mp hcon, hstep⟩

theorem histogram_step_edge (bins : Nat) (hb : 0 < bins) (x : ℚ) (hx : x ≤ 1)
    (pre : List ℚ) (s : HistState) (hinv : HistEdgeInv bins pre s)
    (hclosed : ∀ i, i < s.hist.length → ((i : ℚ) + 1) / (bins : ℚ) < x) :
    HistEdgeInv bins (pre ++ [x]) (histogram_step (1 / (bins : ℚ)) s x) ∧
      (∀ i, i < (histogram_step (1 / (bins : ℚ)) s x).hist.length →
        ((i : ℚ) + 1) / (bins : ℚ) < x) := by
  obtain ⟨⟨harea, hlen, hpre, hsum, hle⟩, hclosed1, hxa⟩ :=
    histogram_advance_edge bins hb x hx pre _ s le_rfl hinv hclosed
  refine ⟨⟨harea, hlen, ?_, ?_, ?_⟩, hclosed1⟩
  · intro i hi
    show ((histogram_advance (1 / (bins : ℚ)) x s).hist.take (i + 1)).sum = _
    rw [hpre i hi, List.countP_append]
    have : List.countP (fun y => decide (y ≤ ((i : ℚ) + 1) / (bins : ℚ))) [x] = 0 := by
      rw [List.countP_eq_zero]
      intro y hy
      rw [List.mem_singleton] at hy
      rw [hy]
      simpa using hclosed1 i hi
    rw [this, Nat.add_zero]
  · show (histogram_advance (1 / (bins : ℚ)) x s).hist.sum +
      ((histogram_advance (1 / (bins : ℚ)) x s).hvar + 1) = _
    rw [List.length_append, List.length_singleton]
    push_cast
    linarith
  · intro z hz
    show z ≤ (histogram_advance (1 / (bins : ℚ)) x s).area
    rcases List.mem_append.mp hz with h | h
    · exact hle z h
    · rw [List.mem_singleton] at h
      rw [h]
      exact hxa

theorem histogram_foldl_edge (bins : Nat) (hb : 0 < bins) :
    ∀ (post : List ℚ), List.Sorted (· ≤ ·) post → (∀ x ∈ post, x ≤ 1) →
      ∀ (pre : List ℚ) (s : HistState), HistEdgeInv bins pre s →
      (∀ y ∈ post, ∀ i, i < s.hist.length → ((i : ℚ) + 1) / (bins : ℚ) < y) →
      HistEdgeInv bins (pre ++ post) (post.foldl (histogram_step (1 / (bins : ℚ))) s) := by
  intro post
  induction post with
  | nil =>
    intro _ _ pre s hinv _
    simpa using hinv
  | cons x rest ih =>
    intro hsorted hx pre s hinv hclosed
    rw [List.sorted_cons] at hsorted
    obtain ⟨h1, h2⟩ := histogram_step_edge bins hb x (hx x (List.mem_cons_self _ _)) pre s hinv
      (hclosed x (List.mem_cons_self _ _))
    have h3 := ih hsorted.2 (fun y hy => hx y (List.mem_cons_of_mem _ hy)) (pre ++ [x]) _ h1
      (fun y hy i hi => lt_of_lt_of_le (h2 i hi) (hsorted.1 y hy))
    simp only [List.foldl_cons]
    rw [List.append_assoc] at h3
    exact h3

theorem histogram_pad_zero_eq : ∀ (n : Nat) (hist : List Int),
    histogram_pad n hist 0 = hist ++ List.replicate n 0 := by
  intro n
  induction n with
  | zero => intro hist; simp [histogram_pad]
  | succ n ih =>
    intro hist
    rw [histogram_pad, ih, List.append_assoc, List.replicate_succ]
    rfl

theorem histogram_pad_eq (n : Nat) (hist : List Int) (hvar : Int) :
    histogram_pad (n + 1) hist hvar = hist ++ hvar :: List.replicate n 0 := by
  rw [histogram_pad, histogram_pad_zero_eq, List.append_assoc]
  rfl

theorem sum_take_replicate_zero (m n : Nat) : ((List.replicate n (0 : Int)).take m).sum = 0 := by
  rw [List.take_replicate, List.sum_replicate]
  simp

/-- A lemma for C16: the prefix sums of the histogram of sorted data bounded by `1`. -/
theorem histogram_prefix_sum (data : List ℚ) (bins : Nat) (hsorted : List.Sorted (· ≤ ·) data)
    (hx : ∀ x ∈ data, x ≤ 1) (hb : 1 ≤ bins) (i : Nat) (_hi : i < bins) :
    ((histogram data bins).take (i + 1)).sum =
      ((data.countP (fun x => decide (x ≤ ((i : ℚ) + 1) / (bins : ℚ))) : Nat) : Int) := by
  have hbq : (0 : ℚ) < (bins : ℚ) := by exact_mod_cast hb
  have h0 : HistEdgeInv bins [] ⟨[], 0, 1 / (bins : ℚ)⟩ := by
    refine ⟨by simp, by simpa using hb, ?_, by simp, by simp⟩
    intro i hi
    simp at hi
  have hfin := histogram_foldl_edge bins hb data hsorted hx [] _ h0 (by
    intro y _ i hi
    simp at hi)
  rw [List.nil_append] at hfin
  obtain ⟨harea, hlen, hpre, hsum, hle⟩ := hfin
  unfold histogram
  simp only
  rw [if_neg (Nat.ne_of_lt hlen)]
  generalize data.foldl (histogram_step (1 / (bins : ℚ))) ⟨[], 0, 1 / (bins : ℚ)⟩ = s at *
  obtain ⟨m, hm⟩ : ∃ m, bins - s.hist.length = m + 1 :=
    ⟨_, (Nat.succ_pred_eq_of_pos (Nat.sub_pos_of_lt hlen)).symm⟩
  rw [hm, histogram_pad_eq]
  by_cases hcase : i < s.hist.length
  · rw [List.take_append_of_le_length (by omega)]
    exact hpre i hcase
  · have hge : s.hist.length ≤ i := not_lt.mp hcase
    obtain ⟨j, hj⟩ : ∃ j, i + 1 = s.hist.length + (j + 1) := ⟨i - s.hist.length, by omega⟩
    rw [hj, List.take_append, List.take_succ_cons, List.sum_append, List.sum_cons,
      sum_take_replicate_zero, add_zero, hsum]
    have hedge : ∀ x ∈ data, x ≤ ((i : ℚ) + 1) / (bins : ℚ) := by
      intro x hxd
      have h1 := hle x hxd
      rw [harea] at h1
      have h2 : ((s.hist.length : ℚ) + 1) / (bins : ℚ) ≤ ((i : ℚ) + 1) / (bins : ℚ) := by
        apply div_le_div_of_nonneg_right _ hbq.le
        have : (s.hist.length : ℚ) ≤ (i : ℚ) := by exact_mod_cast hge
        linarith
      exact le_trans h1 h2
    rw [countP_le_eq_length data _ hedge]

/-- C16: for ascending-sorted data with all values in `[0, 1]` and `bins ≥ 1`,
`histogram data bins` has `bins` entries and, for every bin index `i < bins`, the entries
`0 .. i` add up to the number of values `x ≤ (i + 1) / bins`. -/
theorem histogram_c16 (data : List ℚ) (bins : Nat) (hsorted : List.Sorted (· ≤ ·) data)
    (h01 : ∀ x ∈ data, 0 ≤ x ∧ x ≤ 1) (hb : 1 ≤ bins) :
    (histogram data bins).length = bins ∧
      ∀ i, i < bins → ((histogram data bins).take (i + 1)).sum =
        ((data.countP (fun x => decide (x ≤ ((i : ℚ) + 1) / (bins : ℚ))) : Nat) : Int) :=
  ⟨(histogram_length_sum data bins hb (fun x hx => (h01 x hx).2)).1,
    fun i hi => histogram_prefix_sum data bins hsorted (fun x hx => (h01 x hx).2) hb i hi⟩

/-- Witness for C16: the sorted sample `[1/4, 1/2, 1]` in two bins. -/
theorem histogram_c16_witness :
    List.Sorted (· ≤ ·) ([1/4, 1/2, 1] : List ℚ) ∧ 1 ≤ 2 ∧
      (histogram [1/4, 1/2, 1] 2).length = 2 ∧
      ∀ i, i < 2 → ((histogram [1/4, 1/2, 1] 2).take (i + 1)).sum =
        ((([1/4, 1/2, 1] : List ℚ).countP (fun x => decide (x ≤ ((i : ℚ) + 1) / ((2 : Nat) : ℚ))) :
          Nat) : Int) :=
  ⟨by simp; norm_num, by decide,
    histogram_c16 [1/4, 1/2, 1] 2 (by simp; norm_num)
      (by intro x hx; simp at hx; rcases hx with h | h | h <;> rw [h] <;> norm_num)
      (by decide)⟩

/-! ## Theorems about the rescaling step of `map_beta` -/

theorem map_beta_fill_length {K : Type} (v : K) (k : Int) : ∀ (j : Nat) (scaled : List K),
    (map_beta_fill v k j scaled).length = scaled.length := by
  intro j
  induction j with
  | zero => intro scaled; rfl
  | succ j ih =>
    intro scaled
    simp only [map_beta_fill]
    split_ifs
    · rw [ih, List.length_set]
    · rfl

/-- The inner loop writes `v` to the positions `k ≤ p < j` and leaves the others. -/
theorem map_beta_fill_getElem? {K : Type} (v : K) (k : Int) (p : Nat) : ∀ (j : Nat) (scaled : List K),
    j ≤ scaled.length →
    (map_beta_fill v k j scaled)[p]? =
      if k ≤ (p : Int) ∧ p < j then some v else scaled[p]? := by
  intro j
  induction j with
  | zero =>
    intro scaled _
    simp [map_beta_fill]
  | succ j ih =>
    intro scaled hj
    simp only [map_beta_fill]
    split_ifs with h1 h2 h3
    · rw [ih _ (by rw [List.length_set]; omega)]
      by_cases hpj : p = j
      · subst hpj
        have : ¬ ((k ≤ (p : Int)) ∧ p < p) := by omega
        rw [if_neg this, List.getElem?_set_self (by omega)]
      · have : k ≤ (p : Int) ∧ p < j := ⟨h2.1, by omega⟩
        rw [if_pos this]
    · rw [ih _ (by rw [List.length_set]; omega)]
      have : ¬ (k ≤ (p : Int) ∧ p < j) := by
        intro h
        exact h2 ⟨h.1, by omega⟩
      rw [if_neg this, List.getElem?_set_ne]
      intro hjp
      apply h2
      subst hjp
      exact ⟨h1, by omega⟩
    · exfalso
      omega
    · rfl

theorem map_beta_scale_loop_length {K : Type} [LinearOrderedField K] [FloorRing K] (ptn : pattern_t K) (size : Nat) :
    ∀ (n i : Nat) (scaled : List K),
      (map_beta_scale_loop ptn size n i scaled).length = scaled.length := by
  intro n
  induction n with
  | zero => intro i scaled; rfl
  | succ n ih =>
    intro i scaled
    simp only [map_beta_scale_loop]
    rw [ih, map_beta_fill_length]

/-- The last write wins: after the passes `i0 .. i0 + n - 1` of the rescaling loop,
position `p` holds the ECDF value of the last pass whose scaled position is at most `p`, or
its old value when there is none. -/
theorem map_beta_scale_loop_getElem? {K : Type} [LinearOrderedField K] [FloorRing K]
    (ptn : pattern_t K) (size p : Nat) (hp : p < size) :
    ∀ (n i0 : Nat) (scaled : List K), scaled.length = size →
      (∃ i, LastCover ptn p i0 (i0 + n) i ∧
          (map_beta_scale_loop ptn size n i0 scaled)[p]? = some (ptn.ecdf.getD i 0)) ∨
        (NoCover ptn p i0 (i0 + n) ∧
          (map_beta_scale_loop ptn size n i0 scaled)[p]? = scaled[p]?) := by
  intro n
  induction n with
  | zero =>
    intro i0 scaled _
    right
    refine ⟨?_, rfl⟩
    intro i h1 h2
    omega
  | succ n ih =>
    intro i0 scaled hlen
    simp only [map_beta_scale_loop]
    have hlen1 : (map_beta_fill (ptn.ecdf.getD i0 0) (to_int (scale ptn (i0 : K))) size
        scaled).length = size := by
      rw [map_beta_fill_length, hlen]
    rcases ih (i0 + 1) _ hlen1 with ⟨i, hcov, hval⟩ | ⟨hno, hval⟩
    · left
      refine ⟨i, ⟨by have := hcov.1; omega, by have := hcov.2.1; omega, hcov.2.2.1, ?_⟩, hval⟩
      intro i1 h1 h2
      exact hcov.2.2.2 i1 h1 (by omega)
    · rw [map_beta_fill_getElem? _ _ _ _ _ (by omega)] at hval
      by_cases hk : to_int (scale ptn (i0 : K)) ≤ (p : Int)
      · left
        refine ⟨i0, ⟨le_rfl, by omega, hk, ?_⟩, ?_⟩
        · intro i1 h1 h2
          exact hno i1 (by omega) (by omega)
        · rw [hval, if_pos ⟨hk, hp⟩]
      · right
        refine ⟨?_, ?_⟩
        · intro i h1 h2
          rcases Nat.eq_or_lt_of_le h1 with h | h
          · rw [← h]; exact hk
          · exact hno i (by omega) (by omega)
        · rw [hval, if_neg (fun h => hk h.1)]

theorem map_beta_saturate_length {K : Type} [LinearOrderedField K] : ∀ (n i : Nat) (scaled : List K),
    (map_beta_saturate n i scaled).length = scaled.length := by
  intro n
  induction n with
  | zero => intro i scaled; rfl
  | succ n ih =>
    intro i scaled
    simp only [map_beta_saturate]
    rw [ih, List.length_set]

/-- The saturation loop writes `1` to the positions `i ≤ p < i + n`. -/
theorem map_beta_saturate_getElem? {K : Type} [LinearOrderedField K] (p : Nat) : ∀ (n i : Nat) (scaled : List K),
    i + n ≤ scaled.length →
    (map_beta_saturate n i scaled)[p]? =
      if i ≤ p ∧ p < i + n then some 1 else scaled[p]? := by
  intro n
  induction n with
  | zero =>
    intro i scaled _
    have : ¬ (i ≤ p ∧ p < i + 0) := by omega
    simp only [map_beta_saturate, if_neg this]
  | succ n ih =>
    intro i scaled hlen
    simp only [map_beta_saturate]
    rw [ih _ _ (by rw [List.length_set]; omega)]
    by_cases hpi : p = i
    · subst hpi
      have h1 : ¬ (p + 1 ≤ p ∧ p < p + 1 + n) := by omega
      have h2 : p ≤ p ∧ p < p + (n + 1) := by omega
      rw [if_neg h1, if_pos h2, List.getElem?_set_self (by omega)]
    · rw [List.getElem?_set_ne (fun h => hpi h.symm)]
      by_cases h : i ≤ p ∧ p < i + (n + 1)
      · rw [if_pos h, if_pos (by omega)]
      · rw [if_neg h, if_neg (by omega)]

theorem map_beta_copy_length {K : Type} [LinearOrderedField K] (src : List K) : ∀ (n i : Nat) (dst : List K),
    (map_beta_copy src n i dst).length = dst.length := by
  intro n
  induction n with
  | zero => intro i dst; rfl
  | succ n ih =>
    intro i dst
    simp only [map_beta_copy]
    rw [ih, List.length_set]

theorem map_beta_copy_getElem? {K : Type} [LinearOrderedField K] (src : List K) (p : Nat) : ∀ (n i : Nat) (dst : List K),
    i + n ≤ dst.length →
    (map_beta_copy src n i dst)[p]? =
      if i ≤ p ∧ p < i + n then some (src.getD p 0) else dst[p]? := by
  intro n
  induction n with
  | zero =>
    intro i dst _
    have : ¬ (i ≤ p ∧ p < i + 0) := by omega
    simp only [map_beta_copy, if_neg this]
  | succ n ih =>
    intro i dst hlen
    simp only [map_beta_copy]
    rw [ih _ _ (by rw [List.length_set]; omega)]
    by_cases hpi : p = i
    · subst hpi
      have h1 : ¬ (p + 1 ≤ p ∧ p < p + 1 + n) := by omega
      have h2 : p ≤ p ∧ p < p + (n + 1) := by omega
      rw [if_neg h1, if_pos h2, List.getElem?_set_self (by omega)]
    · rw [List.getElem?_set_ne (fun h => hpi h.symm)]
      by_cases h : i ≤ p ∧ p < i + (n + 1)
      · rw [if_pos h, if_pos (by omega)]
      · rw [if_neg h, if_neg (by omega)]

/-- The copy loop over all indices of two vectors of the same size yields the source. -/
theorem map_beta_copy_all {K : Type} [LinearOrderedField K] (src dst : List K) (h : src.length = dst.length) :
    map_beta_copy src dst.length 0 dst = src := by
  apply List.ext_getElem?
  intro p
  rw [map_beta_copy_getElem? src p _ _ _ (by omega)]
  by_cases hp : p < dst.length
  · rw [if_pos ⟨Nat.zero_le _, by omega⟩, List.getD_eq_getElem?_getD,
      List.getElem?_eq_getElem (by omega)]
    rfl
  · rw [if_neg (by omega), List.getElem?_eq_none (by omega), List.getElem?_eq_none (by omega)]

theorem find_imax_some {K : Type} [LinearOrderedField K] (ecdf : List K) : ∀ (n i : Nat), find_imax ecdf n = some i →
    i < n ∧ ecdf.getD i 0 < 1 := by
  intro n
  induction n with
  | zero => intro i h; simp [find_imax] at h
  | succ n ih =>
    intro i h
    simp only [find_imax] at h
    split_ifs at h with h1
    · simp only [Option.some.injEq] at h
      subst h
      exact ⟨by omega, h1⟩
    · obtain ⟨h2, h3⟩ := ih i h
      exact ⟨by omega, h3⟩

theorem sorted_getD_le {K : Type} [LinearOrderedField K] (l : List K) (hsorted : List.Sorted (· ≤ ·) l) (i j : Nat)
    (hij : i ≤ j) (hj : j < l.length) : l.getD i 0 ≤ l.getD j 0 := by
  rw [List.getD_eq_getElem l 0 (by omega), List.getD_eq_getElem l 0 hj]
  rcases Nat.eq_or_lt_of_le hij with h | h
  · subst h
    exact le_rfl
  · exact (List.pairwise_iff_getElem.mp hsorted) i j (by omega) hj h

theorem getD_mem_of_lt {K : Type} [LinearOrderedField K] (l : List K) (i : Nat) (hi : i < l.length) : l.getD i 0 ∈ l := by
  rw [List.getD_eq_getElem l 0 hi]
  exact List.getElem_mem hi

theorem map_beta_find_of_some {K : Type} [LinearOrderedField K] (ptn : pattern_t K) (imin imax : Nat)
    (hmin : find_imin ptn.ecdf ptn.ecdf.length 0 = some imin)
    (hmax : find_imax ptn.ecdf ptn.ecdf.length = some imax) :
    map_beta_find ptn = ⟨ptn.data, ptn.ecdf, ptn.mean, ptn.var, imin, imax,
      99 / (((imax : Int) - (imin : Int) + 2 : Int) : K)⟩ := by
  unfold map_beta_find
  simp only [hmin, hmax]

section RescaleMain

variable {K : Type} [LinearOrderedField K] [FloorRing K]

theorem map_beta_scaled_length (ptn1 : pattern_t K) :
    (map_beta_scaled ptn1).length = ptn1.ecdf.length := by
  unfold map_beta_scaled
  simp only
  rw [map_beta_saturate_length, map_beta_scale_loop_length, List.length_replicate]

theorem map_beta_rescale_ecdf (ptn : pattern_t K) :
    (map_beta_rescale ptn).ecdf = map_beta_scaled (map_beta_find ptn) := by
  unfold map_beta_rescale
  simp only
  exact map_beta_copy_all _ _ (map_beta_scaled_length _)

/-- From `imax` on the scaled vector holds `1`. -/
theorem map_beta_scaled_tail (ptn1 : pattern_t K) (p : Nat) (h1 : ptn1.imax ≤ p)
    (h2 : p < ptn1.ecdf.length) : (map_beta_scaled ptn1)[p]? = some 1 := by
  unfold map_beta_scaled
  simp only
  rw [map_beta_saturate_getElem? p _ _ _ (by
    rw [map_beta_scale_loop_length, List.length_replicate]; omega)]
  rw [if_pos (by omega)]

/-- Below `imax` the scaled vector holds the ECDF value of the last index of `[imin, imax]`
whose scaled position is at most `p`, or `0` when there is none. -/
theorem map_beta_scaled_head (ptn1 : pattern_t K) (p : Nat) (h1 : p < ptn1.imax)
    (h2 : p < ptn1.ecdf.length) :
    (∃ i, ptn1.imin ≤ i ∧ i ≤ ptn1.imax ∧ to_int (scale ptn1 (i : K)) ≤ (p : Int) ∧
        (∀ i1, i < i1 → i1 ≤ ptn1.imax → ¬ to_int (scale ptn1 (i1 : K)) ≤ (p : Int)) ∧
        (map_beta_scaled ptn1)[p]? = some (ptn1.ecdf.getD i 0)) ∨
      ((∀ i, ptn1.imin ≤ i → i ≤ ptn1.imax → ¬ to_int (scale ptn1 (i : K)) ≤ (p : Int)) ∧
        (map_beta_scaled ptn1)[p]? = some 0) := by
  have hsat : (map_beta_scaled ptn1)[p]? =
      (map_beta_scale_loop ptn1 ptn1.ecdf.length (ptn1.imax + 1 - ptn1.imin) ptn1.imin
        (List.replicate ptn1.ecdf.length (0 : K)))[p]? := by
    unfold map_beta_scaled
    simp only
    by_cases hle : ptn1.imax ≤ ptn1.ecdf.length
    · rw [map_beta_saturate_getElem? p _ _ _ (by
        rw [map_beta_scale_loop_length, List.length_replicate]; omega)]
      rw [if_neg (by omega)]
    · have : ptn1.ecdf.length - ptn1.imax = 0 := by omega
      rw [this]
      rfl
  rw [hsat]
  rcases map_beta_scale_loop_getElem? ptn1 ptn1.ecdf.length p h2
      (ptn1.imax + 1 - ptn1.imin) ptn1.imin (List.replicate ptn1.ecdf.length (0 : K))
      (List.length_replicate _ _) with ⟨i, hcov, hval⟩ | ⟨hno, hval⟩
  · left
    obtain ⟨c1, c2, c3, c4⟩ := hcov
    exact ⟨i, c1, by omega, c3, fun i1 a b => c4 i1 a (by omega), hval⟩
  · right
    refine ⟨fun i a b => hno i a (by omega), ?_⟩
    rw [hval, List.getElem?_replicate, if_pos h2]

/-- Every entry of the scaled vector lies in `[0, 1]` when the ECDF entries do. -/
theorem map_beta_scaled_bounds (ptn1 : pattern_t K) (h01 : ∀ x ∈ ptn1.ecdf, 0 ≤ x ∧ x ≤ 1)
    (himax : ptn1.imax < ptn1.ecdf.length) (p : Nat) (hp : p < ptn1.ecdf.length) :
    ∃ v, (map_beta_scaled ptn1)[p]? = some v ∧ 0 ≤ v ∧ v ≤ 1 := by
  by_cases h : p < ptn1.imax
  · rcases map_beta_scaled_head ptn1 p h hp with ⟨i, _, hi, _, _, hval⟩ | ⟨_, hval⟩
    · exact ⟨_, hval, h01 _ (getD_mem_of_lt _ i (by omega))⟩
    · exact ⟨0, hval, le_rfl, zero_le_one⟩
  · exact ⟨1, map_beta_scaled_tail ptn1 p (by omega) hp, zero_le_one, le_rfl⟩

/-- The scaled vector is monotone when the ECDF is monotone with entries in `[0, 1]`. -/
theorem map_beta_scaled_sorted (ptn1 : pattern_t K) (hsorted : List.Sorted (· ≤ ·) ptn1.ecdf)
    (h01 : ∀ x ∈ ptn1.ecdf, 0 ≤ x ∧ x ≤ 1) (himax : ptn1.imax < ptn1.ecdf.length) :
    List.Sorted (· ≤ ·) (map_beta_scaled ptn1) := by
  have hlen := map_beta_scaled_length ptn1
  apply List.pairwise_iff_getElem.mpr
  intro p q hp hq hpq
  rw [hlen] at hp hq
  have key : ∀ (a b : K), (map_beta_scaled ptn1)[p]? = some a →
      (map_beta_scaled ptn1)[q]? = some b → a ≤ b := by
    intro a b ha hb
    obtain ⟨vp, hvp, hp0, hp1⟩ := map_beta_scaled_bounds ptn1 h01 himax p hp
    obtain ⟨vq, hvq, hq0, hq1⟩ := map_beta_scaled_bounds ptn1 h01 himax q hq
    rw [hvp] at ha
    rw [hvq] at hb
    simp only [Option.some.injEq] at ha hb
    subst ha
    subst hb
    by_cases hqi : q < ptn1.imax
    · rcases map_beta_scaled_head ptn1 p (by omega) hp with
        ⟨ip, hminp, hip, hkp, _, hvalp⟩ | ⟨_, hvalp⟩
      · rcases map_beta_scaled_head ptn1 q hqi hq with
          ⟨iq, _, hiq, _, hmaxq, hvalq⟩ | ⟨hnoq, _⟩
        · rw [hvp] at hvalp
          rw [hvq] at hvalq
          simp only [Option.some.injEq] at hvalp hvalq
          rw [hvalp, hvalq]
          have hle : ip ≤ iq := by
            by_contra hcon
            exact hmaxq ip (by omega) hip (le_trans hkp (by exact_mod_cast hpq.le))
          exact sorted_getD_le _ hsorted ip iq hle (by omega)
        · exfalso
          exact hnoq ip hminp hip (le_trans hkp (by exact_mod_cast hpq.le))
      · rw [hvp] at hvalp
        simp only [Option.some.injEq] at hvalp
        rw [hvalp]
        exact hq0
    · have h1 := map_beta_scaled_tail ptn1 q (by omega) hq
      rw [hvq] at h1
      simp only [Option.some.injEq] at h1
      rw [h1]
      exact hp1
  exact key _ _ (List.getElem?_eq_getElem _) (List.getElem?_eq_getElem _)

end RescaleMain

/-- C17 (amended): for every output position `p < imax` of the rescaled ECDF, the value at
`p` is the original ECDF value at the largest index `i` of `[imin, imax]` whose scaled
position covers `p`, `(int) scale(i) ≤ p` (the last pass of the loop that writes `p`), and
`0` when no index of `[imin, imax]` covers `p`. -/
theorem map_beta_rescale_c17 (K : Type) [LinearOrderedField K] [FloorRing K]
    (ptn : pattern_t K) (p : Nat) (hp : p < (map_beta_rescale ptn).imax)
    (hsize : p < ptn.ecdf.length) :
    (∃ i, (map_beta_rescale ptn).imin ≤ i ∧ i ≤ (map_beta_rescale ptn).imax ∧
        to_int (scale (map_beta_rescale ptn) (i : K)) ≤ (p : Int) ∧
        (∀ i1, i < i1 → i1 ≤ (map_beta_rescale ptn).imax →
          ¬ to_int (scale (map_beta_rescale ptn) (i1 : K)) ≤ (p : Int)) ∧
        (map_beta_rescale ptn).ecdf[p]? = some (ptn.ecdf.getD i 0)) ∨
      ((∀ i, (map_beta_rescale ptn).imin ≤ i → i ≤ (map_beta_rescale ptn).imax →
          ¬ to_int (scale (map_beta_rescale ptn) (i : K)) ≤ (p : Int)) ∧
        (map_beta_rescale ptn).ecdf[p]? = some 0) := by
  rw [map_beta_rescale_ecdf]
  exact map_beta_scaled_head (map_beta_find ptn) p hp hsize

/-- C13: for a monotone ECDF with entries in `[0, 1]` for which the two searches find `imin`
and `imax` with `imin ≤ imax`, the ECDF written back by the rescaling step has the same
length, is monotone non-decreasing, and holds `1` at every index from `imax` on. -/
theorem map_beta_rescale_c13 (K : Type) [LinearOrderedField K] [FloorRing K]
    (ptn : pattern_t K) (imin imax : Nat) (hsorted : List.Sorted (· ≤ ·) ptn.ecdf)
    (h01 : ∀ x ∈ ptn.ecdf, 0 ≤ x ∧ x ≤ 1)
    (hmin : find_imin ptn.ecdf ptn.ecdf.length 0 = some imin)
    (hmax : find_imax ptn.ecdf ptn.ecdf.length = some imax) (_hle : imin ≤ imax) :
    (map_beta_rescale ptn).ecdf.length = ptn.ecdf.length ∧
      List.Sorted (· ≤ ·) (map_beta_rescale ptn).ecdf ∧
      ∀ p, imax ≤ p → p < ptn.ecdf.length → (map_beta_rescale ptn).ecdf[p]? = some 1 := by
  have hfind := map_beta_find_of_some ptn imin imax hmin hmax
  have himax : (map_beta_find ptn).imax = imax := by rw [hfind]
  have hecdf : (map_beta_find ptn).ecdf = ptn.ecdf := rfl
  have hlt : imax < ptn.ecdf.length := (find_imax_some ptn.ecdf _ imax hmax).1
  rw [map_beta_rescale_ecdf]
  refine ⟨map_beta_scaled_length _, ?_, ?_⟩
  · exact map_beta_scaled_sorted _ hsorted h01 (by rw [himax]; exact hlt)
  · intro p h1 h2
    exact map_beta_scaled_tail _ p (by rw [himax]; exact h1) h2

/-! ## The rescaling step on a sixteen-bin ECDF

The ECDF is `ecdf16`, `(i + 1) / 16` for `i = 0 .. 15`: `imin = 0`, `imax = 14`,
`iratio = 99 / 16`, and the scaled positions are `6, 12, 18, ...`. -/

theorem find_imin16 : find_imin ecdf16 16 0 = some 0 := by
  simp [find_imin, ecdf16]

theorem find_imax16 : find_imax ecdf16 16 = some 14 := by
  simp [find_imax, ecdf16]
  norm_num

theorem map_beta_find16 :
    map_beta_find (⟨[], ecdf16, 0, 0, 0, 0, 0⟩ : pattern_t ℚ) =
      ⟨[], ecdf16, 0, 0, 0, 14, 99 / 16⟩ := by
  have hlen : ecdf16.length = 16 := rfl
  rw [map_beta_find_of_some _ 0 14 (by rw [hlen]; exact find_imin16)
    (by rw [hlen]; exact find_imax16)]
  norm_num

theorem scale16 (i : Nat) (hi : i ≤ 14) :
    scale (⟨[], ecdf16, 0, 0, 0, 14, 99 / 16⟩ : pattern_t ℚ) (i : ℚ) =
      ((i : ℚ) + 1) * (99 / 16) := by
  unfold scale
  have h1 : ¬ ((i : ℚ) < ((0 : Nat) : ℚ)) := by simp
  have h2 : ¬ ((i : ℚ) > ((14 : Nat) : ℚ)) := by
    have : (i : ℚ) ≤ ((14 : Nat) : ℚ) := by exact_mod_cast hi
    exact not_lt.mpr this
  simp only [h1, h2, if_false]
  norm_num

theorem to_int_scale16 (i : Nat) (hi : i ≤ 14) :
    to_int (scale (⟨[], ecdf16, 0, 0, 0, 14, 99 / 16⟩ : pattern_t ℚ) (i : ℚ)) =
      Int.floor (((i : ℚ) + 1) * (99 / 16)) := by
  rw [scale16 i hi]
  unfold to_int
  rw [if_pos (by positivity)]

theorem to_int_scale16_zero :
    to_int (scale (⟨[], ecdf16, 0, 0, 0, 14, 99 / 16⟩ : pattern_t ℚ) ((0 : Nat) : ℚ)) = 6 := by
  rw [to_int_scale16 0 (by omega), Int.floor_eq_iff]
  norm_num

theorem to_int_scale16_one :
    to_int (scale (⟨[], ecdf16, 0, 0, 0, 14, 99 / 16⟩ : pattern_t ℚ) ((1 : Nat) : ℚ)) = 12 := by
  rw [to_int_scale16 1 (by omega), Int.floor_eq_iff]
  norm_num

theorem to_int_scale16_ge (i : Nat) (h2 : 2 ≤ i) (hi : i ≤ 14) :
    13 ≤ to_int (scale (⟨[], ecdf16, 0, 0, 0, 14, 99 / 16⟩ : pattern_t ℚ) (i : ℚ)) := by
  rw [to_int_scale16 i hi, Int.le_floor]
  have : (2 : ℚ) ≤ (i : ℚ) := by exact_mod_cast h2
  push_cast
  linarith

/-- Position `12` of the rescaled `ecdf16` holds `ecdf16[1] = 1/8`. -/
theorem map_beta_rescale16_twelve :
    (map_beta_rescale (⟨[], ecdf16, 0, 0, 0, 0, 0⟩ : pattern_t ℚ)).ecdf[12]? = some (1 / 8) := by
  rw [map_beta_rescale_ecdf, map_beta_find16]
  rcases map_beta_scaled_head (⟨[], ecdf16, 0, 0, 0, 14, 99 / 16⟩ : pattern_t ℚ) 12
      (by decide) (by decide) with ⟨i, _, hi, hk, hmax, hval⟩ | ⟨hno, _⟩
  · have hi1 : i = 1 := by
      have hle : i ≤ 1 := by
        by_contra hcon
        have := to_int_scale16_ge i (by omega) hi
        have hk' : to_int (scale (⟨[], ecdf16, 0, 0, 0, 14, 99 / 16⟩ : pattern_t ℚ) (i : ℚ)) ≤
            12 := hk
        omega
      have hge : 1 ≤ i := by
        by_contra hcon
        apply hmax 1 (by omega) (by decide)
        rw [to_int_scale16_one]
        decide
      omega
    rw [hval, hi1]
    simp [ecdf16]
    norm_num
  · exfalso
    apply hno 0 (by decide) (by decide)
    rw [to_int_scale16_zero]
    decide

/-- C17 (as stated, refuted): for `ecdf16` the rescaling step finds `imin = 0`, `imax = 14`;
at position `p = 12 < imax` the index `0` covers `p` (`(int) scale(0) = 6 ≤ 12`), so it is
the smallest covering index and the claim gives `ecdf16[0] = 1/16`; the code leaves
`ecdf16[1] = 1/8` there, the value of the last (largest) covering index. -/
theorem map_beta_rescale_c17_counterexample :
    (map_beta_rescale (⟨[], ecdf16, 0, 0, 0, 0, 0⟩ : pattern_t ℚ)).imin = 0 ∧
      (map_beta_rescale (⟨[], ecdf16, 0, 0, 0, 0, 0⟩ : pattern_t ℚ)).imax = 14 ∧
      to_int (scale (map_beta_rescale (⟨[], ecdf16, 0, 0, 0, 0, 0⟩ : pattern_t ℚ))
        ((0 : Nat) : ℚ)) = 6 ∧
      ecdf16.getD 0 0 = 1 / 16 ∧
      (map_beta_rescale (⟨[], ecdf16, 0, 0, 0, 0, 0⟩ : pattern_t ℚ)).ecdf[12]? = some (1 / 8) ∧
      (map_beta_rescale (⟨[], ecdf16, 0, 0, 0, 0, 0⟩ : pattern_t ℚ)).ecdf[12]? ≠
        some (ecdf16.getD 0 0) := by
  have hfind : (map_beta_rescale (⟨[], ecdf16, 0, 0, 0, 0, 0⟩ : pattern_t ℚ)).imin = 0 ∧
      (map_beta_rescale (⟨[], ecdf16, 0, 0, 0, 0, 0⟩ : pattern_t ℚ)).imax = 14 := by
    show (map_beta_find (⟨[], ecdf16, 0, 0, 0, 0, 0⟩ : pattern_t ℚ)).imin = 0 ∧
      (map_beta_find (⟨[], ecdf16, 0, 0, 0, 0, 0⟩ : pattern_t ℚ)).imax = 14
    rw [map_beta_find16]
    exact ⟨rfl, rfl⟩
  have hk0 : to_int (scale (map_beta_rescale (⟨[], ecdf16, 0, 0, 0, 0, 0⟩ : pattern_t ℚ))
      ((0 : Nat) : ℚ)) = 6 := by
    show to_int (scale (map_beta_find (⟨[], ecdf16, 0, 0, 0, 0, 0⟩ : pattern_t ℚ))
      ((0 : Nat) : ℚ)) = 6
    rw [map_beta_find16]
    exact to_int_scale16_zero
  have h0 : ecdf16.getD 0 0 = 1 / 16 := by simp [ecdf16]
  refine ⟨hfind.1, hfind.2, hk0, h0, map_beta_rescale16_twelve, ?_⟩
  rw [map_beta_rescale16_twelve, h0]
  norm_num

/-- Witness for C17 (amended): position `12` of the rescaled `ecdf16`. -/
theorem map_beta_rescale_c17_witness :
    12 < (map_beta_rescale (⟨[], ecdf16, 0, 0, 0, 0, 0⟩ : pattern_t ℚ)).imax ∧
      12 < (⟨[], ecdf16, 0, 0, 0, 0, 0⟩ : pattern_t ℚ).ecdf.length ∧
      ((∃ i, (map_beta_rescale (⟨[], ecdf16, 0, 0, 0, 0, 0⟩ : pattern_t ℚ)).imin ≤ i ∧
          i ≤ (map_beta_rescale (⟨[], ecdf16, 0, 0, 0, 0, 0⟩ : pattern_t ℚ)).imax ∧
          to_int (scale (map_beta_rescale (⟨[], ecdf16, 0, 0, 0, 0, 0⟩ : pattern_t ℚ)) (i : ℚ)) ≤
            ((12 : Nat) : Int) ∧
          (∀ i1, i < i1 →
            i1 ≤ (map_beta_rescale (⟨[], ecdf16, 0, 0, 0, 0, 0⟩ : pattern_t ℚ)).imax →
            ¬ to_int (scale (map_beta_rescale (⟨[], ecdf16, 0, 0, 0, 0, 0⟩ : pattern_t ℚ))
              (i1 : ℚ)) ≤ ((12 : Nat) : Int)) ∧
          (map_beta_rescale (⟨[], ecdf16, 0, 0, 0, 0, 0⟩ : pattern_t ℚ)).ecdf[12]? =
            some ((⟨[], ecdf16, 0, 0, 0, 0, 0⟩ : pattern_t ℚ).ecdf.getD i 0)) ∨
        ((∀ i, (map_beta_rescale (⟨[], ecdf16, 0, 0, 0, 0, 0⟩ : pattern_t ℚ)).imin ≤ i →
            i ≤ (map_beta_rescale (⟨[], ecdf16, 0, 0, 0, 0, 0⟩ : pattern_t ℚ)).imax →
            ¬ to_int (scale (map_beta_rescale (⟨[], ecdf16, 0, 0, 0, 0, 0⟩ : pattern_t ℚ))
              (i : ℚ)) ≤ ((12 : Nat) : Int)) ∧
          (map_beta_rescale (⟨[], ecdf16, 0, 0, 0, 0, 0⟩ : pattern_t ℚ)).ecdf[12]? = some 0)) :=
  have h1 : 12 < (map_beta_rescale (⟨[], ecdf16, 0, 0, 0, 0, 0⟩ : pattern_t ℚ)).imax := by
    show 12 < (map_beta_find (⟨[], ecdf16, 0, 0, 0, 0, 0⟩ : pattern_t ℚ)).imax
    rw [map_beta_find16]
    decide
  have h2 : 12 < (⟨[], ecdf16, 0, 0, 0, 0, 0⟩ : pattern_t ℚ).ecdf.length := by decide
  ⟨h1, h2, map_beta_rescale_c17 ℚ ⟨[], ecdf16, 0, 0, 0, 0, 0⟩ 12 h1 h2⟩

theorem ecdf16_sorted : List.Sorted (· ≤ ·) ecdf16 := by
  simp [ecdf16]
  norm_num

theorem ecdf16_bounds : ∀ x ∈ ecdf16, 0 ≤ x ∧ x ≤ 1 := by
  intro x hx
  simp [ecdf16] at hx
  rcases hx with h | h | h | h | h | h | h | h | h | h | h | h | h | h | h | h <;>
    rw [h] <;> norm_num

/-- Witness for C13: the rescaling step on `ecdf16`, with `imin = 0` and `imax = 14`. -/
theorem map_beta_rescale_c13_witness :
    find_imin ecdf16 ecdf16.length 0 = some 0 ∧ find_imax ecdf16 ecdf16.length = some 14 ∧
      (map_beta_rescale (⟨[], ecdf16, 0, 0, 0, 0, 0⟩ : pattern_t ℚ)).ecdf.length =
        ecdf16.length ∧
      List.Sorted (· ≤ ·) (map_beta_rescale (⟨[], ecdf16, 0, 0, 0, 0, 0⟩ : pattern_t ℚ)).ecdf ∧
      ∀ p, 14 ≤ p → p < ecdf16.length →
        (map_beta_rescale (⟨[], ecdf16, 0, 0, 0, 0, 0⟩ : pattern_t ℚ)).ecdf[p]? = some 1 :=
  ⟨find_imin16, find_imax16,
    map_beta_rescale_c13 ℚ ⟨[], ecdf16, 0, 0, 0, 0, 0⟩ 0 14 ecdf16_sorted ecdf16_bounds
      find_imin16 find_imax16 (by decide)⟩

/-! ## Theorems about `beta::histogram` on `double`s -/

theorem round_even_of_lt (y : ℚ) (m : Int) (h1 : (m : ℚ) - 1 / 2 < y) (h2 : y < m + 1 / 2) :
    round_even y = m := by
  unfold round_even
  rcases le_or_lt (m : ℚ) y with hle | hlt
  · have hf : Int.floor y = m := by
      rw [Int.floor_eq_iff]
      constructor
      · exact hle
      · linarith
    simp only [hf]
    rw [if_pos (by linarith)]
  · have hf : Int.floor y = m - 1 := by
      rw [Int.floor_eq_iff]
      push_cast
      constructor
      · linarith
      · linarith
    simp only [hf]
    push_cast
    rw [if_neg (by linarith), if_pos (by linarith)]
    ring

theorem round_even_tie (y : ℚ) (m : Int) (h : y = m + 1 / 2) :
    round_even y = if m % 2 = 0 then m else m + 1 := by
  unfold round_even
  have hf : Int.floor y = m := by
    rw [Int.floor_eq_iff]
    constructor
    · linarith
    · linarith
  simp only [hf]
  rw [if_neg (by linarith), if_neg (by linarith)]

theorem round_double_eq (x : ℚ) (e m : Int) (hx : 0 < x) (hlo : (2 : ℚ) ^ (e + 52) ≤ x)
    (hhi : x < (2 : ℚ) ^ (e + 53)) (hr : round_even (x / 2 ^ e) = m) :
    round_double x = (m : ℚ) * 2 ^ e := by
  have hlog : Int.log 2 |x| = e + 52 := by
    rw [abs_of_pos hx]
    apply le_antisymm
    · have : Int.log 2 x < e + 52 + 1 := by
        rw [← Int.lt_zpow_iff_log_lt (by norm_num) hx]
        have e1 : e + 52 + 1 = e + 53 := by ring
        rw [e1]
        exact_mod_cast hhi
      omega
    · rw [← Int.zpow_le_iff_le_log (by norm_num) hx]
      exact_mod_cast hlo
  unfold round_double
  rw [if_neg (ne_of_gt hx)]
  simp only [hlog]
  have e2 : e + 52 - 52 = e := by ring
  rw [e2, hr]

/-- The `double` nearest to `1 / 10`: `0.1`, slightly above one tenth. -/
theorem round_double_tenth :
    round_double (1 / 10) =
      3602879701896397 / 36028797018963968 := by
  rw [round_double_eq (1 / 10) (-56) 7205759403792794
    (by norm_num) (by norm_num) (by norm_num)
    (round_even_of_lt _ 7205759403792794 (by norm_num) (by norm_num))]
  norm_num

/-- The rounded sum `0.1 + 0.1`: the `double` `0.2`. -/
theorem round_double_edge1 :
    round_double (3602879701896397 / 18014398509481984) =
      3602879701896397 / 18014398509481984 := by
  rw [round_double_eq (3602879701896397 / 18014398509481984) (-55) 7205759403792794
    (by norm_num) (by norm_num) (by norm_num)
    (round_even_of_lt _ 7205759403792794 (by norm_num) (by norm_num))]
  norm_num

/-- The rounded sum `0.2 + 0.1`: the `double` `0.30000000000000004`. -/
theorem round_double_edge2 :
    round_double (10808639105689191 / 36028797018963968) =
      1351079888211149 / 4503599627370496 := by
  rw [round_double_eq (10808639105689191 / 36028797018963968) (-54) 5404319552844596
    (by norm_num) (by norm_num) (by norm_num)
    (by rw [round_even_tie _ 5404319552844595 (by norm_num)]; norm_num)]
  norm_num

/-- The rounded sum `0.30000000000000004 + 0.1`: the `double` `0.4`. -/
theorem round_double_edge3 :
    round_double (14411518807585589 / 36028797018963968) =
      3602879701896397 / 9007199254740992 := by
  rw [round_double_eq (14411518807585589 / 36028797018963968) (-54) 7205759403792794
    (by norm_num) (by norm_num) (by norm_num)
    (by rw [round_even_tie _ 7205759403792794 (by norm_num)]; norm_num)]
  norm_num

/-- The rounded sum `0.4 + 0.1`: the `double` `0.5`. -/
theorem round_double_edge4 :
    round_double (18014398509481985 / 36028797018963968) =
      1 / 2 := by
  rw [round_double_eq (18014398509481985 / 36028797018963968) (-53) 4503599627370496
    (by norm_num) (by norm_num) (by norm_num)
    (round_even_of_lt _ 4503599627370496 (by norm_num) (by norm_num))]
  norm_num

/-- The rounded sum `0.5 + 0.1`: the `double` `0.6`. -/
theorem round_double_edge5 :
    round_double (21617278211378381 / 36028797018963968) =
      5404319552844595 / 9007199254740992 := by
  rw [round_double_eq (21617278211378381 / 36028797018963968) (-53) 5404319552844595
    (by norm_num) (by norm_num) (by norm_num)
    (round_even_of_lt _ 5404319552844595 (by norm_num) (by norm_num))]
  norm_num

/-- The rounded sum `0.6 + 0.1`: the `double` `0.7`. -/
theorem round_double_edge6 :
    round_double (25220157913274777 / 36028797018963968) =
      3152519739159347 / 4503599627370496 := by
  rw [round_double_eq (25220157913274777 / 36028797018963968) (-53) 6305039478318694
    (by norm_num) (by norm_num) (by norm_num)
    (round_even_of_lt _ 6305039478318694 (by norm_num) (by norm_num))]
  norm_num

/-- The rounded sum `0.7 + 0.1`: the `double` `0.7999999999999999`. -/
theorem round_double_edge7 :
    round_double (28823037615171173 / 36028797018963968) =
      7205759403792793 / 9007199254740992 := by
  rw [round_double_eq (28823037615171173 / 36028797018963968) (-53) 7205759403792793
    (by norm_num) (by norm_num) (by norm_num)
    (round_even_of_lt _ 7205759403792793 (by norm_num) (by norm_num))]
  norm_num

/-- The rounded sum `0.7999999999999999 + 0.1`: the `double` `0.8999999999999999`. -/
theorem round_double_edge8 :
    round_double (32425917317067569 / 36028797018963968) =
      2026619832316723 / 2251799813685248 := by
  rw [round_double_eq (32425917317067569 / 36028797018963968) (-53) 8106479329266892
    (by norm_num) (by norm_num) (by norm_num)
    (round_even_of_lt _ 8106479329266892 (by norm_num) (by norm_num))]
  norm_num

/-- The rounded sum `0.8999999999999999 + 0.1`: the `double` `0.9999999999999999`. -/
theorem round_double_edge9 :
    round_double (36028797018963965 / 36028797018963968) =
      9007199254740991 / 9007199254740992 := by
  rw [round_double_eq (36028797018963965 / 36028797018963968) (-53) 9007199254740991
    (by norm_num) (by norm_num) (by norm_num)
    (round_even_of_lt _ 9007199254740991 (by norm_num) (by norm_num))]
  norm_num

/-- The rounded sum `0.9999999999999999 + 0.1`: the `double` `1.0999999999999999`. -/
theorem round_double_edge10 :
    round_double (39631676720860361 / 36028797018963968) =
      4953959590107545 / 4503599627370496 := by
  rw [round_double_eq (39631676720860361 / 36028797018963968) (-52) 4953959590107545
    (by norm_num) (by norm_num) (by norm_num)
    (round_even_of_lt _ 4953959590107545 (by norm_num) (by norm_num))]
  norm_num

/-- The run of `beta::histogram` on `double`s for the sample `{1.0, 1.0}` and ten bins: the
first value closes ten bins (the tenth edge is `0.9999999999999999`), both values are counted
in `hvar`, and `hist.back()++` adds one to the last closed bin. -/
theorem histogram_double_upper_edge :
    histogram_double 11 [1, 1] 10 = some [0, 0, 0, 0, 0, 0, 0, 0, 0, 1] := by
  norm_num [histogram_double, histogram_loop_double, histogram_advance_double,
    round_double_tenth, round_double_edge1, round_double_edge2, round_double_edge3,
    round_double_edge4, round_double_edge5, round_double_edge6, round_double_edge7,
    round_double_edge8, round_double_edge9, round_double_edge10, incr_back, histogram_pad]

/-- Where no sum is rounded the two models agree: two bins, edges `1/2` and `1`. -/
theorem histogram_double_exact_example :
    histogram_double 3 [1 / 4, 1 / 2, 1] 2 = some [2, 1] ∧
      histogram [1 / 4, 1 / 2, 1] 2 = [2, 1] := by
  have h2 : round_double (1 / 2) = 1 / 2 := by
    rw [round_double_eq (1 / 2) (-53) 4503599627370496 (by norm_num) (by norm_num) (by norm_num)
      (round_even_of_lt _ 4503599627370496 (by norm_num) (by norm_num))]
    norm_num
  have h1 : round_double 1 = 1 := by
    rw [round_double_eq 1 (-52) 4503599627370496 (by norm_num) (by norm_num) (by norm_num)
      (round_even_of_lt _ 4503599627370496 (by norm_num) (by norm_num))]
    norm_num
  constructor
  · norm_num [histogram_double, histogram_loop_double, histogram_advance_double, h1, h2,
      incr_back, histogram_pad]
  · unfold histogram
    simp only [List.foldl, histogram_step]
    repeat
      rw [histogram_advance]
      norm_num [histogram_pad]

/-- In exact arithmetic the tenth edge is `1`, the sample `{1, 1}` stays in the open tenth
bin and the padding loop stores `hvar = 2`. -/
theorem histogram_exact_upper_edge :
    histogram [1, 1] 10 = [0, 0, 0, 0, 0, 0, 0, 0, 0, 2] := by
  unfold histogram
  simp only [List.foldl, histogram_step]
  repeat
    rw [histogram_advance]
    norm_num [histogram_pad]

/-! ## The iteration bound of `histogram_double` -/

theorem histogram_advance_double_mono (step x : ℚ) (k : Nat) :
    ∀ (fuel : Nat) (s r : HistState), histogram_advance_double step x fuel s = some r →
      histogram_advance_double step x (fuel + k) s = some r := by
  intro fuel
  induction fuel with
  | zero =>
    intro s r h
    simp [histogram_advance_double] at h
  | succ fuel ih =>
    intro s r h
    rw [Nat.succ_add]
    simp only [histogram_advance_double] at h ⊢
    split_ifs at h ⊢ with hc
    · exact ih _ _ h
    · exact h

theorem histogram_loop_double_mono (step : ℚ) (fuel k : Nat) :
    ∀ (data : List ℚ) (s r : HistState), histogram_loop_double step fuel data s = some r →
      histogram_loop_double step (fuel + k) data s = some r := by
  intro data
  induction data with
  | nil =>
    intro s r h
    simpa [histogram_loop_double] using h
  | cons x xs ih =>
    intro s r h
    simp only [histogram_loop_double] at h ⊢
    cases h1 : histogram_advance_double step x fuel s with
    | none => simp [h1] at h
    | some s1 =>
      rw [h1] at h
      rw [histogram_advance_double_mono step x k fuel s s1 h1]
      exact ih _ _ h

/-- A larger iteration bound does not change a result of `histogram_double`. -/
theorem histogram_double_mono (fuel k : Nat) (data : List ℚ) (bins : Nat) (r : List Int)
    (h : histogram_double fuel data bins = some r) :
    histogram_double (fuel + k) data bins = some r := by
  unfold histogram_double at h ⊢
  simp only at h ⊢
  cases h1 : histogram_loop_double (round_double (1 / (bins : ℚ))) fuel data
      ⟨[], 0, round_double (1 / (bins : ℚ))⟩ with
  | none =>
    rw [h1] at h
    exact absurd h (by simp)
  | some s =>
    rw [h1] at h
    rw [histogram_loop_double_mono _ fuel k data _ s h1]
    exact h

/-! ## Theorems about `beta::moment_match` on `double`s -/

theorem round_even_ge_floor (y : ℚ) : Int.floor y ≤ round_even y := by
  unfold round_even
  simp only
  split_ifs <;> omega

theorem round_even_le_floor_succ (y : ℚ) : round_even y ≤ Int.floor y + 1 := by
  unfold round_even
  simp only
  split_ifs <;> omega

theorem round_double_scaled_ge (x : ℚ) (hx : 0 < x) :
    (2 : ℚ) ^ (52 : Nat) ≤ x / 2 ^ (Int.log 2 x - 52) := by
  have h2 : (0 : ℚ) < 2 ^ (Int.log 2 x - 52) := by positivity
  rw [le_div_iff₀ h2, ← zpow_natCast, ← zpow_add₀ (by norm_num : (2 : ℚ) ≠ 0)]
  have e : ((52 : Nat) : Int) + (Int.log 2 x - 52) = Int.log 2 x := by
    push_cast
    ring
  rw [e]
  exact_mod_cast Int.zpow_log_le_self (by norm_num : 1 < 2) hx

/-- Rounding to a `double` keeps a positive number positive (no underflow in this model). -/
theorem round_double_pos (x : ℚ) (hx : 0 < x) : 0 < round_double x := by
  unfold round_double
  rw [if_neg (ne_of_gt hx)]
  simp only [abs_of_pos hx]
  have h1 := round_double_scaled_ge x hx
  have h2 : (0 : ℚ) < 2 ^ (Int.log 2 x - 52) := by positivity
  have h3 : (1 : Int) ≤ Int.floor (x / 2 ^ (Int.log 2 x - 52)) := by
    rw [Int.le_floor]
    have : (1 : ℚ) ≤ 2 ^ (52 : Nat) := by norm_num
    push_cast
    linarith
  have h4 := round_even_ge_floor (x / 2 ^ (Int.log 2 x - 52))
  have h5 : (0 : ℚ) < (round_even (x / 2 ^ (Int.log 2 x - 52)) : ℚ) := by
    exact_mod_cast (by omega : 0 < round_even (x / 2 ^ (Int.log 2 x - 52)))
  exact mul_pos h5 h2

/-- Rounding to a `double` keeps a negative number negative. -/
theorem round_double_neg (x : ℚ) (hx : x < 0) : round_double x < 0 := by
  unfold round_double
  rw [if_neg (ne_of_lt hx)]
  simp only [abs_of_neg hx]
  have h1 := round_double_scaled_ge (-x) (neg_pos.mpr hx)
  have h2 : (0 : ℚ) < 2 ^ (Int.log 2 (-x) - 52) := by positivity
  have h3 : Int.floor (x / 2 ^ (Int.log 2 (-x) - 52)) ≤ -2 := by
    have hlt : x / 2 ^ (Int.log 2 (-x) - 52) < ((-1 : Int) : ℚ) := by
      have : (2 : ℚ) ≤ 2 ^ (52 : Nat) := by norm_num
      rw [neg_div] at h1
      push_cast
      linarith
    have := Int.floor_lt.mpr hlt
    omega
  have h4 := round_even_le_floor_succ (x / 2 ^ (Int.log 2 (-x) - 52))
  have h5 : (round_even (x / 2 ^ (Int.log 2 (-x) - 52)) : ℚ) < 0 := by
    exact_mod_cast (by omega : round_even (x / 2 ^ (Int.log 2 (-x) - 52)) < 0)
  exact mul_neg_of_neg_of_pos h5 h2

theorem round_double_zero : round_double 0 = 0 := by
  simp [round_double]

theorem round_double_ne_zero (x : ℚ) (hx : x ≠ 0) : round_double x ≠ 0 := by
  rcases lt_or_gt_of_ne hx with h | h
  · exact ne_of_lt (round_double_neg x h)
  · exact ne_of_gt (round_double_pos x h)

/-- On `double`s `moment_match` returns two positive parameters when the quotient it
computes is not `1`. -/
theorem moment_match_double_pos (mean var : ℚ) (h0 : 0 < mean) (h1 : mean < 1)
    (hq : moment_match_quotient_double mean var ≠ 1) :
    0 < (moment_match_double mean var).alpha ∧ 0 < (moment_match_double mean var).beta := by
  have hml : 0 < round_double (mean - 0) := round_double_pos _ (by linarith)
  have hum : 0 < round_double (1 - mean) := round_double_pos _ (by linarith)
  have ht : round_double (moment_match_quotient_double mean var - 1) ≠ 0 :=
    round_double_ne_zero _ (sub_ne_zero.mpr hq)
  have ha : 0 < |round_double (mean *
      round_double (moment_match_quotient_double mean var - 1))| :=
    abs_pos.mpr (round_double_ne_zero _ (mul_ne_zero (ne_of_gt h0) ht))
  refine ⟨ha, ?_⟩
  exact round_double_pos _ (mul_pos ha (round_double_pos _ (div_pos hum hml)))

/-- On `double`s `moment_match` returns `(0, 0)` when the quotient it computes is `1`. -/
theorem moment_match_double_zero (mean var : ℚ)
    (hq : moment_match_quotient_double mean var = 1) :
    moment_match_double mean var = ⟨0, 0⟩ := by
  unfold moment_match_quotient_double at hq
  simp only at hq
  unfold moment_match_double
  simp only [hq, sub_self, round_double_zero, mul_zero, abs_zero, zero_mul]

/-- In exact arithmetic `moment_match` returns `(0, 0)` when `var = mean (1 - mean)`. -/
theorem moment_match_zero {K : Type} [LinearOrderedField K] (mean var : K) (h0 : 0 < mean)
    (h1 : mean < 1) (hv : var = mean * (1 - mean)) : moment_match mean var = ⟨0, 0⟩ := by
  have hm : mean * (1 - mean) ≠ 0 := ne_of_gt (mul_pos h0 (by linarith))
  unfold moment_match
  simp only [sub_zero, hv, div_self hm, sub_self, mul_zero, abs_zero, zero_mul]

/-- The number `1` is a `double`. -/
theorem round_double_one :
    round_double (1) =
      1 := by
  rw [round_double_eq (1) (-52) 4503599627370496
    (by norm_num) (by norm_num) (by norm_num)
    (round_even_of_lt _ 4503599627370496 (by norm_num) (by norm_num))]
  norm_num

/-- The number `1 / 2` is a `double`. -/
theorem round_double_half :
    round_double (1 / 2) =
      1 / 2 := by
  rw [round_double_eq (1 / 2) (-53) 4503599627370496
    (by norm_num) (by norm_num) (by norm_num)
    (round_even_of_lt _ 4503599627370496 (by norm_num) (by norm_num))]
  norm_num

/-- The number `1 / 4` is a `double`. -/
theorem round_double_quarter :
    round_double (1 / 4) =
      1 / 4 := by
  rw [round_double_eq (1 / 4) (-54) 4503599627370496
    (by norm_num) (by norm_num) (by norm_num)
    (round_even_of_lt _ 4503599627370496 (by norm_num) (by norm_num))]
  norm_num

/-- The `double` `0.3` is kept by rounding. -/
theorem round_double_mean_example :
    round_double (5404319552844595 / 18014398509481984) =
      5404319552844595 / 18014398509481984 := by
  rw [round_double_eq (5404319552844595 / 18014398509481984) (-54) 5404319552844595
    (by norm_num) (by norm_num) (by norm_num)
    (round_even_of_lt _ 5404319552844595 (by norm_num) (by norm_num))]
  norm_num

/-- The rounded difference `1 - 0.3`: the `double` `0.7`. -/
theorem round_double_um_example :
    round_double (12610078956637389 / 18014398509481984) =
      3152519739159347 / 4503599627370496 := by
  rw [round_double_eq (12610078956637389 / 18014398509481984) (-53) 6305039478318694
    (by norm_num) (by norm_num) (by norm_num)
    (by rw [round_even_tie _ 6305039478318694 (by norm_num)]; norm_num)]
  norm_num

/-- The rounded product `0.3 * 0.7`: the `double` `0.21`. -/
theorem round_double_product_example :
    round_double (17037224067067401444747832679465 / 81129638414606681695789005144064) =
      7566047373982433 / 36028797018963968 := by
  rw [round_double_eq (17037224067067401444747832679465 / 81129638414606681695789005144064)
    (-55) 7566047373982433
    (by norm_num) (by norm_num) (by norm_num)
    (round_even_of_lt _ 7566047373982433 (by norm_num) (by norm_num))]
  norm_num

/-- At the `double`s `0.3` and `0.21` the quotient `(ml * um) / var` is computed as `1`: the
rounded product `0.3 * 0.7` is the `double` `0.21` itself. -/
theorem moment_match_quotient_double_example :
    moment_match_quotient_double (5404319552844595 / 18014398509481984)
      (7566047373982433 / 36028797018963968) = 1 := by
  norm_num [moment_match_quotient_double, round_double_mean_example, round_double_um_example,
    round_double_product_example, round_double_one]

theorem moment_match_quotient_double_half :
    moment_match_quotient_double (1 / 2) (1 / 2) = 1 / 2 := by
  norm_num [moment_match_quotient_double, round_double_half, round_double_quarter]

theorem moment_match_quotient_double_quarter :
    moment_match_quotient_double (1 / 2) (1 / 4) = 1 := by
  norm_num [moment_match_quotient_double, round_double_half, round_double_quarter,
    round_double_one]

/-- C1 (code evaluated at the failing input): on `double`s the sorted sample `{1.0, 1.0}` with
ten bins gives `[0, 0, 0, 0, 0, 0, 0, 0, 0, 1]` (with eleven or more tests of the inner loop
condition allowed for a value): ten entries that add up to `1` for `2` values.  The
accumulated edge of the tenth bin is `0.9999999999999999 < 1.0`, so the cursor loop closes
all ten bins before it counts the two values in `hvar`, and `hist.back()++` then adds `1`
where `hvar = 2` values are waiting.  (In exact arithmetic the same input gives
`[0, 0, 0, 0, 0, 0, 0, 0, 0, 2]`, see `histogram_exact_upper_edge`.) -/
theorem histogram_c1_upper_edge :
    List.Sorted (· ≤ ·) ([1, 1] : List ℚ) ∧ 1 ≤ 10 ∧
      (∀ fuel : Nat, 11 ≤ fuel →
        histogram_double fuel [1, 1] 10 = some [0, 0, 0, 0, 0, 0, 0, 0, 0, 1]) ∧
      ([0, 0, 0, 0, 0, 0, 0, 0, 0, 1] : List Int).length = 10 ∧
      ([0, 0, 0, 0, 0, 0, 0, 0, 0, 1] : List Int).sum ≠ (([1, 1] : List ℚ).length : Int) := by
  refine ⟨by simp, by decide, ?_, by decide, by decide⟩
  intro fuel hfuel
  have h := histogram_double_mono 11 (fuel - 11) [1, 1] 10 _ histogram_double_upper_edge
  rwa [Nat.add_sub_cancel' hfuel] at h

/-- C15 (as stated, refuted): `mean = 1/2` and `var = 1/4 = mean (1 - mean)` lie in the stated
domain, the quotient `(ml * um) / var` is `1`, and `moment_match` returns `(0, 0)`, in exact
arithmetic and on `double`s alike (all the numbers involved are `double`s). -/
theorem moment_match_c15_counterexample :
    (0 : ℚ) < 1 / 2 ∧ (1 / 2 : ℚ) < 1 ∧ (0 : ℚ) < 1 / 4 ∧
      moment_match (1 / 2 : ℚ) (1 / 4) = ⟨0, 0⟩ ∧
      moment_match_double (1 / 2) (1 / 4) = ⟨0, 0⟩ ∧
      ¬ (0 < (moment_match (1 / 2 : ℚ) (1 / 4)).alpha ∧
          0 < (moment_match (1 / 2 : ℚ) (1 / 4)).beta) ∧
      ¬ (0 < (moment_match_double (1 / 2) (1 / 4)).alpha ∧
          0 < (moment_match_double (1 / 2) (1 / 4)).beta) := by
  have h : moment_match (1 / 2 : ℚ) (1 / 4) = ⟨0, 0⟩ := by
    unfold moment_match
    norm_num
  have hd : moment_match_double (1 / 2) (1 / 4) = ⟨0, 0⟩ :=
    moment_match_double_zero _ _ moment_match_quotient_double_quarter
  refine ⟨by norm_num, by norm_num, by norm_num, h, hd, ?_, ?_⟩
  · rw [h]
    simp
  · rw [hd]
    simp

/-- C15 (amended): for `0 < mean < 1` and `var > 0`, `moment_match` returns `alpha > 0` and
`beta > 0` when the quotient `(ml * um) / var` it computes is not `1`, and `(0, 0)` when that
quotient is `1`.  On `double`s the quotient is the rounded one
(`moment_match_quotient_double`; no overflow or underflow); in exact arithmetic the quotient
is `1` exactly when `var = mean (1 - mean)`. -/
theorem moment_match_c15 (mean var : ℚ) (h0 : 0 < mean) (h1 : mean < 1) (hv0 : 0 < var) :
    ((moment_match_quotient_double mean var ≠ 1 →
          0 < (moment_match_double mean var).alpha ∧ 0 < (moment_match_double mean var).beta) ∧
        (moment_match_quotient_double mean var = 1 → moment_match_double mean var = ⟨0, 0⟩)) ∧
      ((((mean - 0) * (1 - mean)) / var = 1 ↔ var = mean * (1 - mean)) ∧
        (var ≠ mean * (1 - mean) →
          0 < (moment_match mean var).alpha ∧ 0 < (moment_match mean var).beta) ∧
        (var = mean * (1 - mean) → moment_match mean var = ⟨0, 0⟩)) := by
  refine ⟨⟨moment_match_double_pos mean var h0 h1, moment_match_double_zero mean var⟩,
    ?_, moment_match_pos mean var h0 h1 hv0, moment_match_zero mean var h0 h1⟩
  rw [sub_zero, div_eq_one_iff_eq (ne_of_gt hv0)]
  exact eq_comm

/-- Witness for C15 (amended): at `mean = 1/2`, `var = 1/2` the computed quotient is `1/2` and
both parameters are positive, on `double`s and in exact arithmetic; at the `double`s
`mean = 0.3`, `var = 0.21` the quotient is computed as `1` and the result on `double`s is
`(0, 0)`, while `var` differs from the exact `mean (1 - mean)`. -/
theorem moment_match_c15_witness :
    ((0 : ℚ) < 1 / 2 ∧ (1 / 2 : ℚ) < 1 ∧ (0 : ℚ) < 1 / 2 ∧
        moment_match_quotient_double (1 / 2) (1 / 2) ≠ 1 ∧
        (1 / 2 : ℚ) ≠ 1 / 2 * (1 - 1 / 2) ∧
        (0 < (moment_match_double (1 / 2) (1 / 2)).alpha ∧
          0 < (moment_match_double (1 / 2) (1 / 2)).beta) ∧
        (0 < (moment_match (1 / 2 : ℚ) (1 / 2)).alpha ∧
          0 < (moment_match (1 / 2 : ℚ) (1 / 2)).beta)) ∧
      ((0 : ℚ) < 5404319552844595 / 18014398509481984 ∧
        (5404319552844595 / 18014398509481984 : ℚ) < 1 ∧
        (0 : ℚ) < 7566047373982433 / 36028797018963968 ∧
        moment_match_quotient_double (5404319552844595 / 18014398509481984)
          (7566047373982433 / 36028797018963968) = 1 ∧
        (7566047373982433 / 36028797018963968 : ℚ) ≠
          5404319552844595 / 18014398509481984 * (1 - 5404319552844595 / 18014398509481984) ∧
        moment_match_double (5404319552844595 / 18014398509481984)
          (7566047373982433 / 36028797018963968) = ⟨0, 0⟩) := by
  have hq : moment_match_quotient_double (1 / 2) (1 / 2) ≠ 1 := by
    rw [moment_match_quotient_double_half]
    norm_num
  have hne : (1 / 2 : ℚ) ≠ 1 / 2 * (1 - 1 / 2) := by norm_num
  refine ⟨⟨by norm_num, by norm_num, by norm_num, hq, hne,
    (moment_match_c15 (1 / 2) (1 / 2) (by norm_num) (by norm_num) (by norm_num)).1.1 hq,
    (moment_match_c15 (1 / 2) (1 / 2) (by norm_num) (by norm_num) (by norm_num)).2.2.1 hne⟩,
    by norm_num, by norm_num, by norm_num, moment_match_quotient_double_example, by norm_num,
    (moment_match_c15 (5404319552844595 / 18014398509481984)
      (7566047373982433 / 36028797018963968) (by norm_num) (by norm_num)
      (by norm_num)).1.2 moment_match_quotient_double_example⟩

end beta

end classprobability
